import Mathlib

/-!
# AnimationFlashReader: a shallow embedding

Embedding of `main/display/animation_flash_reader_new.h` and `.cc`: the bounds-checked
partition access (`read`, `writeRaw`), the catalog loader (`loadAnimationTable`,
`getAnimationNames`, `findAnimation`), the streamed run-length decoder
(`decodeRLEFrameStreamed`) and frame playback (`play`); and of the animation
part of `main/display/ssd1331_display.cc` (`loadAnimation`, `playAnimation`).

Conventions.
* A byte is a `Fin 256`; `uint16_t` and `uint32_t` values are naturals, reduced
  modulo `2^16` and `2^32` wherever the C++ arithmetic can wrap.  The target is a
  32-bit MCU, so `size_t` is 32 bits wide as well.
* The flash driver (`esp_partition_read` / `esp_partition_write`) is outside the
  repository.  A `Partition` carries the region size, its contents and two fault
  oracles saying which transactions the medium serves.
* Every driver call issued is recorded in a transaction log (`Txn`), so that
  statements about "no storage access" can be made.
-/

namespace AnimationFlashReader

/-! ## Machine integers and bytes -/

/-- One byte of flash or RAM. -/
abbrev Byte := Fin 256

/-- Modulus of `uint32_t` (and of `size_t` on the 32-bit target). -/
def U32 : Nat := 2 ^ 32

/-- Modulus of `uint16_t`. -/
def U16 : Nat := 2 ^ 16

/-- Constant `MAX_FRAME_PIXELS = 96 * 64`. -/
def MAX_FRAME_PIXELS : Nat := 96 * 64

/-- Constant `NAME_SIZE = 32`. -/
def NAME_SIZE : Nat := 32

/-- Constant `MAX_ANIMATIONS = 70`. -/
def MAX_ANIMATIONS : Nat := 70

/-- Constant `READ_CHUNK = 256`. -/
def READ_CHUNK : Nat := 256

/-- Byte `i` of a buffer; the buffers of the source are all read in bounds, the
default only makes the function total. -/
def byteAt (buf : List Byte) (i : Nat) : Nat := (buf.getD i 0).val

/-- Little-endian `uint16_t` at `buf[i], buf[i+1]`:
`(buf[i+1] << 8) | buf[i]`. -/
def le16 (buf : List Byte) (i : Nat) : Nat :=
  ((byteAt buf (i + 1) <<< 8) ||| byteAt buf i) % U16

/-- Little-endian `uint32_t` at `buf[i] .. buf[i+3]`:
`(buf[i+3] << 24) | (buf[i+2] << 16) | (buf[i+1] << 8) | buf[i]`, the value the
target leaves in the `uint32_t` it is assigned to. -/
def le32 (buf : List Byte) (i : Nat) : Nat :=
  ((byteAt buf (i + 3) <<< 24) ||| (byteAt buf (i + 2) <<< 16) |||
    (byteAt buf (i + 1) <<< 8) ||| byteAt buf i) % U32

/-- The four bytes of the literal "PACK". -/
def MAGIC_PACK : List Byte := [0x50, 0x41, 0x43, 0x4B]

/-- The four bytes of the literal "ANIM". -/
def MAGIC_ANIM : List Byte := [0x41, 0x4E, 0x49, 0x4D]

/-! ## The partition and its driver -/

/-- A data partition as the driver presents it: `size` bytes of contents `mem`,
and the medium's fault behaviour (`readOk a l` / `writeOk a l` tell whether a
transaction of `l` bytes at offset `a` is served). -/
structure Partition where
  size : Nat
  mem : Nat → Byte
  readOk : Nat → Nat → Bool
  writeOk : Nat → Nat → Bool

/-- A call made to the partition driver. -/
inductive Txn where
  | read (addr len : Nat)
  | write (addr : Nat) (data : List Byte)
  deriving DecidableEq, Repr

/-- The bytes of the partition at offsets `addr .. addr + len - 1`. -/
def Partition.bytes (p : Partition) (addr len : Nat) : List Byte :=
  (List.range len).map (fun i => p.mem (addr + i))

/-- Driver call `esp_partition_read(p, src_offset, dst, size)`: the driver rejects
a range that leaves the partition, otherwise the medium either serves the bytes
or reports an error. -/
def esp_partition_read (p : Partition) (src_offset size : Nat) : Option (List Byte) :=
  if src_offset > p.size ∨ size > p.size - src_offset then none
  else if p.readOk src_offset size then some (p.bytes src_offset size)
  else none

/-- Driver call `esp_partition_write(p, dst_offset, src, size)`; only its status
is observed by the reader. -/
def esp_partition_write (p : Partition) (dst_offset : Nat) (src : List Byte) : Bool :=
  if dst_offset > p.size ∨ src.length > p.size - dst_offset then false
  else p.writeOk dst_offset src.length

/-! ## Reader state -/

/-- The struct `AnimationEntry`: `char name[32]; uint32_t offset; uint32_t length`. -/
structure AnimationEntry where
  name : List Byte
  offset : Nat
  length : Nat
  deriving DecidableEq, Repr

/-- The data members of `class AnimationFlashReader`. -/
structure Reader where
  partition_ : Option Partition
  base_offset_ : Nat
  animations_ : List AnimationEntry
  frame_buffer_ : List Nat
  rle_chunk_ : List Byte

/-- Outcome of `read`: the bytes delivered (`none` when `read` returns false) and
the driver calls it made. -/
structure ReadResult where
  data : Option (List Byte)
  txns : List Txn
  deriving DecidableEq

/-- Method `AnimationFlashReader::read(rel_addr, out, len)`.  The bound test
`base_offset_ + rel_addr + len > partition_->size` is evaluated in 32-bit
unsigned arithmetic, and so is the address handed to the driver. -/
def read (r : Reader) (rel_addr len : Nat) : ReadResult :=
  match r.partition_ with
  | none => ⟨none, []⟩
  | some p =>
    if (r.base_offset_ + rel_addr + len) % U32 > p.size then ⟨none, []⟩
    else
      ⟨esp_partition_read p ((r.base_offset_ + rel_addr) % U32) len,
        [Txn.read ((r.base_offset_ + rel_addr) % U32) len]⟩

/-- Outcome of `writeRaw`: its return value and the driver calls it made. -/
structure WriteResult where
  ok : Bool
  txns : List Txn
  deriving DecidableEq

/-- The `while (remaining > 0)` loop of `writeRaw`, over chunk size `c`:
`src` is the unwritten rest of the data (`remaining = src.length`).  The result
is `none` only if the fuel runs out before the loop ends. -/
def writeLoop (p : Partition) (base c : Nat) :
    Nat → Nat → List Byte → List Txn → Option WriteResult
  | fuel, addr, src, log =>
    if src.length > 0 then
      match fuel with
      | 0 => none
      | fuel + 1 =>
        let chunk := if src.length > c then c else src.length
        let dst := (base + addr) % U32
        let log := log ++ [Txn.write dst (src.take chunk)]
        if esp_partition_write p dst (src.take chunk) then
          writeLoop p base c fuel ((addr + chunk) % U32) (src.drop chunk) log
        else some ⟨false, log⟩
    else some ⟨true, log⟩

/-- Method `AnimationFlashReader::writeRaw(rel_addr, data, len)` with `len = data.length`. -/
def writeRaw (r : Reader) (rel_addr : Nat) (data : List Byte) : Option WriteResult :=
  match r.partition_ with
  | none => some ⟨false, []⟩
  | some p =>
    if (r.base_offset_ + rel_addr + data.length) % U32 > p.size then some ⟨false, []⟩
    else writeLoop p r.base_offset_ READ_CHUNK data.length rel_addr data []

/-! ## The catalog -/

/-- Outcome of `loadAnimationTable` / `begin` / `reload`: the return value, the
reader afterwards and the driver calls made. -/
structure LoadResult where
  ok : Bool
  reader : Reader
  txns : List Txn

/-- The `for (uint16_t i = 0; i < anim_count; i++)` loop of `loadAnimationTable`
with `k` iterations still to run: `offset` is the running table offset, `acc`
the entries pushed onto `animations_` so far.  A failed read returns false at
once, with `acc` as it stands. -/
def loadEntries (r : Reader) :
    Nat → Nat → List AnimationEntry → List Txn → Bool × List AnimationEntry × List Txn
  | 0, _, acc, log => (true, acc, log)
  | k + 1, offset, acc, log =>
    let rn := read r offset NAME_SIZE
    match rn.data with
    | none => (false, acc, log ++ rn.txns)
    | some name =>
      let offset := offset + NAME_SIZE
      let ro := read r offset 4
      match ro.data with
      | none => (false, acc, log ++ rn.txns ++ ro.txns)
      | some offbuf =>
        let offset := offset + 4
        let rl := read r offset 4
        match rl.data with
        | none => (false, acc, log ++ rn.txns ++ ro.txns ++ rl.txns)
        | some lenbuf =>
          let offset := offset + 4
          let entry : AnimationEntry := ⟨name, le32 offbuf 0, le32 lenbuf 0⟩
          loadEntries r k offset (acc ++ [entry]) (log ++ rn.txns ++ ro.txns ++ rl.txns)

/-- Method `AnimationFlashReader::loadAnimationTable()`.  The direct `esp_flash_read`
at the top of the function only feeds the log and is left out. -/
def loadAnimationTable (r : Reader) : LoadResult :=
  let r0 : Reader := { r with animations_ := [] }
  let rm := read r0 0 4
  match rm.data with
  | none => ⟨false, r0, rm.txns⟩
  | some magic =>
    if magic ≠ MAGIC_PACK then ⟨false, r0, rm.txns⟩
    else
      let rc := read r0 4 2
      match rc.data with
      | none => ⟨false, r0, rm.txns ++ rc.txns⟩
      | some count_buf =>
        let anim_count := le16 count_buf 0
        if anim_count > MAX_ANIMATIONS then ⟨false, r0, rm.txns ++ rc.txns⟩
        else
          let res := loadEntries r0 anim_count 6 [] (rm.txns ++ rc.txns)
          ⟨res.1, { r0 with animations_ := res.2.1 }, res.2.2⟩

/-- Method `AnimationFlashReader::reload()`. -/
def reload (r : Reader) : LoadResult := loadAnimationTable r

/-- Method `AnimationFlashReader::begin()`; `found` is what
`esp_partition_find_first` answers for the reader's partition label. -/
def begin (found : Option Partition) (r : Reader) : LoadResult :=
  match r.partition_ with
  | some _ => loadAnimationTable r
  | none =>
    match found with
    | none => ⟨false, r, []⟩
    | some p =>
      let r1 : Reader := { r with partition_ := some p }
      if r.base_offset_ ≥ p.size then ⟨false, r1, []⟩
      else loadAnimationTable r1

/-- The four bytes a `uint32_t` occupies in the memory of the little-endian
target, lowest byte first. -/
def u32Bytes (v : Nat) : List Byte :=
  [Fin.ofNat (v % 256), Fin.ofNat (v / 256 % 256), Fin.ofNat (v / 65536 % 256),
    Fin.ofNat (v / 16777216 % 256)]

/-- The 40 bytes a `struct AnimationEntry { char name[32]; uint32_t offset;
uint32_t length; }` occupies in memory: the name field (NUL-filled to 32 bytes),
then `offset`, then `length`. -/
def entryMemory (e : AnimationEntry) : List Byte :=
  (e.name ++ List.replicate NAME_SIZE 0).take NAME_SIZE ++ u32Bytes e.offset ++
    u32Bytes e.length

/-- Constructor `std::string(const char* s)`: the bytes before the first NUL,
where `mem` is the memory that starts at `s`, as far as its contents are known.
A string that does not end inside `mem` has no defined value (`none`). -/
def cstr (mem : List Byte) : Option (List Byte) :=
  if (0 : Byte) ∈ mem then some (mem.takeWhile (fun b => b ≠ 0)) else none

/-- The loop `for (const auto& anim : animations_) names.emplace_back(anim.name)`
of `getAnimationNames`.  The string is built from the pointer `anim.name` with no
length: the elements of the vector lie one after the other, so the bytes that
follow a name field are the entry's `offset` and `length` and then the entries
after it; what follows the last element is not known. -/
def namesLoop : List AnimationEntry → List (Option (List Byte))
  | [] => []
  | anim :: rest => cstr ((anim :: rest).flatMap entryMemory) :: namesLoop rest

/-- Method `AnimationFlashReader::getAnimationNames()`. -/
def getAnimationNames (r : Reader) : List (Option (List Byte)) :=
  namesLoop r.animations_

/-- C library `strncmp(s1, s2, n)`; a string is its bytes followed by NULs.
Returns the difference of the first pair of differing bytes, or 0 when the
strings agree up to a NUL or over `n` bytes. -/
def strncmp (s1 s2 : List Byte) : Nat → Int
  | 0 => 0
  | n + 1 =>
    let c1 := byteAt s1 0
    let c2 := byteAt s2 0
    if c1 ≠ c2 then (c1 : Int) - (c2 : Int)
    else if c1 = 0 then 0
    else strncmp s1.tail s2.tail n

/-- The `for (const auto& anim : animations_)` scan of `findAnimation`. -/
def findLoop (name : List Byte) : List AnimationEntry → Option AnimationEntry
  | [] => none
  | anim :: rest =>
    if strncmp anim.name name NAME_SIZE = 0 then some anim else findLoop name rest

/-- Method `AnimationFlashReader::findAnimation(name)`; `none` is the null pointer, as
argument and as result. -/
def findAnimation (r : Reader) (name : Option (List Byte)) : Option AnimationEntry :=
  match name with
  | none => none
  | some nm => findLoop nm r.animations_

/-- Method `AnimationFlashReader::getFrameCount(anim)`. -/
def getFrameCount (r : Reader) (anim : AnimationEntry) : Nat :=
  match (read r anim.offset 6).data with
  | none => 0
  | some header => if header.take 4 ≠ MAGIC_ANIM then 0 else le16 header 4

/-! ## The streamed run-length decoder -/

/-- The colour of a record: `(static_cast<uint16_t>(hi) << 8) | lo`. -/
def color16 (hi lo : Nat) : Nat := ((hi <<< 8) ||| lo) % U16

/-- The innermost loop
`for (uint8_t i = 0; i < count && pixel_index < n; ++i) out_frame[pixel_index++] = color`
with `k` iterations still to run; the state is `(out_frame, pixel_index)`. -/
def runLoop (n color : Nat) : Nat → List Nat × Nat → List Nat × Nat
  | 0, st => st
  | k + 1, (out, pixel_index) =>
    if pixel_index < n then runLoop n color k (out.set pixel_index color, pixel_index + 1)
    else (out, pixel_index)

/-- The record loop
`for (pos = 0; pos < parse_len && pixel_index < n; pos += 3)` with `k` records
still ahead of `pos` (`parse_len` is a multiple of 3, so `pos < parse_len`
exactly while `k > 0`). -/
def parseLoop (n : Nat) (chunk : List Byte) : Nat → Nat → List Nat × Nat → List Nat × Nat
  | 0, _, st => st
  | k + 1, pos, (out, pixel_index) =>
    if pixel_index < n then
      let count := byteAt chunk pos
      let color := color16 (byteAt chunk (pos + 1)) (byteAt chunk (pos + 2))
      parseLoop n chunk k (pos + 3) (runLoop n color count (out, pixel_index))
    else (out, pixel_index)

/-- The carry move `for (i = 0; i < carry_len; ++i) rle_chunk_[i] = rle_chunk_[parse_len + i]`
with `k` iterations still to run. -/
def carryLoop (parse_len : Nat) : Nat → Nat → List Byte → List Byte
  | 0, _, chunk => chunk
  | k + 1, i, chunk =>
    carryLoop parse_len k (i + 1) (chunk.set i (chunk.getD (parse_len + i) 0))

/-- What a successful `read` into `buf + off` leaves in the buffer. -/
def writeAt (buf : List Byte) (off : Nat) (bytes : List Byte) : List Byte :=
  buf.take off ++ bytes ++ buf.drop (off + bytes.length)

/-- The local variables of the decode loop, the scratch buffer `rle_chunk_`, the
caller's `out_frame`, and the driver calls made so far. -/
structure DecodeState where
  rle_addr : Nat
  remaining : Nat
  pixel_index : Nat
  carry_len : Nat
  rle_chunk : List Byte
  out_frame : List Nat
  txns : List Txn

/-- The loop `while (remaining > 0 && pixel_index < n)` of
`decodeRLEFrameStreamed`, over read-chunk size `c` and frame size `n`.
`some (false, s)` is the `return false` of a failed read, `some (true, s)` the
normal loop exit, `none` means the fuel ran out first. -/
def decodeLoop (r : Reader) (c n : Nat) : Nat → DecodeState → Option (Bool × DecodeState)
  | fuel, s =>
    if s.remaining > 0 ∧ s.pixel_index < n then
      match fuel with
      | 0 => none
      | fuel + 1 =>
        let to_read := if s.remaining > c then c else s.remaining
        let rr := read r s.rle_addr to_read
        match rr.data with
        | none => some (false, { s with txns := s.txns ++ rr.txns })
        | some bytes =>
          let chunk := writeAt s.rle_chunk s.carry_len bytes
          let buf_len := s.carry_len + to_read
          let parse_len := buf_len - buf_len % 3
          let px := parseLoop n chunk (parse_len / 3) 0 (s.out_frame, s.pixel_index)
          let carry_len := buf_len - parse_len
          decodeLoop r c n fuel
            { rle_addr := (s.rle_addr + to_read) % U32
              remaining := s.remaining - to_read
              pixel_index := px.2
              carry_len := carry_len
              rle_chunk := carryLoop parse_len carry_len 0 chunk
              out_frame := px.1
              txns := s.txns ++ rr.txns }
    else some (true, s)

/-- The closing `std::fill(out_frame.begin() + pixel_index, out_frame.end(), 0)`. -/
def fillFrom (out : List Nat) (pixel_index : Nat) : List Nat :=
  out.take pixel_index ++ List.replicate (out.length - pixel_index) 0

/-- Outcome of a decode call: the return value, the caller's buffer and the
scratch buffer afterwards, and the driver calls made. -/
structure DecodeResult where
  ok : Bool
  out_frame : List Nat
  rle_chunk : List Byte
  txns : List Txn
  deriving DecidableEq

/-- The body of `decodeRLEFrameStreamed(anim, frame_idx, out_frame)` over a
read-chunk size `c` and a frame of `n` pixels.  `none` stands for a decode loop
that does not come to an end. -/
def decodeFrame (c n : Nat) (r : Reader) (anim : AnimationEntry) (frame_idx : Int)
    (out_frame : List Nat) : Option DecodeResult :=
  let rh := read r anim.offset 18
  match rh.data with
  | none => some ⟨false, out_frame, r.rle_chunk_, rh.txns⟩
  | some header =>
    if header.take 4 ≠ MAGIC_ANIM then some ⟨false, out_frame, r.rle_chunk_, rh.txns⟩
    else
      let frame_count := le16 header 4
      let frame_table_offset := le32 header 6
      if frame_count = 0 ∨ frame_idx < 0 ∨ frame_idx ≥ (frame_count : Int) then
        some ⟨false, out_frame, r.rle_chunk_, rh.txns⟩
      else
        let table_entry_addr := (anim.offset + frame_table_offset + frame_idx.toNat * 8) % U32
        let rt := read r table_entry_addr 8
        match rt.data with
        | none => some ⟨false, out_frame, r.rle_chunk_, rh.txns ++ rt.txns⟩
        | some table_entry =>
          let frame_offset := le32 table_entry 0
          let frame_size := le32 table_entry 4
          let frame_data_base := (anim.offset + frame_table_offset + frame_count * 8) % U32
          let rle_addr := (frame_data_base + frame_offset) % U32
          let s0 : DecodeState :=
            { rle_addr := rle_addr
              remaining := frame_size
              pixel_index := 0
              carry_len := 0
              rle_chunk := r.rle_chunk_
              out_frame := List.replicate n 0
              txns := rh.txns ++ rt.txns }
          match decodeLoop r c n frame_size s0 with
          | none => none
          | some (false, s) => some ⟨false, s.out_frame, s.rle_chunk, s.txns⟩
          | some (true, s) =>
            let out := if s.pixel_index < n then fillFrom s.out_frame s.pixel_index
                       else s.out_frame
            some ⟨true, out, s.rle_chunk, s.txns⟩

/-- Method `AnimationFlashReader::decodeRLEFrameStreamed(anim, frame_idx, out_frame)`. -/
def decodeRLEFrameStreamed (r : Reader) (anim : AnimationEntry) (frame_idx : Int)
    (out_frame : List Nat) : Option DecodeResult :=
  decodeFrame READ_CHUNK MAX_FRAME_PIXELS r anim frame_idx out_frame

/-- The driver calls `getFrameCount(anim)` makes: those of its one `read`. -/
def getFrameCountLog (r : Reader) (anim : AnimationEntry) : List Txn :=
  (read r anim.offset 6).txns

/-! ## Playback -/

/-- The call `v.resize(n)` on a `std::vector<uint16_t>`: cut to `n` elements or
extended with zeros. -/
def resize (v : List Nat) (n : Nat) : List Nat :=
  v.take n ++ List.replicate (n - v.length) 0

/-- Outcome of `play`: the return value, the reader afterwards (frame buffer and
scratch buffer are reused across frames), the bitmaps handed to
`display->drawBitmap(0, 0, frame_buffer_.data(), 96, 64)` in call order, and the
driver calls made. -/
structure PlayResult where
  ok : Bool
  reader : Reader
  delivered : List (List Nat)
  txns : List Txn

/-- The frame loop `for (uint16_t f = 0; f < frame_count; ++f)` of `play` with
`k` iterations still to run: decode frame `f` into `frame_buffer_`, return false
if that fails, else hand the buffer to the display and go on.  The delay between
frames is not modelled.  `none` stands for a decode that does not end. -/
def playLoop (anim : AnimationEntry) :
    Nat → Nat → Reader → List (List Nat) → List Txn → Option PlayResult
  | 0, _, r, delivered, log => some ⟨true, r, delivered, log⟩
  | k + 1, f, r, delivered, log =>
    match decodeRLEFrameStreamed r anim (f : Int) r.frame_buffer_ with
    | none => none
    | some res =>
      let r1 : Reader := { r with frame_buffer_ := res.out_frame, rle_chunk_ := res.rle_chunk }
      if res.ok then playLoop anim k (f + 1) r1 (delivered ++ [res.out_frame]) (log ++ res.txns)
      else some ⟨false, r1, delivered, log ++ res.txns⟩

/-- Method `AnimationFlashReader::play(animation_name, display, delay_ms)`;
`display` says whether the display pointer is non-null. -/
def play (r : Reader) (animation_name : Option (List Byte)) (display : Bool) :
    Option PlayResult :=
  if display = false then some ⟨false, r, [], []⟩
  else
    match findAnimation r animation_name with
    | none => some ⟨false, r, [], []⟩
    | some anim =>
      let rh := read r anim.offset 18
      match rh.data with
      | none => some ⟨false, r, [], rh.txns⟩
      | some header =>
        if header.take 4 ≠ MAGIC_ANIM then some ⟨false, r, [], rh.txns⟩
        else
          let frame_count := le16 header 4
          if frame_count = 0 ∨ frame_count > 10000 then some ⟨false, r, [], rh.txns⟩
          else
            let r1 : Reader :=
              { r with frame_buffer_ := resize r.frame_buffer_ MAX_FRAME_PIXELS }
            playLoop anim frame_count 0 r1 [] rh.txns

/-! ## The display component -/

/-- The animation members of `class Ssd1331Display`; the panel `lcd_` is a
member object, so the pointer handed to `play` is never null. -/
structure Display where
  anim_reader_ : Reader
  current_anim_name_ : List Byte
  animation_loaded_ : Bool

/-- Outcome of `loadAnimation`: the return value, the display afterwards and the
driver calls made. -/
structure LoadAnimationResult where
  ok : Bool
  display : Display
  txns : List Txn

/-- Method `Ssd1331Display::loadAnimation(animation_name)`; `none` is the null
pointer, a name is a C string (its bytes up to the first NUL), and `found` is
what the partition lookup of `begin()` answers. -/
def loadAnimation (found : Option Partition) (d : Display)
    (animation_name : Option (List Byte)) : LoadAnimationResult :=
  match animation_name with
  | none => ⟨false, d, []⟩
  | some nm =>
    if byteAt nm 0 = 0 then ⟨false, d, []⟩
    else
      let lr := begin found d.anim_reader_
      let d1 : Display := { d with anim_reader_ := lr.reader }
      if lr.ok = false then ⟨false, d1, lr.txns⟩
      else
        match findAnimation lr.reader (some nm) with
        | none => ⟨false, { d1 with animation_loaded_ := false }, lr.txns⟩
        | some _ =>
          ⟨true, { d1 with current_anim_name_ := nm.takeWhile (fun b => b ≠ 0),
                           animation_loaded_ := true }, lr.txns⟩

/-- Outcome of `playAnimation`: the display afterwards, the bitmaps handed to the
panel and the driver calls made. -/
structure PlayAnimationResult where
  display : Display
  delivered : List (List Nat)
  txns : List Txn

/-- The loop `do { anim_reader_.play(current_anim_name_.c_str(), &lcd_, 33); } while (loop)`
of `playAnimation`, with at most `fuel` passes; the return value of `play` is not
looked at.  `none` means the loop has not ended within the fuel. -/
def playPasses (loop : Bool) :
    Nat → Display → List (List Nat) → List Txn → Option PlayAnimationResult
  | 0, _, _, _ => none
  | fuel + 1, d, delivered, log =>
    match play d.anim_reader_ (some d.current_anim_name_) true with
    | none => none
    | some pr =>
      let d1 : Display := { d with anim_reader_ := pr.reader }
      if loop then playPasses loop fuel d1 (delivered ++ pr.delivered) (log ++ pr.txns)
      else some ⟨d1, delivered ++ pr.delivered, log ++ pr.txns⟩

/-- Method `Ssd1331Display::playAnimation(loop)`, run for at most `fuel` passes. -/
def playAnimation (fuel : Nat) (d : Display) (loop : Bool) : Option PlayAnimationResult :=
  if d.animation_loaded_ = false then some ⟨d, [], []⟩
  else playPasses loop fuel d [] []

/-! ## The decoder of the specification -/

/-- The flat decoding the specification describes: each complete 3-byte record
`(n, hi, lo)` of the stream, in order, yields `n` copies of `(hi << 8) | lo`;
one or two trailing bytes yield nothing. -/
def expand : List Byte → List Nat
  | n :: hi :: lo :: rest => List.replicate n.val (color16 hi.val lo.val) ++ expand rest
  | _ => []

/-- A pixel sequence cut to its first `n` elements and padded with zeros to
length `n`. -/
def frameOf (n : Nat) (px : List Nat) : List Nat :=
  px.take n ++ List.replicate (n - px.length) 0

/-! ## Stores and containers, as the specification speaks of them -/

/-- A partition whose size fits the driver's 32-bit size field and whose medium
serves every read. -/
def Partition.Healthy (p : Partition) : Prop :=
  p.size < U32 ∧ ∀ a l, p.readOk a l = true

/-- Table entry at store offset `a`: 32 name bytes, then `offset` and `length` as
little-endian 32-bit words. -/
def tableEntry (p : Partition) (a : Nat) : AnimationEntry :=
  ⟨p.bytes a 32, le32 (p.bytes (a + 32) 4) 0, le32 (p.bytes (a + 36) 4) 0⟩

/-- The `i`-th table entry of the container at `base`: the table follows the
6-byte header, 40 bytes per entry. -/
def entryAt (p : Partition) (base i : Nat) : AnimationEntry :=
  tableEntry p (base + 6 + 40 * i)

/-- The `count` field of the container at `base`. -/
def countAt (p : Partition) (base : Nat) : Nat :=
  le16 (p.bytes (base + 4) 2) 0

/-- The reader serves the byte sequence `stream` at relative address `addr`:
every sub-range of it can be read, at the 32-bit address the decoder computes. -/
def Serves (r : Reader) (addr : Nat) (stream : List Byte) : Prop :=
  ∀ j l, j + l ≤ stream.length →
    (read r ((addr + j) % U32) l).data = some ((stream.drop j).take l)

/-- The sum of the run lengths of the complete records of a stream. -/
def runTotal : List Byte → Nat
  | n :: _ :: _ :: rest => n.val + runTotal rest
  | _ => 0

/-- Driver reads of consecutive ranges: the first at reader-relative address
`addr`, each next one where the previous ended, with lengths `lens`; reader
addresses are 32-bit and the driver is handed `base + addr`. -/
def readsFrom (base : Nat) : Nat → List Nat → List Txn
  | _, [] => []
  | addr, l :: ls => Txn.read ((base + addr) % U32) l :: readsFrom base ((addr + l) % U32) ls

/-- The write transactions the specification asks of an in-bounds
`write(rel, data)` with maximum transaction size `c`: chunk `k` holds the bytes
`c*k .. c*k + c - 1` of the data and goes to store offset `base + rel + c*k`. -/
def writePlan (base rel c : Nat) (data : List Byte) : List Txn :=
  (List.range ((data.length + c - 1) / c)).map
    (fun k => Txn.write (base + rel + c * k) ((data.drop (c * k)).take c))

/-- Whether the driver serves a transaction. -/
def driverAccepts (p : Partition) : Txn → Bool
  | Txn.write addr data => esp_partition_write p addr data
  | Txn.read addr len => (esp_partition_read p addr len).isSome

/-- A list of transactions cut right after the first one that fails. -/
def uptoFirstFailure (ok : Txn → Bool) : List Txn → List Txn
  | [] => []
  | t :: ts => if ok t then t :: uptoFirstFailure ok ts else [t]

/-- The bytes a transaction carries to the store. -/
def Txn.payload : Txn → List Byte
  | Txn.write _ data => data
  | Txn.read _ _ => []

/-- The decode loop seen from outside the buffers: `carry` are the bytes held
over from the previous chunk, `px` the pixels decoded so far, `log` the driver
calls so far; `rd` is the reader's `read`.  Result: whether every read
succeeded, the pixels and the log (`none`: out of fuel). -/
def streamLoop (rd : Nat → Nat → ReadResult) (c n : Nat) :
    Nat → Nat → Nat → List Byte → List Nat → List Txn →
      Option (Bool × List Nat × List Txn)
  | fuel, addr, remaining, carry, px, log =>
    if remaining > 0 ∧ px.length < n then
      match fuel with
      | 0 => none
      | fuel + 1 =>
        let to_read := if remaining > c then c else remaining
        let rr := rd addr to_read
        match rr.data with
        | none => some (false, px, log ++ rr.txns)
        | some bytes =>
          let buf := carry ++ bytes
          let parse_len := buf.length - buf.length % 3
          streamLoop rd c n fuel ((addr + to_read) % U32) (remaining - to_read)
            (buf.drop parse_len) (px ++ expand (buf.take parse_len)) (log ++ rr.txns)
    else some (true, px, log)

/-- The frame `decodeRLEFrameStreamed` leaves for frame `k` when called on
reader `r` with an empty buffer (`[]` if the call does not end). -/
def decodedFrame (r : Reader) (anim : AnimationEntry) (k : Nat) : List Nat :=
  match decodeRLEFrameStreamed r anim (k : Int) [] with
  | some res => res.out_frame
  | none => []

/-- The driver calls `decodeRLEFrameStreamed` makes for frame `k` on reader `r`. -/
def decodeLog (r : Reader) (anim : AnimationEntry) (k : Nat) : List Txn :=
  match decodeRLEFrameStreamed r anim (k : Int) [] with
  | some res => res.txns
  | none => []

/-- The local `to_read` of one pass of the decode loop:
`remaining > READ_CHUNK ? READ_CHUNK : remaining`. -/
def toRead (c : Nat) (s : DecodeState) : Nat :=
  if s.remaining > c then c else s.remaining

/-- The local `buf_len = carry_len + to_read` of one pass of the decode loop. -/
def bufLen (c : Nat) (s : DecodeState) : Nat := s.carry_len + toRead c s

/-- The local `parse_len = buf_len - (buf_len % 3)` of one pass of the decode loop. -/
def parseLen (c : Nat) (s : DecodeState) : Nat := bufLen c s - bufLen c s % 3

/-- One pass through the body of the decode loop, from the state at the loop
head to the state at the next loop head; `none` is the `return false` of a
failed read. -/
def decodeStep (r : Reader) (c n : Nat) (s : DecodeState) : Option DecodeState :=
  match (read r s.rle_addr (toRead c s)).data with
  | none => none
  | some bytes =>
    let chunk := writeAt s.rle_chunk s.carry_len bytes
    let px := parseLoop n chunk (parseLen c s / 3) 0 (s.out_frame, s.pixel_index)
    some
      { rle_addr := (s.rle_addr + toRead c s) % U32
        remaining := s.remaining - toRead c s
        pixel_index := px.2
        carry_len := bufLen c s - parseLen c s
        rle_chunk := carryLoop (parseLen c s) (bufLen c s - parseLen c s) 0 chunk
        out_frame := px.1
        txns := s.txns ++ (read r s.rle_addr (toRead c s)).txns }

/-- The decode loop written as the iteration of `decodeStep`. -/
def stepLoop (r : Reader) (c n : Nat) : Nat → DecodeState → Option (Bool × DecodeState)
  | fuel, s =>
    if s.remaining > 0 ∧ s.pixel_index < n then
      match fuel with
      | 0 => none
      | fuel + 1 =>
        match decodeStep r c n s with
        | none =>
          some (false, { s with txns := s.txns ++ (read r s.rle_addr (toRead c s)).txns })
        | some s' => stepLoop r c n fuel s'
    else some (true, s)

/-- The body of `decodeRLEFrameStreamed` seen from outside the buffers: the
header and frame table entry are read through `rd` as in the source, the stream
is followed by `streamLoop`.  Result: the return value, the caller's buffer
afterwards (`out` itself on the early returns, else the pixels cut or
zero-padded to `n`) and the driver calls (`none`: out of fuel). -/
def streamFrame (rd : Nat → Nat → ReadResult) (c n : Nat) (anim : AnimationEntry)
    (frame_idx : Int) (out : List Nat) : Option (Bool × List Nat × List Txn) :=
  let rh := rd anim.offset 18
  match rh.data with
  | none => some (false, out, rh.txns)
  | some header =>
    if header.take 4 ≠ MAGIC_ANIM then some (false, out, rh.txns)
    else
      if le16 header 4 = 0 ∨ frame_idx < 0 ∨ frame_idx ≥ (le16 header 4 : Int) then
        some (false, out, rh.txns)
      else
        let rt := rd ((anim.offset + le32 header 6 + frame_idx.toNat * 8) % U32) 8
        match rt.data with
        | none => some (false, out, rh.txns ++ rt.txns)
        | some te =>
          match streamLoop rd c n (le32 te 4)
              (((anim.offset + le32 header 6 + le16 header 4 * 8) % U32 + le32 te 0) % U32)
              (le32 te 4) [] [] (rh.txns ++ rt.txns) with
          | none => none
          | some (b, px, log) => some (b, frameOf n px, log)

/-- The transaction touches no store byte at the offsets `lo .. hi - 1`. -/
def Txn.clearOf (lo hi : Nat) : Txn → Bool
  | Txn.read a l => decide (a + l ≤ lo ∨ hi ≤ a)
  | Txn.write a d => decide (a + d.length ≤ lo ∨ hi ≤ a)

/-- The lengths of the first `k` reads of a stream of `size` bytes that is read
in chunks of `c` bytes: read `j` asks for `min(c, size - c*j)` bytes. -/
def chunkLens (c size k : Nat) : List Nat :=
  (List.range k).map (fun j => min c (size - c * j))

/-- The store bytes covered by driver reads of consecutive ranges, the first at
reader-relative address `addr`, with lengths `lens` (the ranges of `readsFrom`),
one after the other. -/
def streamData (p : Partition) (base : Nat) : Nat → List Nat → List Byte
  | _, [] => []
  | addr, l :: ls => p.bytes ((base + addr) % U32) l ++ streamData p base ((addr + l) % U32) ls

/-! ## Concrete stores -/

/-- Flash contents given by an image at offset 0; bytes past the image read as
erased flash (0xFF). -/
def imageMem (image : List Byte) : Nat → Byte := fun a => image.getD a 0xFF

/-- A fault-free partition of `size` bytes holding `image`. -/
def imagePartition (image : List Byte) (size : Nat) : Partition :=
  ⟨size, imageMem image, fun _ _ => true, fun _ _ => true⟩

/-- A reader attached to `imagePartition image size` at `base`, with catalog
`cat` and a zeroed scratch buffer. -/
def imageReader (image : List Byte) (size base : Nat) (cat : List AnimationEntry) : Reader :=
  ⟨some (imagePartition image size), base, cat, [], List.replicate (READ_CHUNK + 3) 0⟩

/-- The name field of an animation called "a". -/
def nameA : List Byte := [0x61] ++ List.replicate 31 0

/-- A container announcing two entries of which only the first (named "a") is
inside a 50-byte store. -/
def truncatedPack : List Byte :=
  MAGIC_PACK ++ [2, 0] ++ nameA ++ [0x40, 0, 0, 0] ++ [0x10, 0, 0, 0]

/-- A container with two entries that are both named "a". -/
def twinPack : List Byte :=
  MAGIC_PACK ++ [2, 0] ++ nameA ++ [0x60, 0, 0, 0] ++ [0x10, 0, 0, 0] ++
    nameA ++ [0x80, 0, 0, 0] ++ [0x20, 0, 0, 0]

/-- A container with one entry whose name field holds 32 letters "a" and no
NUL; its offset field is 0x00010140 and its length field 0x10. -/
def longNamePack : List Byte :=
  MAGIC_PACK ++ [1, 0] ++ List.replicate 32 0x61 ++ [0x40, 0x01, 0x01, 0] ++ [0x10, 0, 0, 0]

/-- A container with one entry none of whose 40 bytes is NUL. -/
def fullEntryPack : List Byte :=
  MAGIC_PACK ++ [1, 0] ++ List.replicate 32 0x61 ++ [1, 1, 1, 1] ++ [1, 1, 1, 1]

/-- A container header followed by `k` all-zero table entries, with count field
`k` (for `k < 256`). -/
def zeroPack (k : Nat) : List Byte :=
  MAGIC_PACK ++ [Fin.ofNat k, 0] ++ List.replicate (40 * k) 0

/-- A fault-free reader like `imageReader` whose scratch buffer serves a read
chunk of `c` bytes (`c + 3` bytes long, with stale contents 0xAA). -/
def chunkReader (image : List Byte) (size base c : Nat) : Reader :=
  ⟨some (imagePartition image size), base, [], [], List.replicate (c + 3) 0xAA⟩

/-- A sub-container with one frame whose stream is `(2, 0x07, 0xE0), (2, 0, 0)`:
18 header bytes, one 8-byte frame table entry, 6 stream bytes. -/
def toyAnim : List Byte :=
  MAGIC_ANIM ++ [1, 0] ++ [18, 0, 0, 0] ++ [6, 0, 0, 0] ++ [0, 0, 0, 0] ++
    [0, 0, 0, 0, 6, 0, 0, 0] ++ [2, 0x07, 0xE0, 2, 0, 0]

/-- The catalog entry of `toyAnim` placed at store offset 0. -/
def toyEntry : AnimationEntry := ⟨nameA, 0, 32⟩

/-- A 4096-byte partition whose medium refuses every write at offset 256. -/
def faultyPartition : Partition :=
  ⟨4096, imageMem [], fun _ _ => true, fun a _ => a != 256⟩

/-- A reader attached to `faultyPartition` at base 0. -/
def faultyReader : Reader :=
  ⟨some faultyPartition, 0, [], [], List.replicate (READ_CHUNK + 3) 0⟩

/-- A sub-container announcing two frames in a store that ends after the first
frame table entry (an empty stream): frame 0 decodes, frame 1 does not. -/
def twoFrameAnim : List Byte :=
  MAGIC_ANIM ++ [2, 0] ++ [18, 0, 0, 0] ++ [0, 0, 0, 0] ++ [0, 0, 0, 0] ++
    [0, 0, 0, 0, 0, 0, 0, 0]

/-- A whole container: one catalog entry named "a" whose sub-container
`toyAnim` starts at offset 46 (78 bytes in all). -/
def packedToy : List Byte :=
  MAGIC_PACK ++ [1, 0] ++ nameA ++ [46, 0, 0, 0] ++ [32, 0, 0, 0] ++ toyAnim

/-- The catalog entry of `packedToy`. -/
def packedEntry : AnimationEntry := ⟨nameA, 46, 32⟩

/-- A display at power-up over the store `packedToy`: the reader holds the
partition but no catalog, and nothing is loaded. -/
def packedToyDisplay : Display := ⟨imageReader packedToy 78 0 [], [], false⟩

/-- The sub-container `toyAnim` with its frame count field set to 10001. -/
def overCountAnim : List Byte := (toyAnim.set 4 0x11).set 5 0x27

/-- The sub-container `toyAnim` with its frame count field set to 0. -/
def zeroCountAnim : List Byte := toyAnim.set 4 0

/-- A sub-container of 282 bytes with one frame whose table entry announces a
stream of 300 bytes: the record `(2, 0x07, 0xE0)`, then 253 zero bytes, and the
last 44 bytes missing. -/
def cutStreamAnim : List Byte :=
  MAGIC_ANIM ++ [1, 0] ++ [18, 0, 0, 0] ++ [0, 0, 0, 0] ++ [0, 0, 0, 0] ++
    [0, 0, 0, 0, 0x2C, 0x01, 0, 0] ++ [2, 0x07, 0xE0] ++ List.replicate 253 0

/-- A sub-container of 21 bytes whose frame table offset is 10: its one frame
table entry (offset 0, size 3) lies in header bytes 10..17, and the stream
`(2, 0x07, 0xE0)` follows at offset 18. -/
def aliasAnim : List Byte :=
  MAGIC_ANIM ++ [1, 0] ++ [10, 0, 0, 0] ++ [0, 0, 0, 0] ++ [3, 0, 0, 0] ++ [2, 0x07, 0xE0]

/-- The sub-container `toyAnim` with other values in header bytes 10..17. -/
def toyAnimOtherSizes : List Byte :=
  MAGIC_ANIM ++ [1, 0] ++ [18, 0, 0, 0] ++ [0xFF, 1, 2, 3] ++ [4, 5, 6, 7] ++
    [0, 0, 0, 0, 6, 0, 0, 0] ++ [2, 0x07, 0xE0, 2, 0, 0]

/-- The sub-container `aliasAnim` with byte 14 of its header (the low byte of
the `audio_data_size` field) set to 0. -/
def aliasAnimOther : List Byte := aliasAnim.set 14 0

/-- A store of 94 bytes whose container starts at offset 16: 16 zero bytes, then
the container `packedToy`, whose entry "a" has offset field 46.  The
sub-container lies at store offset 62. -/
def basedPack : List Byte := List.replicate 16 0 ++ packedToy

/-! ## Reading and loading: lemmas and theorems -/

theorem read_in_bounds {r : Reader} {p : Partition} (hp : r.partition_ = some p)
    (hh : p.Healthy) (rel len : Nat) (h : r.base_offset_ + rel + len ≤ p.size) :
    read r rel len =
      ⟨some (p.bytes (r.base_offset_ + rel) len), [Txn.read (r.base_offset_ + rel) len]⟩ := by
  obtain ⟨hsz, hok⟩ := hh
  have h1 : (r.base_offset_ + rel + len) % U32 = r.base_offset_ + rel + len :=
    Nat.mod_eq_of_lt (by omega)
  have h2 : (r.base_offset_ + rel) % U32 = r.base_offset_ + rel :=
    Nat.mod_eq_of_lt (by omega)
  have h3 : ¬ (r.base_offset_ + rel + len > p.size) := by omega
  have h4 : ¬ (r.base_offset_ + rel > p.size ∨ len > p.size - (r.base_offset_ + rel)) := by omega
  simp only [read, hp, h1, h2, h3, esp_partition_read, h4, hok, if_false, if_true]

theorem read_animations (r : Reader) (l : List AnimationEntry) (rel len : Nat) :
    read { r with animations_ := l } rel len = read r rel len := rfl

theorem bytes_length (p : Partition) (a len : Nat) : (p.bytes a len).length = len := by
  simp [Partition.bytes]

theorem loadEntries_in_bounds {r : Reader} {p : Partition} (hp : r.partition_ = some p)
    (hh : p.Healthy) :
    ∀ (k offset : Nat) (acc : List AnimationEntry) (log : List Txn),
      r.base_offset_ + offset + 40 * k ≤ p.size →
      (loadEntries r k offset acc log).1 = true ∧
      (loadEntries r k offset acc log).2.1 =
        acc ++ (List.range k).map (fun i => tableEntry p (r.base_offset_ + offset + 40 * i)) := by
  intro k
  induction k with
  | zero => intro offset acc log _; simp [loadEntries]
  | succ k ih =>
    intro offset acc log h
    have e1 := read_in_bounds hp hh (offset) NAME_SIZE (by simp only [NAME_SIZE]; omega)
    have e2 := read_in_bounds hp hh (offset + NAME_SIZE) 4 (by simp only [NAME_SIZE]; omega)
    have e3 := read_in_bounds hp hh (offset + NAME_SIZE + 4) 4 (by simp only [NAME_SIZE]; omega)
    have ih' := ih (offset + NAME_SIZE + 4 + 4)
    simp only [loadEntries, e1, e2, e3]
    obtain ⟨i1, i2⟩ := ih' (acc ++ [⟨p.bytes (r.base_offset_ + offset) NAME_SIZE,
        le32 (p.bytes (r.base_offset_ + (offset + NAME_SIZE)) 4) 0,
        le32 (p.bytes (r.base_offset_ + (offset + NAME_SIZE + 4)) 4) 0⟩])
      (log ++ [Txn.read (r.base_offset_ + offset) NAME_SIZE] ++
        [Txn.read (r.base_offset_ + (offset + NAME_SIZE)) 4] ++
        [Txn.read (r.base_offset_ + (offset + NAME_SIZE + 4)) 4])
      (by simp only [NAME_SIZE]; omega)
    refine ⟨i1, ?_⟩
    rw [i2, List.range_succ_eq_map, List.map_cons, List.map_map, List.append_assoc]
    have a1 : r.base_offset_ + (offset + 32) = r.base_offset_ + offset + 32 := by omega
    have a2 : r.base_offset_ + (offset + 32 + 4) = r.base_offset_ + offset + 36 := by omega
    have a3 : ∀ i, r.base_offset_ + (offset + 32 + 4 + 4) + 40 * i =
        r.base_offset_ + offset + 40 * (i + 1) := by intro i; omega
    simp only [List.singleton_append, NAME_SIZE, tableEntry, Nat.mul_zero, Nat.add_zero, a1, a2,
      a3, Function.comp_def, Nat.succ_eq_add_one]

theorem loadAnimationTable_valid {r : Reader} {p : Partition} (hp : r.partition_ = some p)
    (hh : p.Healthy) (hm : p.bytes r.base_offset_ 4 = MAGIC_PACK)
    (hc : countAt p r.base_offset_ ≤ MAX_ANIMATIONS)
    (hin : r.base_offset_ + 6 + 40 * countAt p r.base_offset_ ≤ p.size) :
    (loadAnimationTable r).ok = true ∧
    (loadAnimationTable r).reader.animations_ =
      (List.range (countAt p r.base_offset_)).map (entryAt p r.base_offset_) := by
  have hp0 : ({ r with animations_ := [] } : Reader).partition_ = some p := hp
  have e1 := read_in_bounds hp0 hh (0) 4 (by show r.base_offset_ + 0 + 4 ≤ _; omega)
  have e2 := read_in_bounds hp0 hh (4) 2 (by show r.base_offset_ + 4 + 2 ≤ _; omega)
  have hc' : ¬ (countAt p r.base_offset_ > MAX_ANIMATIONS) := by omega
  have key := fun log => loadEntries_in_bounds hp0 hh (countAt p r.base_offset_) 6 [] log
    (by show r.base_offset_ + 6 + _ ≤ _; omega)
  simp only [countAt] at hc' key
  simp only [loadAnimationTable, e1, e2, Nat.add_zero, hm, ne_eq, not_true_eq_false, if_false,
    hc', countAt]
  refine ⟨(key _).1, ?_⟩
  rw [(key _).2]
  rfl

theorem loadAnimationTable_bad_magic {r : Reader}
    (h : ∀ p, r.partition_ = some p → p.bytes r.base_offset_ 4 ≠ MAGIC_PACK)
    (hb : r.base_offset_ < U32) :
    (loadAnimationTable r).ok = false ∧ (loadAnimationTable r).reader.animations_ = [] := by
  cases hp : r.partition_ with
  | none => simp [loadAnimationTable, read, hp]
  | some p =>
    have hne := h p hp
    have hmod : (r.base_offset_ + 0) % U32 = r.base_offset_ := Nat.mod_eq_of_lt hb
    simp only [loadAnimationTable, read, hp, hmod, esp_partition_read]
    split_ifs <;> simp_all

theorem imagePartition_healthy (image : List Byte) (size : Nat) (h : size < U32) :
    (imagePartition image size).Healthy := ⟨h, fun _ _ => rfl⟩

theorem read_rejects_without_wrap {r : Reader} {p : Partition} (hp : r.partition_ = some p)
    (rel len : Nat) (hw : r.base_offset_ + rel + len < U32)
    (h : r.base_offset_ + rel + len > p.size) :
    read r rel len = ⟨none, []⟩ := by
  simp only [read, hp, Nat.mod_eq_of_lt hw, h, if_true]

theorem writeRaw_rejects_without_wrap {r : Reader} {p : Partition} (hp : r.partition_ = some p)
    (rel : Nat) (data : List Byte) (hw : r.base_offset_ + rel + data.length < U32)
    (h : r.base_offset_ + rel + data.length > p.size) :
    writeRaw r rel data = some ⟨false, []⟩ := by
  simp only [writeRaw, hp, Nat.mod_eq_of_lt hw, h, if_true]

/-- C4 (code at the failing inputs).  With `base_offset_ = 16` in a 4096-byte
partition, `rel_addr = 0xFFFFFFF0` and `len = 4` have `base + rel + len` far
beyond the partition size, yet the 32-bit sum wraps to 4: `read` returns true
with the bytes at partition offset 0 and `writeRaw` writes there, each issuing
one driver transaction.  With `base_offset_ = 0`, `rel_addr = 0xFFFFFFFE` and
`len = 6` the sum wraps to 4 as well: both calls return false, but only after
handing the transaction to the driver. -/
theorem read_write_wrap_past_bound :
    16 + 0xFFFFFFF0 + 4 > 4096 ∧
    read (imageReader [1, 2, 3, 4] 4096 16 []) 0xFFFFFFF0 4 =
      ⟨some [1, 2, 3, 4], [Txn.read 0 4]⟩ ∧
    writeRaw (imageReader [] 4096 16 []) 0xFFFFFFF0 [9, 8, 7, 6] =
      some ⟨true, [Txn.write 0 [9, 8, 7, 6]]⟩ ∧
    0 + 0xFFFFFFFE + 6 > 4096 ∧
    read (imageReader [] 4096 0 []) 0xFFFFFFFE 6 = ⟨none, [Txn.read 0xFFFFFFFE 6]⟩ ∧
    writeRaw (imageReader [] 4096 0 []) 0xFFFFFFFE [1, 2, 3, 4, 5, 6] =
      some ⟨false, [Txn.write 0xFFFFFFFE [1, 2, 3, 4, 5, 6]]⟩ := by
  refine ⟨by decide, by decide, by decide, by decide, by decide, by decide⟩

theorem cstr_append_of_mem (a b : List Byte) (h : (0 : Byte) ∈ a) : cstr (a ++ b) = cstr a := by
  have hw : ∀ l : List Byte, (0 : Byte) ∈ l →
      (l ++ b).takeWhile (fun x => x ≠ 0) = l.takeWhile (fun x => x ≠ 0) := by
    intro l
    induction l with
    | nil => intro hl; cases hl
    | cons x xs ih =>
      intro hl
      by_cases hx : x = 0
      · simp [List.takeWhile, hx]
      · have hxs : (0 : Byte) ∈ xs := by
          rcases List.mem_cons.mp hl with e | e
          · exact absurd e.symm hx
          · exact e
        have hd : decide (x ≠ 0) = true := by simp [hx]
        simp only [List.cons_append, List.takeWhile_cons, hd, if_true, ih hxs]
  simp only [cstr, List.mem_append, h, true_or, if_true, hw a h]

theorem namesLoop_terminated :
    ∀ cat : List AnimationEntry, (∀ e ∈ cat, e.name.length = NAME_SIZE ∧ (0 : Byte) ∈ e.name) →
      namesLoop cat = cat.map (fun e => cstr e.name)
  | [], _ => rfl
  | e :: rest, h => by
    obtain ⟨hlen, hnul⟩ := h e (List.mem_cons_self _ _)
    have hfield : (e.name ++ List.replicate NAME_SIZE 0).take NAME_SIZE = e.name :=
      List.take_left' hlen
    rw [namesLoop, namesLoop_terminated rest (fun x hx => h x (List.mem_cons_of_mem _ hx))]
    simp only [List.flatMap_cons, entryMemory, hfield, List.append_assoc, List.map_cons,
      cstr_append_of_mem _ _ hnul]

/-- For a container with magic "PACK", a count of at most 70 and all its table
entries inside a healthy store, `begin()` (on a fresh or an attached reader) and
`reload()` return true and `getAnimationNames()` has exactly `count` elements;
if moreover every 32-byte name field holds a NUL, the names are the C strings of
the name fields of the table entries 0, 1, .., count-1 in that order. -/
theorem names_of_terminated_fields (found : Option Partition) (r : Reader) (p : Partition)
    (hp : r.partition_ = some p ∨ (r.partition_ = none ∧ found = some p))
    (hh : p.Healthy)
    (hm : p.bytes r.base_offset_ 4 = MAGIC_PACK)
    (hc : countAt p r.base_offset_ ≤ MAX_ANIMATIONS)
    (hin : r.base_offset_ + 6 + 40 * countAt p r.base_offset_ ≤ p.size)
    (hnul : ∀ i, i < countAt p r.base_offset_ →
      (0 : Byte) ∈ p.bytes (r.base_offset_ + 6 + 40 * i) 32) :
    (begin found r).ok = true ∧
    getAnimationNames (begin found r).reader =
      (List.range (countAt p r.base_offset_)).map
        (fun i => cstr (p.bytes (r.base_offset_ + 6 + 40 * i) 32)) ∧
    (getAnimationNames (begin found r).reader).length = countAt p r.base_offset_ ∧
    (r.partition_ = some p →
      (reload r).ok = true ∧
      getAnimationNames (reload r).reader =
        (List.range (countAt p r.base_offset_)).map
          (fun i => cstr (p.bytes (r.base_offset_ + 6 + 40 * i) 32))) := by
  have main : ∀ r' : Reader, r'.partition_ = some p → r'.base_offset_ = r.base_offset_ →
      (loadAnimationTable r').ok = true ∧
      getAnimationNames (loadAnimationTable r').reader =
        (List.range (countAt p r.base_offset_)).map
          (fun i => cstr (p.bytes (r.base_offset_ + 6 + 40 * i) 32)) := by
    intro r' hp' hb
    obtain ⟨h1, h2⟩ := loadAnimationTable_valid hp' hh (hb ▸ hm) (hb ▸ hc) (hb ▸ hin)
    refine ⟨h1, ?_⟩
    simp only [getAnimationNames, h2, hb]
    rw [namesLoop_terminated, List.map_map]
    · rfl
    · intro e he
      obtain ⟨i, hi, rfl⟩ := List.mem_map.mp he
      have hi' := List.mem_range.mp hi
      exact ⟨bytes_length _ _ _, hnul i hi'⟩
  have hb : (begin found r).ok = true ∧
      getAnimationNames (begin found r).reader =
        (List.range (countAt p r.base_offset_)).map
          (fun i => cstr (p.bytes (r.base_offset_ + 6 + 40 * i) 32)) := by
    rcases hp with hp | ⟨hn, hf⟩
    · simp only [begin, hp]
      exact main r hp rfl
    · have hlt : ¬ (r.base_offset_ ≥ p.size) := by omega
      simp only [begin, hn, hf, hlt, if_false]
      exact main _ rfl rfl
  refine ⟨hb.1, hb.2, ?_, fun hp' => main r hp' rfl⟩
  rw [hb.2]
  simp

theorem names_of_terminated_fields_twin :
    (begin none (imageReader twinPack 4096 0 [])).ok = true ∧
    getAnimationNames (begin none (imageReader twinPack 4096 0 [])).reader =
      [some [0x61], some [0x61]] := by
  have h := names_of_terminated_fields none (imageReader twinPack 4096 0 [])
    (imagePartition twinPack 4096) (Or.inl rfl) (imagePartition_healthy _ _ (by decide))
    (by decide) (by decide) (by decide)
    (by
      intro i hi
      have hi2 : i < 2 := hi
      interval_cases i <;> decide)
  refine ⟨h.1, ?_⟩
  rw [h.2.1]
  decide

/-- C5 (code at the failing input).  The container `longNamePack` has one entry
whose 32-byte name field holds 32 letters "a" and no NUL, followed by the offset
bytes 0x40, 0x01, 0x01, 0x00.  `begin()` returns true and the catalog holds that
entry with its 32-byte name, which `findAnimation` finds under the 32 letters;
`getAnimationNames()` returns one string of 35 bytes, the 32 letters followed by
the three non-zero offset bytes, which is not the name of the entry.  In
`fullEntryPack` no byte of the entry is NUL and the string does not end inside
the catalog at all. -/
theorem names_run_past_name_field :
    (begin none (imageReader longNamePack 4096 0 [])).ok = true ∧
    (begin none (imageReader longNamePack 4096 0 [])).reader.animations_ =
      [⟨List.replicate 32 0x61, 0x10140, 0x10⟩] ∧
    findAnimation (begin none (imageReader longNamePack 4096 0 [])).reader
      (some (List.replicate 32 0x61)) = some ⟨List.replicate 32 0x61, 0x10140, 0x10⟩ ∧
    getAnimationNames (begin none (imageReader longNamePack 4096 0 [])).reader =
      [some (List.replicate 32 0x61 ++ [0x40, 0x01, 0x01])] ∧
    (List.replicate 32 (0x61 : Byte) ++ [0x40, 0x01, 0x01]).length = 35 ∧
    (begin none (imageReader fullEntryPack 4096 0 [])).ok = true ∧
    getAnimationNames (begin none (imageReader fullEntryPack 4096 0 [])).reader = [none] := by
  refine ⟨by decide, by decide, by decide, by decide, by decide, by decide, by decide⟩

/-- C6 (code at the failing input).  The container announces 2 entries but the
50-byte store holds only the first: `loadAnimationTable` returns false and the
first entry stays in the catalog, listed by `getAnimationNames` and found by
`findAnimation`. -/
theorem failed_load_keeps_entries :
    (loadAnimationTable (imageReader truncatedPack 50 0 [])).ok = false ∧
    (loadAnimationTable (imageReader truncatedPack 50 0 [])).reader.animations_ =
      [⟨nameA, 0x40, 0x10⟩] ∧
    getAnimationNames (loadAnimationTable (imageReader truncatedPack 50 0 [])).reader =
      [some [0x61]] ∧
    findAnimation (loadAnimationTable (imageReader truncatedPack 50 0 [])).reader (some [0x61]) =
      some ⟨nameA, 0x40, 0x10⟩ := by
  refine ⟨by decide, by decide, by decide, by decide⟩

/-- C7.  If the 4 bytes at the base offset are not "PACK", `loadAnimationTable`
returns false and `getAnimationNames()` is empty afterwards, whatever catalog
the reader held before. -/
theorem bad_magic_leaves_no_names (r : Reader) (hb : r.base_offset_ < U32)
    (h : ∀ p, r.partition_ = some p → p.bytes r.base_offset_ 4 ≠ MAGIC_PACK) :
    (loadAnimationTable r).ok = false ∧ getAnimationNames (loadAnimationTable r).reader = [] := by
  obtain ⟨h1, h2⟩ := loadAnimationTable_bad_magic h hb
  exact ⟨h1, by simp [getAnimationNames, namesLoop, h2]⟩

/-- Witness for C7: magic "PACX" over a catalog that held one entry. -/
theorem bad_magic_leaves_no_names_witness :
    getAnimationNames (imageReader [0x50, 0x41, 0x43, 0x58] 4096 0 [⟨nameA, 0, 0⟩]) =
      [some [0x61]] ∧
    (loadAnimationTable
      (imageReader [0x50, 0x41, 0x43, 0x58] 4096 0 [⟨nameA, 0, 0⟩])).ok = false ∧
    getAnimationNames
      (loadAnimationTable (imageReader [0x50, 0x41, 0x43, 0x58] 4096 0 [⟨nameA, 0, 0⟩])).reader
      = [] :=
  ⟨by decide,
    bad_magic_leaves_no_names (imageReader [0x50, 0x41, 0x43, 0x58] 4096 0 [⟨nameA, 0, 0⟩])
      (by decide) (by
        intro p hp
        cases hp
        decide)⟩

theorem loadAnimationTable_over_limit {r : Reader} {p : Partition} (hp : r.partition_ = some p)
    (hh : p.Healthy) (hm : p.bytes r.base_offset_ 4 = MAGIC_PACK)
    (h6 : r.base_offset_ + 6 ≤ p.size)
    (hc : countAt p r.base_offset_ > MAX_ANIMATIONS) :
    (loadAnimationTable r).ok = false ∧ (loadAnimationTable r).reader.animations_ = [] := by
  have hp0 : ({ r with animations_ := [] } : Reader).partition_ = some p := hp
  have e1 := read_in_bounds hp0 hh (0) 4 (by show r.base_offset_ + 0 + 4 ≤ _; omega)
  have e2 := read_in_bounds hp0 hh (4) 2 (by show r.base_offset_ + 4 + 2 ≤ _; omega)
  simp only [countAt] at hc
  simp only [loadAnimationTable, e1, e2, Nat.add_zero, hm, ne_eq, not_true_eq_false, if_false,
    hc, if_true, and_self]

/-- C8.  In a healthy store with magic "PACK" and a readable count field:
a count above 70 makes `loadAnimationTable` return false with no entry loaded,
and a count of exactly 70 with all 70 entries inside the store makes it return
true with 70 entries. -/
theorem count_limit_is_seventy (r : Reader) (p : Partition) (hp : r.partition_ = some p)
    (hh : p.Healthy) (hm : p.bytes r.base_offset_ 4 = MAGIC_PACK)
    (h6 : r.base_offset_ + 6 ≤ p.size) :
    (countAt p r.base_offset_ > 70 →
      (loadAnimationTable r).ok = false ∧ (loadAnimationTable r).reader.animations_ = []) ∧
    (countAt p r.base_offset_ = 70 → r.base_offset_ + 6 + 40 * 70 ≤ p.size →
      (loadAnimationTable r).ok = true ∧
      (loadAnimationTable r).reader.animations_.length = 70) := by
  refine ⟨fun hc => loadAnimationTable_over_limit hp hh hm h6 hc, fun hc hin => ?_⟩
  obtain ⟨h1, h2⟩ := loadAnimationTable_valid hp hh hm (by rw [hc]; decide)
    (by rw [hc]; exact hin)
  refine ⟨h1, ?_⟩
  rw [h2, hc]
  simp

/-- Witness for C8: a count field of 71 is rejected, one of 70 is accepted. -/
theorem count_limit_is_seventy_witness :
    countAt (imagePartition (zeroPack 71) 4096) 0 = 71 ∧
    ((loadAnimationTable (imageReader (zeroPack 71) 4096 0 [])).ok = false ∧
      (loadAnimationTable (imageReader (zeroPack 71) 4096 0 [])).reader.animations_ = []) ∧
    countAt (imagePartition (zeroPack 70) 4096) 0 = 70 ∧
    ((loadAnimationTable (imageReader (zeroPack 70) 4096 0 [])).ok = true ∧
      (loadAnimationTable (imageReader (zeroPack 70) 4096 0 [])).reader.animations_.length = 70) :=
  ⟨by decide,
    (count_limit_is_seventy (imageReader (zeroPack 71) 4096 0 [])
      (imagePartition (zeroPack 71) 4096)
      rfl (imagePartition_healthy _ _ (by decide)) (by decide) (by decide)).1 (by decide),
    by decide,
    (count_limit_is_seventy (imageReader (zeroPack 70) 4096 0 [])
      (imagePartition (zeroPack 70) 4096)
      rfl (imagePartition_healthy _ _ (by decide)) (by decide) (by decide)).2 (by decide)
      (by decide)⟩

/-- C9.  In a healthy store with magic "PACK", 6 readable bytes and count 0,
`loadAnimationTable` returns true, `getAnimationNames()` is empty and
`findAnimation` returns null for every name (and for the null name). -/
theorem empty_container_loads (r : Reader) (p : Partition) (hp : r.partition_ = some p)
    (hh : p.Healthy) (hm : p.bytes r.base_offset_ 4 = MAGIC_PACK)
    (h6 : r.base_offset_ + 6 ≤ p.size) (h0 : countAt p r.base_offset_ = 0) :
    (loadAnimationTable r).ok = true ∧
    getAnimationNames (loadAnimationTable r).reader = [] ∧
    ∀ name, findAnimation (loadAnimationTable r).reader name = none := by
  obtain ⟨h1, h2⟩ := loadAnimationTable_valid hp hh hm (by rw [h0]; decide) (by rw [h0]; omega)
  rw [h0] at h2
  refine ⟨h1, by simp [getAnimationNames, namesLoop, h2], fun name => ?_⟩
  cases name <;> simp [findAnimation, h2, findLoop]

/-- Witness for C9: a 6-byte store holding "PACK" and count 0, loaded over a
catalog that held one entry. -/
theorem empty_container_loads_witness :
    (loadAnimationTable (imageReader (zeroPack 0) 6 0 [⟨nameA, 0, 0⟩])).ok = true ∧
    getAnimationNames (loadAnimationTable (imageReader (zeroPack 0) 6 0 [⟨nameA, 0, 0⟩])).reader
      = [] ∧
    ∀ name, findAnimation
      (loadAnimationTable (imageReader (zeroPack 0) 6 0 [⟨nameA, 0, 0⟩])).reader name = none :=
  empty_container_loads (imageReader (zeroPack 0) 6 0 [⟨nameA, 0, 0⟩])
    (imagePartition (zeroPack 0) 6) rfl (imagePartition_healthy _ _ (by decide)) (by decide)
    (by decide) (by decide)

theorem findLoop_none (nm : List Byte) (l : List AnimationEntry) :
    findLoop nm l = none ↔ ∀ e ∈ l, strncmp e.name nm NAME_SIZE ≠ 0 := by
  induction l with
  | nil => simp [findLoop]
  | cons a rest ih =>
    by_cases h : strncmp a.name nm NAME_SIZE = 0
    · simp [findLoop, h]
    · simp [findLoop, h, ih]

theorem findLoop_some (nm : List Byte) (l : List AnimationEntry) (e : AnimationEntry) :
    findLoop nm l = some e ↔
      ∃ i : Nat, l[i]? = some e ∧ strncmp e.name nm NAME_SIZE = 0 ∧
        ∀ j : Nat, j < i → ∀ e' : AnimationEntry, l[j]? = some e' →
          strncmp e'.name nm NAME_SIZE ≠ 0 := by
  induction l with
  | nil => simp [findLoop]
  | cons a rest ih =>
    by_cases h : strncmp a.name nm NAME_SIZE = 0
    · simp only [findLoop, h, if_true, Option.some.injEq]
      constructor
      · rintro rfl
        exact ⟨0, by simp, h, by intro j hj; omega⟩
      · rintro ⟨i, hi, _, hmin⟩
        cases i with
        | zero => simpa using hi
        | succ i => exact absurd h (hmin 0 (by omega) a (by simp))
    · simp only [findLoop, h, if_false, ih]
      constructor
      · rintro ⟨i, hi, hm, hmin⟩
        refine ⟨i + 1, by simpa using hi, hm, ?_⟩
        intro j hj e' he'
        cases j with
        | zero =>
          simp at he'
          subst he'
          exact h
        | succ j => exact hmin j (by omega) e' (by simpa using he')
      · rintro ⟨i, hi, hm, hmin⟩
        cases i with
        | zero =>
          simp at hi
          subst hi
          exact absurd hm h
        | succ i =>
          refine ⟨i, by simpa using hi, hm, ?_⟩
          intro j hj e' he'
          exact hmin (j + 1) (by omega) e' (by simpa using he')

/-- The bytes `strncmp` compares: the first `n` bytes of a string, cut at its
first NUL. -/
theorem strncmp_eq_zero_iff (s1 s2 : List Byte) (n : Nat) :
    strncmp s1 s2 n = 0 ↔
      (s1.take n).takeWhile (fun b => b ≠ 0) = (s2.take n).takeWhile (fun b => b ≠ 0) := by
  induction n generalizing s1 s2 with
  | zero => simp [strncmp]
  | succ n ih =>
    have hz : ∀ (a b : Byte), ((a.val : Int) - (b.val : Int) = 0) ↔ a = b := by
      intro a b
      constructor
      · intro h
        exact Fin.ext (by omega)
      · rintro rfl
        omega
    cases s1 with
    | nil =>
      cases s2 with
      | nil => simp [strncmp, byteAt]
      | cons b t2 =>
        by_cases hb : b = 0
        · subst hb
          simp [strncmp, byteAt]
        · have hb' : ¬ ((0 : Nat) = b.val) := fun h => hb (Fin.ext h.symm)
          have := hz 0 b
          simp [strncmp, byteAt, hb, hb', List.takeWhile_cons] at this ⊢
          omega
    | cons a t1 =>
      cases s2 with
      | nil =>
        by_cases ha : a = 0
        · subst ha
          simp [strncmp, byteAt]
        · have ha' : ¬ (a.val = 0) := fun h => ha (Fin.ext h)
          simp [strncmp, byteAt, ha, ha', List.takeWhile_cons]
      | cons b t2 =>
        by_cases hab : a = b
        · subst hab
          by_cases ha : a = 0
          · subst ha
            simp [strncmp, byteAt]
          · have ha' : ¬ (a.val = 0) := fun h => ha (Fin.ext h)
            simp [strncmp, byteAt, ha, ha', List.takeWhile_cons, ih]
        · have hab' : ¬ (a.val = b.val) := fun h => hab (Fin.ext h)
          have hne : ¬ ((a.val : Int) - (b.val : Int) = 0) := fun h => hab ((hz a b).1 h)
          simp only [strncmp, byteAt, List.getD_cons_zero, ne_eq, hab', not_false_eq_true,
            if_true, hne, false_iff, List.take_succ_cons, List.takeWhile_cons]
          by_cases ha : a = 0 <;> by_cases hb : b = 0 <;> simp [ha, hb]
          · exact hab (by rw [ha, hb])
          · exact fun h => absurd h hab

/-- C10.  For every catalog and every non-null query, `findAnimation` returns
null exactly when no entry has `strncmp(entry.name, name, 32) == 0`; when it
returns an entry, that entry sits at a table index `i` where the comparison is 0
and no index below `i` compares 0 (so of two entries with the same name the
earlier is returned).  The comparison is 0 exactly when both strings, cut to 32
bytes and at their first NUL, are the same bytes (case-sensitive). -/
theorem findAnimation_first_match (r : Reader) (nm : List Byte) :
    (findAnimation r (some nm) = none ↔
      ∀ e ∈ r.animations_, strncmp e.name nm NAME_SIZE ≠ 0) ∧
    (∀ e, findAnimation r (some nm) = some e ↔
      ∃ i : Nat, r.animations_[i]? = some e ∧ strncmp e.name nm NAME_SIZE = 0 ∧
        ∀ j : Nat, j < i → ∀ e' : AnimationEntry, r.animations_[j]? = some e' →
          strncmp e'.name nm NAME_SIZE ≠ 0) ∧
    (∀ e : AnimationEntry, strncmp e.name nm NAME_SIZE = 0 ↔
      (e.name.take 32).takeWhile (fun b => b ≠ 0) = (nm.take 32).takeWhile (fun b => b ≠ 0)) :=
  ⟨findLoop_none nm r.animations_, fun e => findLoop_some nm r.animations_ e,
    fun e => strncmp_eq_zero_iff e.name nm 32⟩

/-! ## The decoder: lemmas and theorems -/

theorem frameOf_length (n : Nat) (px : List Nat) : (frameOf n px).length = n := by
  simp only [frameOf, List.length_append, List.length_take, List.length_replicate]
  omega

theorem frameOf_full {n : Nat} {px : List Nat} (h : n ≤ px.length) (more : List Nat) :
    frameOf n (px ++ more) = frameOf n px := by
  simp only [frameOf, List.length_append]
  rw [List.take_append_of_le_length h]
  have h1 : n - (px.length + more.length) = 0 := by omega
  have h2 : n - px.length = 0 := by omega
  rw [h1, h2]

theorem frameOf_set {n : Nat} {px : List Nat} (h : px.length < n) (color : Nat) :
    (frameOf n px).set px.length color = frameOf n (px ++ [color]) := by
  simp only [frameOf, List.length_append, List.length_singleton]
  rw [List.take_of_length_le (by omega), List.take_of_length_le (by simp; omega)]
  obtain ⟨m, hm⟩ : ∃ m, n - px.length = m + 1 := ⟨n - px.length - 1, by omega⟩
  have hm' : n - (px.length + 1) = m := by omega
  rw [hm, hm', List.replicate_succ, List.set_append_right _ _ (le_refl _)]
  simp

theorem runLoop_frameOf (n color : Nat) :
    ∀ (k : Nat) (px : List Nat),
      runLoop n color k (frameOf n px, min n px.length) =
        (frameOf n (px ++ List.replicate k color),
          min n (px ++ List.replicate k color).length) := by
  intro k
  induction k with
  | zero => intro px; simp [runLoop]
  | succ k ih =>
    intro px
    by_cases h : px.length < n
    · have hmin : min n px.length = px.length := by omega
      have hmin' : px.length + 1 = min n (px ++ [color]).length := by simp; omega
      rw [hmin]
      simp only [runLoop, h, if_true]
      rw [frameOf_set h, hmin', ih (px ++ [color])]
      simp [List.replicate_succ]
    · have hmin : min n px.length = n := by omega
      have hge : n ≤ px.length := by omega
      rw [hmin]
      simp only [runLoop, lt_irrefl, if_false]
      rw [frameOf_full hge]
      simp only [List.length_append, List.length_replicate, Prod.mk.injEq, true_and]
      omega

theorem expand_short {l : List Byte} (h : l.length ≤ 2) : expand l = [] := by
  match l, h with
  | [], _ => rfl
  | [_], _ => rfl
  | [_, _], _ => rfl
  | _ :: _ :: _ :: _, h => simp at h

theorem expand_append :
    ∀ (k : Nat) (xs ys : List Byte), xs.length = 3 * k →
      expand (xs ++ ys) = expand xs ++ expand ys := by
  intro k
  induction k with
  | zero =>
    intro xs ys h
    have : xs = [] := List.length_eq_zero.mp (by omega)
    subst this
    simp [expand]
  | succ k ih =>
    intro xs ys h
    match xs, h with
    | a :: b :: c :: rest, h =>
      have hr : rest.length = 3 * k := by simp at h; omega
      show expand (a :: b :: c :: (rest ++ ys)) = expand (a :: b :: c :: rest) ++ expand ys
      rw [expand, expand, ih rest ys hr, List.append_assoc]

theorem expand_zero_run (hi lo : Byte) (rest : List Byte) :
    expand (0 :: hi :: lo :: rest) = expand rest := by
  simp [expand]

theorem expand_trailing (k : Nat) (xs tail : List Byte) (hx : xs.length = 3 * k)
    (ht : tail.length ≤ 2) : expand (xs ++ tail) = expand xs := by
  rw [expand_append k xs tail hx, expand_short ht, List.append_nil]

theorem drop_three (chunk : List Byte) (pos : Nat) (h : pos + 3 ≤ chunk.length) :
    chunk.drop pos =
      chunk.getD pos 0 :: chunk.getD (pos + 1) 0 :: chunk.getD (pos + 2) 0 ::
        chunk.drop (pos + 3) := by
  have h0 : pos < chunk.length := by omega
  have h1 : pos + 1 < chunk.length := by omega
  have h2 : pos + 2 < chunk.length := by omega
  rw [List.getD_eq_getElem _ _ h0, List.getD_eq_getElem _ _ h1, List.getD_eq_getElem _ _ h2,
    List.drop_eq_getElem_cons h0, List.drop_eq_getElem_cons h1]
  exact congrArg _ (congrArg _ (List.drop_eq_getElem_cons h2))

theorem parseLoop_frameOf (n : Nat) (chunk : List Byte) :
    ∀ (k pos : Nat) (px : List Nat), pos + 3 * k ≤ chunk.length →
      parseLoop n chunk k pos (frameOf n px, min n px.length) =
        (frameOf n (px ++ expand ((chunk.drop pos).take (3 * k))),
          min n (px ++ expand ((chunk.drop pos).take (3 * k))).length) := by
  intro k
  induction k with
  | zero => intro pos px _; simp [parseLoop, expand]
  | succ k ih =>
    intro pos px h
    have hd := drop_three chunk pos (by omega)
    have h3 : 3 * (k + 1) = 3 * k + 1 + 1 + 1 := by omega
    rw [hd, h3]
    simp only [List.take_succ_cons, expand]
    by_cases hlt : px.length < n
    · have hmin : min n px.length < n := by omega
      simp only [parseLoop, hmin, if_true, byteAt]
      rw [runLoop_frameOf, ih (pos + 3) _ (by omega)]
      simp [List.append_assoc]
    · have hmin : ¬ (min n px.length < n) := by omega
      have hge : n ≤ px.length := by omega
      simp only [parseLoop, hmin, if_false]
      rw [frameOf_full hge]
      simp
      omega

theorem carryLoop_eq (parse_len : Nat) :
    ∀ (k i : Nat) (chunk : List Byte), parse_len + i + k ≤ chunk.length →
      carryLoop parse_len k i chunk =
        chunk.take i ++ (chunk.drop (parse_len + i)).take k ++ chunk.drop (i + k) := by
  intro k
  induction k with
  | zero => intro i chunk _; simp [carryLoop]
  | succ k ih =>
    intro i chunk h
    have hi : i < chunk.length := by omega
    have hs : parse_len + i < chunk.length := by omega
    have e0 : (chunk.set i chunk[parse_len + i]).take i = chunk.take i := by
      rw [List.set_eq_take_append_cons_drop, if_pos hi]
      exact List.take_left' (by simp; omega)
    have e1 : (chunk.set i chunk[parse_len + i])[i]?.toList = [chunk[parse_len + i]] := by
      simp [hi]
    have e2 : i + 1 + k = i + (k + 1) := by omega
    simp only [carryLoop]
    rw [ih (i + 1) _ (by simp; omega), List.getD_eq_getElem _ _ hs,
      List.drop_set_of_lt _ _ (by omega), List.drop_set_of_lt _ _ (by omega),
      List.take_succ, e0, e1, e2, List.drop_eq_getElem_cons hs, List.take_succ_cons]
    simp [List.append_assoc, Nat.add_assoc]

theorem writeAt_eq {chunk carry bytes : List Byte} (hC : chunk.take carry.length = carry) :
    writeAt chunk carry.length bytes =
      (carry ++ bytes) ++ chunk.drop (carry ++ bytes).length := by
  simp only [writeAt, hC, List.length_append]

theorem serves_drop {r : Reader} {addr : Nat} {stream : List Byte} (h : Serves r addr stream)
    {k : Nat} (hk : k ≤ stream.length) : Serves r ((addr + k) % U32) (stream.drop k) := by
  intro j l hjl
  have := h (k + j) l (by simp at hjl; omega)
  rw [Nat.mod_add_mod, Nat.add_assoc, this, List.drop_drop]

theorem decodeLoop_frameOf (r : Reader) (c n : Nat) (hc : 0 < c) :
    ∀ (fuel : Nat) (s : DecodeState) (stream carry : List Byte) (px : List Nat),
      stream.length ≤ fuel → s.remaining = stream.length → s.rle_addr < U32 →
      Serves r s.rle_addr stream →
      s.carry_len = carry.length → carry.length ≤ 2 →
      s.rle_chunk.take carry.length = carry → s.rle_chunk.length = c + 3 →
      s.out_frame = frameOf n px → s.pixel_index = min n px.length →
      ∃ s' px', decodeLoop r c n fuel s = some (true, s') ∧
        s'.out_frame = frameOf n px' ∧ s'.pixel_index = min n px'.length ∧
        s'.rle_chunk.length = c + 3 ∧
        frameOf n px' = frameOf n (px ++ expand (carry ++ stream)) := by
  intro fuel
  induction fuel with
  | zero =>
    intro s stream carry px hfuel hrem _ _ _ hcl _ hlen hout hpi
    have hnil : stream = [] := List.length_eq_zero.mp (by omega)
    subst hnil
    have hcond : ¬ (s.remaining > 0 ∧ s.pixel_index < n) := by
      rw [hrem]; simp
    refine ⟨s, px, ?_, hout, hpi, hlen, ?_⟩
    · rw [decodeLoop]; simp only [hcond, if_false]
    · rw [List.append_nil, expand_short hcl, List.append_nil]
  | succ fuel ih =>
    intro s stream carry px hfuel hrem haddr hserve hcarry hcl htake hlen hout hpi
    by_cases hcond : s.remaining > 0 ∧ s.pixel_index < n
    · obtain ⟨hpos, hlt⟩ := hcond
      -- the chunk that is read
      obtain ⟨to_read, hto⟩ : ∃ t, t = (if s.remaining > c then c else s.remaining) :=
        ⟨_, rfl⟩
      have hto_le : to_read ≤ stream.length := by rw [hto, hrem]; split_ifs <;> omega
      have hto_c : to_read ≤ c := by rw [hto]; split_ifs <;> omega
      have hto_pos : 0 < to_read := by rw [hto]; split_ifs <;> omega
      have hread : (read r s.rle_addr to_read).data = some (stream.take to_read) := by
        have := hserve 0 to_read (by omega)
        rwa [Nat.add_zero, Nat.mod_eq_of_lt haddr, List.drop_zero] at this
      have hblen : (stream.take to_read).length = to_read := by
        rw [List.length_take]; omega
      -- the scratch buffer after the read
      obtain ⟨buf, hbuf⟩ : ∃ b, b = carry ++ stream.take to_read := ⟨_, rfl⟩
      have hbuflen : buf.length = s.carry_len + to_read := by
        rw [hbuf, List.length_append, hblen, hcarry]
      have hchunk1 : writeAt s.rle_chunk s.carry_len (stream.take to_read) =
          buf ++ s.rle_chunk.drop buf.length := by
        rw [hcarry, writeAt_eq htake, hbuf]
      obtain ⟨pl, hpl⟩ : ∃ q, q = (s.carry_len + to_read) - (s.carry_len + to_read) % 3 :=
        ⟨_, rfl⟩
      have hpl3 : 3 * (pl / 3) = pl := by omega
      have hpl_le : pl ≤ buf.length := by omega
      have hc1len : (buf ++ s.rle_chunk.drop buf.length).length = c + 3 := by
        rw [List.length_append, List.length_drop, hlen]; omega
      have hparse := parseLoop_frameOf n (buf ++ s.rle_chunk.drop buf.length) (pl / 3) 0 px
        (by rw [hc1len, hpl3]; omega)
      rw [List.drop_zero, hpl3, List.take_append_of_le_length hpl_le] at hparse
      have hcarry2 := carryLoop_eq pl ((s.carry_len + to_read) - pl) 0
        (buf ++ s.rle_chunk.drop buf.length) (by rw [hc1len]; omega)
      -- the state handed to the next iteration
      have hstep := ih
        { rle_addr := (s.rle_addr + to_read) % U32
          remaining := s.remaining - to_read
          pixel_index := min n (px ++ expand (buf.take pl)).length
          carry_len := (s.carry_len + to_read) - pl
          rle_chunk := carryLoop pl ((s.carry_len + to_read) - pl) 0
            (buf ++ s.rle_chunk.drop buf.length)
          out_frame := frameOf n (px ++ expand (buf.take pl))
          txns := s.txns ++ (read r s.rle_addr to_read).txns }
        (stream.drop to_read) (buf.drop pl) (px ++ expand (buf.take pl))
        (by rw [List.length_drop]; omega)
        (by simp only [List.length_drop, hrem])
        (Nat.mod_lt _ (by decide))
        (serves_drop hserve hto_le)
        (by simp only [List.length_drop]; omega)
        (by rw [List.length_drop]; omega)
        (by
          show (carryLoop pl _ 0 _).take _ = _
          rw [hcarry2, List.take_zero, List.nil_append, Nat.add_zero, List.length_drop,
            List.take_append_of_le_length (by rw [List.length_take, List.length_drop,
              List.length_append, List.length_drop]; omega),
            List.take_take, List.drop_append_of_le_length hpl_le,
            List.take_append_of_le_length (by rw [List.length_drop]; omega)]
          rw [List.take_of_length_le (by rw [List.length_drop]; omega)])
        (by
          show (carryLoop pl _ 0 _).length = _
          rw [hcarry2]
          simp only [List.take_zero, List.nil_append, Nat.add_zero, Nat.zero_add,
            List.length_append, List.length_take, List.length_drop, hc1len]
          omega)
        rfl rfl
      obtain ⟨s', px', h1, h2, h3, h4, h5⟩ := hstep
      refine ⟨s', px', ?_, h2, h3, h4, ?_⟩
      · rw [decodeLoop, if_pos ⟨hpos, hlt⟩]
        simp only [← hto, hread, hchunk1, ← hpl, hout, hpi, hparse]
        exact h1
      · rw [h5, List.append_assoc, ← expand_append (pl / 3) _ _ (by
          rw [List.length_take]; omega), ← List.append_assoc, List.take_append_drop, hbuf,
          List.append_assoc, List.take_append_drop]
    · refine ⟨s, px, ?_, hout, hpi, hlen, ?_⟩
      · rw [decodeLoop]; simp only [hcond, if_false]
      · by_cases hz : s.remaining = 0
        · have hnil : stream = [] := List.length_eq_zero.mp (by omega)
          subst hnil
          rw [List.append_nil, expand_short hcl, List.append_nil]
        · have hge : n ≤ px.length := by
            have : ¬ (s.pixel_index < n) := fun h => hcond ⟨by omega, h⟩
            omega
          rw [frameOf_full hge]

theorem bytes_drop_take (p : Partition) (a len j l : Nat) (h : j + l ≤ len) :
    ((p.bytes a len).drop j).take l = p.bytes (a + j) l := by
  apply List.ext_getElem
  · simp [Partition.bytes]; omega
  · intro k h1 h2
    simp [Partition.bytes, Nat.add_assoc]

theorem serves_of_in_bounds {r : Reader} {p : Partition} (hp : r.partition_ = some p)
    (hh : p.Healthy) (addr len : Nat) (h : r.base_offset_ + addr + len ≤ p.size) :
    Serves r addr (p.bytes (r.base_offset_ + addr) len) := by
  intro j l hjl
  rw [bytes_length] at hjl
  have hlt : addr + j < U32 := by have := hh.1; omega
  rw [Nat.mod_eq_of_lt hlt, read_in_bounds hp hh _ _ (by omega), bytes_drop_take _ _ _ _ _ hjl,
    Nat.add_assoc]

theorem fillFrom_frameOf (n : Nat) (px : List Nat) :
    fillFrom (frameOf n px) (min n px.length) = frameOf n px := by
  simp only [fillFrom, frameOf_length]
  by_cases h : px.length < n
  · have hmin : min n px.length = px.length := by omega
    rw [hmin]
    simp only [frameOf]
    rw [List.take_of_length_le (by omega : px.length ≤ n), List.take_left]
  · have hmin : min n px.length = n := by omega
    rw [hmin]
    simp only [frameOf]
    have h0 : n - px.length = 0 := by omega
    simp [h0, List.take_take]

theorem decodeFrame_in_bounds (c n : Nat) (hc : 0 < c) (r : Reader) (p : Partition)
    (anim : AnimationEntry) (i : Nat) (out0 : List Nat) (hdr te : List Byte)
    (hp : r.partition_ = some p) (hh : p.Healthy)
    (hscratch : r.rle_chunk_.length = c + 3)
    (hhdr : hdr = p.bytes (r.base_offset_ + anim.offset) 18)
    (hhdr_in : r.base_offset_ + anim.offset + 18 ≤ p.size)
    (hmagic : hdr.take 4 = MAGIC_ANIM)
    (hi : i < le16 hdr 4)
    (hte : te = p.bytes (r.base_offset_ + anim.offset + le32 hdr 6 + 8 * i) 8)
    (hte_in : r.base_offset_ + anim.offset + le32 hdr 6 + 8 * i + 8 ≤ p.size)
    (hstream_in : r.base_offset_ + anim.offset + le32 hdr 6 + 8 * le16 hdr 4 + le32 te 0
      + le32 te 4 ≤ p.size) :
    (decodeFrame c n r anim (i : Int) out0).map (fun res => (res.ok, res.out_frame)) =
      some (true, frameOf n (expand
        (p.bytes (r.base_offset_ + anim.offset + le32 hdr 6 + 8 * le16 hdr 4 + le32 te 0)
          (le32 te 4)))) := by
  have hsz := hh.1
  have e1 := read_in_bounds hp hh _ _ hhdr_in
  rw [← hhdr] at e1
  have hcond :
      ¬ (le16 hdr 4 = 0 ∨ (i : Int) < 0 ∨ (i : Int) ≥ ((le16 hdr 4 : Nat) : Int)) := by
    omega
  have ha1 : (anim.offset + le32 hdr 6 + (i : Int).toNat * 8) % U32 =
      anim.offset + le32 hdr 6 + 8 * i := by
    rw [Int.toNat_ofNat, Nat.mod_eq_of_lt (by omega)]; omega
  have e2 := read_in_bounds hp hh (anim.offset + le32 hdr 6 + 8 * i) 8
    (by omega)
  rw [← Nat.add_assoc, ← Nat.add_assoc, ← hte] at e2
  have ha2 : (anim.offset + le32 hdr 6 + le16 hdr 4 * 8) % U32 =
      anim.offset + le32 hdr 6 + 8 * le16 hdr 4 := by
    rw [Nat.mod_eq_of_lt (by omega)]; omega
  have ha3 : (anim.offset + le32 hdr 6 + 8 * le16 hdr 4 + le32 te 0) % U32 =
      anim.offset + le32 hdr 6 + 8 * le16 hdr 4 + le32 te 0 := Nat.mod_eq_of_lt (by omega)
  have hserve := serves_of_in_bounds hp hh
    (anim.offset + le32 hdr 6 + 8 * le16 hdr 4 + le32 te 0) (le32 te 4) (by omega)
  obtain ⟨s', px', h1, h2, h3, _, h5⟩ := decodeLoop_frameOf r c n hc (le32 te 4)
    { rle_addr := anim.offset + le32 hdr 6 + 8 * le16 hdr 4 + le32 te 0
      remaining := le32 te 4
      pixel_index := 0
      carry_len := 0
      rle_chunk := r.rle_chunk_
      out_frame := List.replicate n 0
      txns := [Txn.read (r.base_offset_ + anim.offset) 18] ++
        [Txn.read (r.base_offset_ + anim.offset + le32 hdr 6 + 8 * i) 8] }
    (p.bytes (r.base_offset_ + (anim.offset + le32 hdr 6 + 8 * le16 hdr 4 + le32 te 0)) (le32 te 4))
    [] []
    (by rw [bytes_length]) (by rw [bytes_length])
    (by show anim.offset + le32 hdr 6 + 8 * le16 hdr 4 + le32 te 0 < U32; omega) hserve rfl
    (by simp) rfl hscratch (by simp [frameOf]) (by simp)
  simp only [List.nil_append] at h5
  have hfill : (if s'.pixel_index < n then fillFrom s'.out_frame s'.pixel_index
      else s'.out_frame) = frameOf n px' := by
    split_ifs
    · rw [h2, h3, fillFrom_frameOf]
    · exact h2
  have hassoc : r.base_offset_ + (anim.offset + le32 hdr 6 + 8 * le16 hdr 4 + le32 te 0) =
      r.base_offset_ + anim.offset + le32 hdr 6 + 8 * le16 hdr 4 + le32 te 0 := by omega
  rw [hassoc] at h5
  simp only [decodeFrame, e1, hmagic, ne_eq, not_true_eq_false, if_false, hcond, ha1, e2, ha2,
    ha3, h1, hfill, Option.map_some', h5]

theorem expand_length : ∀ stream : List Byte, (expand stream).length = runTotal stream
  | n :: hi :: lo :: rest => by
    simp [expand, runTotal, expand_length rest]
  | [] => rfl
  | [_] => rfl
  | [_, _] => rfl

/-- C1.  In a healthy store, for an entry with a readable "ANIM" header, a frame
index below the frame count, a readable frame table entry and a stream of
`size` bytes lying inside the store (all addresses taken without 32-bit wrap),
`decodeRLEFrameStreamed` returns true and `out_frame` is the flat decoding of
the stream (`n` copies of `(hi << 8) | lo` per complete record, trailing bytes
ignored) cut to 6144 pixels and zero-padded to 6144. -/
theorem decode_is_flat_decoding (r : Reader) (p : Partition) (anim : AnimationEntry) (i : Nat)
    (out0 : List Nat) (hdr te : List Byte)
    (hp : r.partition_ = some p) (hh : p.Healthy)
    (hscratch : r.rle_chunk_.length = READ_CHUNK + 3)
    (hhdr : hdr = p.bytes (r.base_offset_ + anim.offset) 18)
    (hhdr_in : r.base_offset_ + anim.offset + 18 ≤ p.size)
    (hmagic : hdr.take 4 = MAGIC_ANIM)
    (hi : i < le16 hdr 4)
    (hte : te = p.bytes (r.base_offset_ + anim.offset + le32 hdr 6 + 8 * i) 8)
    (hte_in : r.base_offset_ + anim.offset + le32 hdr 6 + 8 * i + 8 ≤ p.size)
    (hstream_in : r.base_offset_ + anim.offset + le32 hdr 6 + 8 * le16 hdr 4 + le32 te 0
      + le32 te 4 ≤ p.size) :
    ∃ res, decodeRLEFrameStreamed r anim (i : Int) out0 = some res ∧ res.ok = true ∧
      res.out_frame.length = 6144 ∧
      res.out_frame = frameOf 6144 (expand
        (p.bytes (r.base_offset_ + anim.offset + le32 hdr 6 + 8 * le16 hdr 4 + le32 te 0)
          (le32 te 4))) := by
  have h := decodeFrame_in_bounds READ_CHUNK MAX_FRAME_PIXELS (by decide) r p anim i out0 hdr te
    hp hh hscratch hhdr hhdr_in hmagic hi hte hte_in hstream_in
  obtain ⟨res, h1, h2⟩ := Option.map_eq_some'.mp h
  simp only [Prod.mk.injEq] at h2
  refine ⟨res, h1, h2.1, ?_, h2.2⟩
  rw [h2.2, frameOf_length]
  rfl

/-- Witness for C1: the one-frame sub-container `toyAnim` in a 32-byte store. -/
theorem decode_is_flat_decoding_witness :
    ∃ res, decodeRLEFrameStreamed (imageReader toyAnim 32 0 []) toyEntry 0 [7, 7] = some res ∧
      res.ok = true ∧ res.out_frame.length = 6144 ∧
      res.out_frame = frameOf 6144 (expand [2, 0x07, 0xE0, 2, 0, 0]) :=
  decode_is_flat_decoding (imageReader toyAnim 32 0 []) (imagePartition toyAnim 32) toyEntry 0
    [7, 7] ((imagePartition toyAnim 32).bytes 0 18) ((imagePartition toyAnim 32).bytes 18 8)
    rfl (imagePartition_healthy _ _ (by decide)) (List.length_replicate _ _) rfl (by decide)
    (by decide) (by decide) rfl (by decide) (by decide)

/-- C2.  The decoder over read-chunk size `c` (scratch buffer of `c + 3` bytes)
and frame size `n` gives the same result for every `c ≥ 1`: on a readable frame,
two readers of the same store with chunk sizes `c1, c2 ≥ 1` return the same
status and the same output frame, whatever their buffers held before; the
common result is true with the flat decoding of the stream, cut and padded to
`n` pixels. -/
theorem chunk_size_irrelevant (n c1 c2 : Nat) (hc1 : 1 ≤ c1) (hc2 : 1 ≤ c2)
    (r1 r2 : Reader) (p : Partition) (anim : AnimationEntry) (i : Nat)
    (out1 out2 : List Nat) (hdr te : List Byte)
    (hp1 : r1.partition_ = some p) (hp2 : r2.partition_ = some p)
    (hb : r2.base_offset_ = r1.base_offset_) (hh : p.Healthy)
    (hs1 : r1.rle_chunk_.length = c1 + 3) (hs2 : r2.rle_chunk_.length = c2 + 3)
    (hhdr : hdr = p.bytes (r1.base_offset_ + anim.offset) 18)
    (hhdr_in : r1.base_offset_ + anim.offset + 18 ≤ p.size)
    (hmagic : hdr.take 4 = MAGIC_ANIM)
    (hi : i < le16 hdr 4)
    (hte : te = p.bytes (r1.base_offset_ + anim.offset + le32 hdr 6 + 8 * i) 8)
    (hte_in : r1.base_offset_ + anim.offset + le32 hdr 6 + 8 * i + 8 ≤ p.size)
    (hstream_in : r1.base_offset_ + anim.offset + le32 hdr 6 + 8 * le16 hdr 4 + le32 te 0
      + le32 te 4 ≤ p.size) :
    (decodeFrame c1 n r1 anim (i : Int) out1).map (fun res => (res.ok, res.out_frame)) =
      (decodeFrame c2 n r2 anim (i : Int) out2).map (fun res => (res.ok, res.out_frame)) ∧
    (decodeFrame c1 n r1 anim (i : Int) out1).map (fun res => (res.ok, res.out_frame)) =
      some (true, frameOf n (expand
        (p.bytes (r1.base_offset_ + anim.offset + le32 hdr 6 + 8 * le16 hdr 4 + le32 te 0)
          (le32 te 4)))) := by
  have h1 := decodeFrame_in_bounds c1 n hc1 r1 p anim i out1 hdr te hp1 hh hs1 hhdr hhdr_in
    hmagic hi hte hte_in hstream_in
  have h2 := decodeFrame_in_bounds c2 n hc2 r2 p anim i out2 hdr te hp2 hh hs2 (hb ▸ hhdr)
    (hb ▸ hhdr_in) hmagic hi (hb ▸ hte) (hb ▸ hte_in) (hb ▸ hstream_in)
  rw [hb] at h2
  exact ⟨h1.trans h2.symm, h1⟩

/-- Witness for C2: with `n = 4` and stream `(2, 0x07, 0xE0), (2, 0, 0)` the
frame is `[0x07E0, 0x07E0, 0, 0]` for chunk sizes 1, 2, 3, 5 and 256. -/
theorem chunk_size_irrelevant_witness :
    (decodeFrame 1 4 (chunkReader toyAnim 32 0 1) toyEntry ((0 : Nat) : Int) []).map
        (fun res => (res.ok, res.out_frame)) = some (true, [0x07E0, 0x07E0, 0, 0]) ∧
    (decodeFrame 2 4 (chunkReader toyAnim 32 0 2) toyEntry ((0 : Nat) : Int) []).map
        (fun res => (res.ok, res.out_frame)) = some (true, [0x07E0, 0x07E0, 0, 0]) ∧
    (decodeFrame 3 4 (chunkReader toyAnim 32 0 3) toyEntry ((0 : Nat) : Int) []).map
        (fun res => (res.ok, res.out_frame)) = some (true, [0x07E0, 0x07E0, 0, 0]) ∧
    (decodeFrame 5 4 (chunkReader toyAnim 32 0 5) toyEntry ((0 : Nat) : Int) []).map
        (fun res => (res.ok, res.out_frame)) = some (true, [0x07E0, 0x07E0, 0, 0]) ∧
    (decodeFrame 256 4 (chunkReader toyAnim 32 0 256) toyEntry ((0 : Nat) : Int) []).map
        (fun res => (res.ok, res.out_frame)) = some (true, [0x07E0, 0x07E0, 0, 0]) := by
  have key : ∀ c, 1 ≤ c →
      (decodeFrame c 4 (chunkReader toyAnim 32 0 c) toyEntry ((0 : Nat) : Int) []).map
        (fun res => (res.ok, res.out_frame)) = some (true, [0x07E0, 0x07E0, 0, 0]) := by
    intro c hc1
    rw [(chunk_size_irrelevant 4 c 1 hc1 (le_refl 1) (chunkReader toyAnim 32 0 c)
      (chunkReader toyAnim 32 0 1) (imagePartition toyAnim 32) toyEntry 0 [] [9]
      ((imagePartition toyAnim 32).bytes 0 18) ((imagePartition toyAnim 32).bytes 18 8)
      rfl rfl rfl (imagePartition_healthy _ _ (by decide)) (List.length_replicate _ _)
      (List.length_replicate _ _) rfl (show 0 + 0 + 18 ≤ 32 by decide) (by decide) (by decide)
      rfl (show 0 + 0 + 18 + 8 * 0 + 8 ≤ 32 by decide)
      (show 0 + 0 + 18 + 8 * 1 + 0 + 6 ≤ 32 by decide)).2]
    exact (by decide : some (true, frameOf 4 (expand
      ((imagePartition toyAnim 32).bytes (0 + 0 + 18 + 8 * 1 + 0) 6))) =
        some (true, [0x07E0, 0x07E0, 0, 0]))
  exact ⟨key 1 (by decide), key 2 (by decide), key 3 (by decide), key 5 (by decide),
    key 256 (by decide)⟩

/-- C3.  Under the conditions of C1, if the run lengths of the complete records
sum to `total < 6144`, `decodeRLEFrameStreamed` returns true, the first `total`
pixels of `out_frame` are the decoded pixels and every pixel from index `total`
up to 6143 is 0. -/
theorem short_stream_zero_padded (r : Reader) (p : Partition) (anim : AnimationEntry) (i : Nat)
    (out0 : List Nat) (hdr te stream : List Byte)
    (hp : r.partition_ = some p) (hh : p.Healthy)
    (hscratch : r.rle_chunk_.length = READ_CHUNK + 3)
    (hhdr : hdr = p.bytes (r.base_offset_ + anim.offset) 18)
    (hhdr_in : r.base_offset_ + anim.offset + 18 ≤ p.size)
    (hmagic : hdr.take 4 = MAGIC_ANIM)
    (hi : i < le16 hdr 4)
    (hte : te = p.bytes (r.base_offset_ + anim.offset + le32 hdr 6 + 8 * i) 8)
    (hte_in : r.base_offset_ + anim.offset + le32 hdr 6 + 8 * i + 8 ≤ p.size)
    (hstream : stream =
      p.bytes (r.base_offset_ + anim.offset + le32 hdr 6 + 8 * le16 hdr 4 + le32 te 0) (le32 te 4))
    (hstream_in : r.base_offset_ + anim.offset + le32 hdr 6 + 8 * le16 hdr 4 + le32 te 0
      + le32 te 4 ≤ p.size)
    (hshort : runTotal stream < 6144) :
    ∃ res, decodeRLEFrameStreamed r anim (i : Int) out0 = some res ∧ res.ok = true ∧
      res.out_frame.length = 6144 ∧
      res.out_frame.take (runTotal stream) = expand stream ∧
      ∀ k, runTotal stream ≤ k → k < 6144 → res.out_frame[k]? = some 0 := by
  have h := decodeFrame_in_bounds READ_CHUNK MAX_FRAME_PIXELS (by decide) r p anim i out0 hdr te
    hp hh hscratch hhdr hhdr_in hmagic hi hte hte_in hstream_in
  rw [← hstream] at h
  obtain ⟨res, h1, h2⟩ := Option.map_eq_some'.mp h
  simp only [Prod.mk.injEq] at h2
  have hlen := expand_length stream
  have hout : res.out_frame =
      expand stream ++ List.replicate (6144 - runTotal stream) 0 := by
    rw [h2.2, frameOf, hlen, List.take_of_length_le (by rw [hlen]; simp [MAX_FRAME_PIXELS]; omega)]
    rfl
  refine ⟨res, h1, h2.1, ?_, ?_, ?_⟩
  · rw [hout, List.length_append, List.length_replicate, hlen]; omega
  · rw [hout, ← hlen, List.take_left]
  · intro k hk1 hk2
    rw [hout, List.getElem?_append_right (by omega), hlen, List.getElem?_replicate]
    simp; omega

/-- Witness for C3: the 6-byte stream of `toyAnim` yields 4 pixels. -/
theorem short_stream_zero_padded_witness :
    ∃ res, decodeRLEFrameStreamed (imageReader toyAnim 32 0 []) toyEntry 0 [] = some res ∧
      res.ok = true ∧ res.out_frame.length = 6144 ∧
      res.out_frame.take 4 = [0x07E0, 0x07E0, 0, 0] ∧
      ∀ k, 4 ≤ k → k < 6144 → res.out_frame[k]? = some 0 :=
  short_stream_zero_padded (imageReader toyAnim 32 0 []) (imagePartition toyAnim 32) toyEntry 0
    [] ((imagePartition toyAnim 32).bytes 0 18) ((imagePartition toyAnim 32).bytes 18 8)
    [2, 0x07, 0xE0, 2, 0, 0]
    rfl (imagePartition_healthy _ _ (by decide)) (List.length_replicate _ _) rfl (by decide)
    (by decide) (by decide) rfl (by decide) (by decide) (by decide) (by decide)

/-! ## Reads: what they depend on and what they log -/

theorem read_congr {r r' : Reader} (hp : r.partition_ = r'.partition_)
    (hb : r.base_offset_ = r'.base_offset_) (rel len : Nat) : read r rel len = read r' rel len := by
  simp only [read, hp, hb]


theorem read_some {r : Reader} {rel len : Nat} {data : List Byte}
    (h : (read r rel len).data = some data) :
    ∃ p, r.partition_ = some p ∧
      data = p.bytes ((r.base_offset_ + rel) % U32) len ∧
      (r.base_offset_ + rel) % U32 + len ≤ p.size ∧
      (read r rel len).txns = [Txn.read ((r.base_offset_ + rel) % U32) len] := by
  cases hp : r.partition_ with
  | none => simp [read, hp] at h
  | some p =>
    refine ⟨p, rfl, ?_⟩
    simp only [read, hp] at h ⊢
    split_ifs at h ⊢ with h1
    simp only [esp_partition_read] at h
    split_ifs at h with h2 h3
    simp only [Option.some.injEq] at h
    exact ⟨h.symm, by omega, rfl⟩

theorem read_some_length {r : Reader} {rel len : Nat} {data : List Byte}
    (h : (read r rel len).data = some data) : data.length = len := by
  obtain ⟨p, _, hd, _⟩ := read_some h
  rw [hd, bytes_length]

theorem read_none_txns (r : Reader) (rel len : Nat) :
    (read r rel len).txns = [] ∨
      (read r rel len).txns = [Txn.read ((r.base_offset_ + rel) % U32) len] := by
  cases hp : r.partition_ with
  | none => simp [read, hp]
  | some p =>
    simp only [read, hp]
    split_ifs <;> simp

/-! ## Rejected decode calls -/

/-- C11.  When the 18-byte header is readable with magic "ANIM" and frame count
`c`, `decodeRLEFrameStreamed` returns false for every `frame_idx < 0` and every
`frame_idx >= c` (so for every index when `c = 0`), leaving the caller's buffer
and the scratch buffer as they were; the only driver call it has made is the
header read, so no frame table entry and no stream byte has been read. -/
theorem bad_index_rejected_before_table (r : Reader) (anim : AnimationEntry) (frame_idx : Int)
    (out : List Nat) (hdr : List Byte)
    (hhdr : (read r anim.offset 18).data = some hdr) (hmagic : hdr.take 4 = MAGIC_ANIM)
    (hidx : frame_idx < 0 ∨ frame_idx ≥ (le16 hdr 4 : Int)) :
    decodeRLEFrameStreamed r anim frame_idx out =
      some ⟨false, out, r.rle_chunk_,
        [Txn.read ((r.base_offset_ + anim.offset) % U32) 18]⟩ := by
  obtain ⟨p, _, _, _, htx⟩ := read_some hhdr
  have hcond : le16 hdr 4 = 0 ∨ frame_idx < 0 ∨ frame_idx ≥ (le16 hdr 4 : Int) := by
    rcases hidx with h | h
    · exact Or.inr (Or.inl h)
    · exact Or.inr (Or.inr h)
  simp only [decodeRLEFrameStreamed, decodeFrame, hhdr, hmagic, ne_eq, not_true_eq_false,
    if_false, hcond, if_true, htx]

/-- Witness for C11: `toyAnim` has one frame; index 1 and index -1 are rejected
after the header read alone. -/
theorem bad_index_rejected_before_table_witness :
    decodeRLEFrameStreamed (imageReader toyAnim 32 0 []) toyEntry 1 [7] =
      some ⟨false, [7], List.replicate (READ_CHUNK + 3) 0, [Txn.read 0 18]⟩ ∧
    decodeRLEFrameStreamed (imageReader toyAnim 32 0 []) toyEntry (-1) [7] =
      some ⟨false, [7], List.replicate (READ_CHUNK + 3) 0, [Txn.read 0 18]⟩ :=
  ⟨bad_index_rejected_before_table (imageReader toyAnim 32 0 []) toyEntry 1 [7]
      ((imagePartition toyAnim 32).bytes 0 18) (by decide) (by decide) (Or.inr (by decide)),
    bad_index_rejected_before_table (imageReader toyAnim 32 0 []) toyEntry (-1) [7]
      ((imagePartition toyAnim 32).bytes 0 18) (by decide) (by decide) (Or.inl (by decide))⟩

/-- C12.  When the 18 bytes at `entry.offset` cannot be read, or are read and do
not start with "ANIM", `decodeRLEFrameStreamed` returns false for every frame
index, with the caller's buffer untouched. -/
theorem bad_header_rejected (r : Reader) (anim : AnimationEntry)
    (h : ∀ hdr, (read r anim.offset 18).data = some hdr → hdr.take 4 ≠ MAGIC_ANIM)
    (frame_idx : Int) (out : List Nat) :
    decodeRLEFrameStreamed r anim frame_idx out =
      some ⟨false, out, r.rle_chunk_, (read r anim.offset 18).txns⟩ := by
  cases hd : (read r anim.offset 18).data with
  | none => simp only [decodeRLEFrameStreamed, decodeFrame, hd]
  | some hdr =>
    have := h hdr hd
    simp only [decodeRLEFrameStreamed, decodeFrame, hd, this, ne_eq, not_false_eq_true, if_true]

/-- Witness for C12: a sub-container whose magic is "PACK", and one whose header
lies outside the store. -/
theorem bad_header_rejected_witness :
    decodeRLEFrameStreamed (imageReader (zeroPack 1) 64 0 []) toyEntry 0 [7] =
      some ⟨false, [7], List.replicate (READ_CHUNK + 3) 0, [Txn.read 0 18]⟩ ∧
    decodeRLEFrameStreamed (imageReader toyAnim 32 0 []) ⟨nameA, 20, 32⟩ 0 [7] =
      some ⟨false, [7], List.replicate (READ_CHUNK + 3) 0, []⟩ :=
  ⟨bad_header_rejected (imageReader (zeroPack 1) 64 0 []) toyEntry
      (by
        intro hdr hd
        have e : (read (imageReader (zeroPack 1) 64 0 []) toyEntry.offset 18).data =
            some ((imagePartition (zeroPack 1) 64).bytes 0 18) := by decide
        rw [e] at hd
        cases hd
        decide) 0 [7],
    bad_header_rejected (imageReader toyAnim 32 0 []) ⟨nameA, 20, 32⟩
      (by
        intro hdr hd
        have e : (read (imageReader toyAnim 32 0 []) 20 18).data = none := by decide
        rw [e] at hd
        cases hd) 0 [7]⟩

/-! ## The loaded table -/

theorem loadEntries_ok {r : Reader} {p : Partition} (hp : r.partition_ = some p) :
    ∀ (k offset : Nat) (acc : List AnimationEntry) (log : List Txn),
      r.base_offset_ + offset + 40 * k < U32 →
      (loadEntries r k offset acc log).1 = true →
      (loadEntries r k offset acc log).2.1 =
        acc ++ (List.range k).map (fun i => tableEntry p (r.base_offset_ + offset + 40 * i)) := by
  intro k
  induction k with
  | zero => intro offset acc log _ _; simp [loadEntries]
  | succ k ih =>
    intro offset acc log hnw hok
    simp only [loadEntries] at hok ⊢
    cases h1 : (read r offset NAME_SIZE).data with
    | none => simp [h1] at hok
    | some name =>
      simp only [h1] at hok ⊢
      cases h2 : (read r (offset + NAME_SIZE) 4).data with
      | none => simp [h2] at hok
      | some offbuf =>
        simp only [h2] at hok ⊢
        cases h3 : (read r (offset + NAME_SIZE + 4) 4).data with
        | none => simp [h3] at hok
        | some lenbuf =>
          simp only [h3] at hok ⊢
          obtain ⟨p1, hp1, e1, _⟩ := read_some h1
          obtain ⟨p2, hp2, e2, _⟩ := read_some h2
          obtain ⟨p3, hp3, e3, _⟩ := read_some h3
          rw [hp] at hp1 hp2 hp3
          cases hp1
          cases hp2
          cases hp3
          simp only [NAME_SIZE] at e1 e2 e3 hok ⊢
          rw [Nat.mod_eq_of_lt (by omega)] at e1 e2 e3
          rw [ih _ _ _ (by omega) hok, List.range_succ_eq_map, List.map_cons, List.map_map,
            List.append_assoc]
          have a1 : r.base_offset_ + (offset + 32) = r.base_offset_ + offset + 32 := by omega
          have a2 : r.base_offset_ + (offset + 32 + 4) = r.base_offset_ + offset + 36 := by omega
          have a3 : ∀ i, r.base_offset_ + (offset + 32 + 4 + 4) + 40 * i =
              r.base_offset_ + offset + 40 * (i + 1) := by intro i; omega
          simp only [List.singleton_append, tableEntry, Nat.mul_zero, Nat.add_zero, e1, e2, e3,
            a1, a2, a3, Function.comp_def, Nat.succ_eq_add_one]

theorem loadAnimationTable_ok {r : Reader} {p : Partition} (hp : r.partition_ = some p)
    (hnw : r.base_offset_ + 6 + 40 * MAX_ANIMATIONS < U32)
    (hok : (loadAnimationTable r).ok = true) :
    countAt p r.base_offset_ ≤ MAX_ANIMATIONS ∧
    (loadAnimationTable r).reader.animations_ =
      (List.range (countAt p r.base_offset_)).map (entryAt p r.base_offset_) := by
  obtain ⟨r0, hr0⟩ : ∃ r0 : Reader, r0 = { r with animations_ := [] } := ⟨_, rfl⟩
  have hp0 : r0.partition_ = some p := by rw [hr0]; exact hp
  have hb0 : r0.base_offset_ = r.base_offset_ := by rw [hr0]
  simp only [MAX_ANIMATIONS] at hnw
  simp only [loadAnimationTable, ← hr0] at hok ⊢
  cases hm : (read r0 0 4).data with
  | none => simp [hm] at hok
  | some magic =>
    simp only [hm] at hok ⊢
    by_cases hmag : magic = MAGIC_PACK
    · simp only [hmag, ne_eq, not_true_eq_false, if_false] at hok ⊢
      cases hc : (read r0 4 2).data with
      | none => simp [hc] at hok
      | some count_buf =>
        simp only [hc] at hok ⊢
        obtain ⟨p2, hp2, e2, _⟩ := read_some hc
        rw [hp0] at hp2
        cases hp2
        rw [hb0, Nat.mod_eq_of_lt (by omega)] at e2
        have hcount : le16 count_buf 0 = countAt p r.base_offset_ := by
          rw [countAt, ← e2]
        by_cases hcnt : le16 count_buf 0 > MAX_ANIMATIONS
        · simp [hcnt] at hok
        · simp only [hcnt, if_false] at hok ⊢
          have hcnt' : countAt p r.base_offset_ ≤ 70 := by
            rw [← hcount]
            simp only [MAX_ANIMATIONS] at hcnt
            omega
          have key := loadEntries_ok hp0 (le16 count_buf 0) 6 []
            ((read r0 0 4).txns ++ (read r0 4 2).txns)
            (by rw [hb0, hcount]; omega) hok
          refine ⟨hcnt', ?_⟩
          rw [key, hcount, hb0]
          rfl
    · simp [hmag] at hok

/-- C13.  After a successful `loadAnimationTable` on a container whose table
addresses fit 32 bits, the catalog has `count` entries, where `count` is the
little-endian u16 at container bytes 4..5 (at most 70), and entry `i` has as
name the 32 bytes at container offset `6 + 40*i`, as `offset` the little-endian
u32 at `6 + 40*i + 32` and as `length` the little-endian u32 at `6 + 40*i + 36`. -/
theorem loaded_table_matches_store (r : Reader) (p : Partition) (hp : r.partition_ = some p)
    (hnw : r.base_offset_ + 6 + 40 * MAX_ANIMATIONS < U32)
    (hok : (loadAnimationTable r).ok = true) :
    (loadAnimationTable r).reader.animations_.length = le16 (p.bytes (r.base_offset_ + 4) 2) 0 ∧
    le16 (p.bytes (r.base_offset_ + 4) 2) 0 ≤ 70 ∧
    ∀ i, i < le16 (p.bytes (r.base_offset_ + 4) 2) 0 →
      (loadAnimationTable r).reader.animations_[i]? =
        some ⟨p.bytes (r.base_offset_ + 6 + 40 * i) 32,
          le32 (p.bytes (r.base_offset_ + 6 + 40 * i + 32) 4) 0,
          le32 (p.bytes (r.base_offset_ + 6 + 40 * i + 36) 4) 0⟩ := by
  obtain ⟨h1, h2⟩ := loadAnimationTable_ok hp hnw hok
  simp only [countAt] at h1 h2
  refine ⟨by rw [h2]; simp, h1, ?_⟩
  intro i hi
  rw [h2, List.getElem?_map, List.getElem?_range hi]
  rfl

/-- Witness for C13: the two-entry container `twinPack`. -/
theorem loaded_table_matches_store_witness :
    (loadAnimationTable (imageReader twinPack 4096 0 [])).reader.animations_.length = 2 ∧
    (loadAnimationTable (imageReader twinPack 4096 0 [])).reader.animations_[1]? =
      some ⟨nameA, 0x80, 0x20⟩ := by
  have h := loaded_table_matches_store (imageReader twinPack 4096 0 [])
    (imagePartition twinPack 4096) rfl (by decide) (by decide)
  refine ⟨h.1.trans (by decide), ?_⟩
  rw [h.2.2 1 (by decide)]
  decide

/-! ## Reload and the frame-count probe -/

/-- C17.  The probe `getFrameCount` returns 0 when the 6 bytes at `entry.offset`
cannot be read or do not start with "ANIM", and otherwise the little-endian u16
at bytes 4..5 of those 6 bytes, a value below 65536; a second store of the same
size and fault behaviour that agrees on those 6 bytes gives the same result,
whatever its other bytes are. -/
theorem getFrameCount_probe (r r' : Reader) (p p' : Partition) (anim : AnimationEntry)
    (hp : r.partition_ = some p) (hp' : r'.partition_ = some p')
    (hb : r'.base_offset_ = r.base_offset_) (hsz : p'.size = p.size)
    (hok : p'.readOk = p.readOk)
    (hbytes : p'.bytes ((r.base_offset_ + anim.offset) % U32) 6 =
      p.bytes ((r.base_offset_ + anim.offset) % U32) 6) :
    getFrameCount r' anim = getFrameCount r anim ∧
    getFrameCount r anim < 65536 ∧
    ((read r anim.offset 6).data = none → getFrameCount r anim = 0) ∧
    (∀ h, (read r anim.offset 6).data = some h →
      h = p.bytes ((r.base_offset_ + anim.offset) % U32) 6 ∧
      getFrameCount r anim = if h.take 4 = MAGIC_ANIM then le16 h 4 else 0) := by
  have hread : (read r' anim.offset 6).data = (read r anim.offset 6).data := by
    simp only [read, hp, hp', hb, hsz, esp_partition_read, hok, hbytes]
  have hlt : ∀ h : List Byte, le16 h 4 < 65536 := by
    intro h
    exact Nat.mod_lt _ (by decide)
  refine ⟨by simp only [getFrameCount, hread], ?_, ?_, ?_⟩
  · simp only [getFrameCount]
    cases (read r anim.offset 6).data with
    | none => decide
    | some h =>
      by_cases hm : h.take 4 = MAGIC_ANIM
      · simp only [hm, ne_eq, not_true_eq_false, if_false]; exact hlt h
      · simp only [hm, ne_eq, not_false_eq_true, if_true]; decide
  · intro hn
    simp only [getFrameCount, hn]
  · intro h hs
    obtain ⟨p1, hp1, e1, _⟩ := read_some hs
    rw [hp] at hp1
    cases hp1
    refine ⟨e1, ?_⟩
    simp only [getFrameCount, hs]
    by_cases hm : h.take 4 = MAGIC_ANIM <;> simp [hm]

/-- Witness for C17: `toyAnim` and a copy with byte 10 changed both have frame
count 1. -/
theorem getFrameCount_probe_witness :
    getFrameCount (imageReader (toyAnim.set 10 0xFF) 32 0 []) toyEntry =
      getFrameCount (imageReader toyAnim 32 0 []) toyEntry ∧
    getFrameCount (imageReader toyAnim 32 0 []) toyEntry = 1 := by
  have h := getFrameCount_probe (imageReader toyAnim 32 0 [])
    (imageReader (toyAnim.set 10 0xFF) 32 0 []) (imagePartition toyAnim 32)
    (imagePartition (toyAnim.set 10 0xFF) 32) toyEntry rfl rfl rfl rfl rfl (by decide)
  exact ⟨h.1, by decide⟩

/-! ## The addresses a decode reads -/

theorem decodeLoop_trace (r : Reader) (c n : Nat) :
    ∀ (fuel : Nat) (s s' : DecodeState), decodeLoop r c n fuel s = some (true, s') →
      ∃ lens : List Nat, s'.txns = s.txns ++ readsFrom r.base_offset_ s.rle_addr lens ∧
        lens.sum ≤ s.remaining ∧ ∀ l ∈ lens, l ≤ c := by
  intro fuel
  induction fuel with
  | zero =>
    intro s s' h
    rw [decodeLoop] at h
    by_cases hcond : s.remaining > 0 ∧ s.pixel_index < n
    · rw [if_pos hcond] at h
      simp at h
    · rw [if_neg hcond] at h
      simp only [Option.some.injEq, Prod.mk.injEq, true_and] at h
      subst h
      exact ⟨[], by simp [readsFrom], by simp, by simp⟩
  | succ fuel ih =>
    intro s s' h
    rw [decodeLoop] at h
    by_cases hcond : s.remaining > 0 ∧ s.pixel_index < n
    · rw [if_pos hcond] at h
      obtain ⟨to_read, hto⟩ : ∃ t, t = (if s.remaining > c then c else s.remaining) :=
        ⟨_, rfl⟩
      have hle : to_read ≤ s.remaining := by rw [hto]; split_ifs <;> omega
      have hlc : to_read ≤ c := by rw [hto]; split_ifs <;> omega
      simp only [← hto] at h
      cases hd : (read r s.rle_addr to_read).data with
      | none => simp [hd] at h
      | some bytes =>
        simp only [hd] at h
        obtain ⟨_, _, _, _, htx⟩ := read_some hd
        obtain ⟨lens, h1, h2, h3⟩ := ih _ _ h
        refine ⟨to_read :: lens, ?_, ?_, ?_⟩
        · rw [h1]
          simp only [htx, readsFrom, List.append_assoc, List.singleton_append]
        · simp only [List.sum_cons]
          simp only at h2
          omega
        · intro l hl
          rcases List.mem_cons.mp hl with rfl | hl
          · exact hlc
          · exact h3 l hl
    · rw [if_neg hcond] at h
      simp only [Option.some.injEq, Prod.mk.injEq, true_and] at h
      subst h
      exact ⟨[], by simp [readsFrom], by simp, by simp⟩

/-! ## Entry offsets and the base offset -/

theorem decodeLoop_txns_extend (r : Reader) (c n : Nat) :
    ∀ (fuel : Nat) (s s' : DecodeState) (b : Bool), decodeLoop r c n fuel s = some (b, s') →
      ∃ rest, s'.txns = s.txns ++ rest := by
  intro fuel
  induction fuel with
  | zero =>
    intro s s' b h
    rw [decodeLoop] at h
    by_cases hcond : s.remaining > 0 ∧ s.pixel_index < n
    · rw [if_pos hcond] at h
      simp at h
    · rw [if_neg hcond] at h
      simp only [Option.some.injEq, Prod.mk.injEq] at h
      exact ⟨[], by rw [← h.2]; simp⟩
  | succ fuel ih =>
    intro s s' b h
    rw [decodeLoop] at h
    by_cases hcond : s.remaining > 0 ∧ s.pixel_index < n
    · rw [if_pos hcond] at h
      obtain ⟨to_read, hto⟩ : ∃ t, t = (if s.remaining > c then c else s.remaining) :=
        ⟨_, rfl⟩
      simp only [← hto] at h
      cases hd : (read r s.rle_addr to_read).data with
      | none =>
        simp only [hd, Option.some.injEq, Prod.mk.injEq] at h
        exact ⟨_, by rw [← h.2]⟩
      | some bytes =>
        simp only [hd] at h
        obtain ⟨rest, h1⟩ := ih _ _ _ h
        exact ⟨_, by rw [h1]; exact List.append_assoc _ _ _⟩
    · rw [if_neg hcond] at h
      simp only [Option.some.injEq, Prod.mk.injEq] at h
      exact ⟨[], by rw [← h.2]; simp⟩

theorem decodeFrame_header_txn (c n : Nat) (r : Reader) (anim : AnimationEntry) (frame_idx : Int)
    (out : List Nat) (res : DecodeResult) (h : decodeFrame c n r anim frame_idx out = some res) :
    ((read r anim.offset 18).data = none ∧ res.ok = false ∧
      res.txns = (read r anim.offset 18).txns) ∨
    ∃ hdr rest, (read r anim.offset 18).data = some hdr ∧
      res.txns = Txn.read ((r.base_offset_ + anim.offset) % U32) 18 :: rest := by
  simp only [decodeFrame] at h
  cases hh : (read r anim.offset 18).data with
  | none =>
    simp only [hh, Option.some.injEq] at h
    subst h
    exact Or.inl ⟨rfl, rfl, rfl⟩
  | some hdr =>
    simp only [hh] at h
    obtain ⟨p, hp, ehdr, _, htx⟩ := read_some hh
    right
    refine ⟨hdr, ?_⟩
    by_cases hm : hdr.take 4 = MAGIC_ANIM
    · simp only [hm, ne_eq, not_true_eq_false, if_false] at h
      by_cases hc : le16 hdr 4 = 0 ∨ frame_idx < 0 ∨ frame_idx ≥ (le16 hdr 4 : Int)
      · simp only [hc, if_true, Option.some.injEq] at h
        subst h
        exact ⟨[], rfl, htx⟩
      · simp only [hc, if_false] at h
        cases ht : (read r ((anim.offset + le32 hdr 6 + frame_idx.toNat * 8) % U32) 8).data with
        | none =>
          simp only [ht, Option.some.injEq] at h
          subst h
          refine ⟨(read r ((anim.offset + le32 hdr 6 + frame_idx.toNat * 8) % U32) 8).txns,
            rfl, ?_⟩
          rw [htx]
          rfl
        | some te =>
          simp only [ht] at h
          generalize hl : decodeLoop r c n (le32 te 4) _ = dl at h
          cases dl with
          | none => simp at h
          | some bs =>
            obtain ⟨b, s'⟩ := bs
            obtain ⟨rest, h1⟩ := decodeLoop_txns_extend r _ _ _ _ _ _ hl
            simp only [htx, List.singleton_append, List.cons_append] at h1
            cases b with
            | false =>
              simp only [Option.some.injEq] at h
              subst h
              exact ⟨_, rfl, h1⟩
            | true =>
              simp only [Option.some.injEq] at h
              subst h
              exact ⟨_, rfl, h1⟩
    · simp only [hm, ne_eq, not_false_eq_true, if_true, Option.some.injEq] at h
      subst h
      exact ⟨[], rfl, htx⟩

/-! ## Chunked writes -/

theorem writePlan_nil (base rel : Nat) : writePlan base rel 256 [] = [] := by
  simp [writePlan]

theorem writePlan_cons (base rel : Nat) (data : List Byte) (h : 0 < data.length) :
    writePlan base rel 256 data =
      Txn.write (base + rel) (data.take 256) ::
        writePlan base (rel + 256) 256 (data.drop 256) := by
  have hm : (data.length + 256 - 1) / 256 =
      ((data.drop 256).length + 256 - 1) / 256 + 1 := by
    rw [List.length_drop]
    omega
  simp only [writePlan]
  rw [hm, List.range_succ_eq_map, List.map_cons, List.map_map]
  simp only [Nat.mul_zero, Nat.add_zero, List.drop_zero, List.cons.injEq, true_and]
  apply List.map_congr_left
  intro k _
  simp only [Function.comp, Nat.succ_eq_add_one, List.drop_drop]
  have e1 : base + rel + 256 * (k + 1) = base + (rel + 256) + 256 * k := by omega
  have e2 : 256 * (k + 1) = 256 + 256 * k := by omega
  rw [e1, e2]

theorem uptoFirstFailure_initial (ok : Txn → Bool) :
    ∀ l : List Txn, uptoFirstFailure ok l <+: l
  | [] => List.prefix_refl _
  | t :: ts => by
    simp only [uptoFirstFailure]
    split_ifs
    · exact (List.prefix_cons_inj t).mpr (uptoFirstFailure_initial ok ts)
    · exact ⟨ts, rfl⟩

theorem uptoFirstFailure_all (ok : Txn → Bool) :
    ∀ l : List Txn, l.all ok = true → uptoFirstFailure ok l = l
  | [], _ => rfl
  | t :: ts, h => by
    simp only [List.all_cons, Bool.and_eq_true] at h
    simp only [uptoFirstFailure, h.1, if_true, uptoFirstFailure_all ok ts h.2]

theorem writeLoop_plan (p : Partition) (base : Nat) :
    ∀ (fuel addr : Nat) (src : List Byte) (log : List Txn),
      src.length ≤ fuel → base + addr + src.length < U32 →
      writeLoop p base 256 fuel addr src log =
        some ⟨(writePlan base addr 256 src).all (driverAccepts p),
          log ++ uptoFirstFailure (driverAccepts p) (writePlan base addr 256 src)⟩ := by
  intro fuel
  induction fuel with
  | zero =>
    intro addr src log hf _
    have hnil : src = [] := List.length_eq_zero.mp (by omega)
    subst hnil
    rw [writeLoop]
    simp [writePlan_nil, uptoFirstFailure]
  | succ fuel ih =>
    intro addr src log hf hnw
    rw [writeLoop]
    by_cases hpos : src.length > 0
    · rw [if_pos hpos, writePlan_cons base addr src hpos]
      have htake : src.take (if src.length > 256 then 256 else src.length) = src.take 256 := by
        split_ifs with h
        · rfl
        · rw [List.take_of_length_le (le_refl _), List.take_of_length_le (by omega)]
      have hdrop : src.drop (if src.length > 256 then 256 else src.length) = src.drop 256 := by
        split_ifs with h
        · rfl
        · rw [List.drop_of_length_le (le_refl _), List.drop_of_length_le (by omega)]
      have hmod : (base + addr) % U32 = base + addr := Nat.mod_eq_of_lt (by omega)
      simp only [htake, hdrop, hmod]
      by_cases hw : esp_partition_write p (base + addr) (src.take 256) = true
      · simp only [hw, if_true]
        by_cases hlen : src.length > 256
        · simp only [hlen, if_true]
          rw [Nat.mod_eq_of_lt (by omega), ih _ _ _ (by rw [List.length_drop]; omega)
            (by rw [List.length_drop]; omega)]
          simp [uptoFirstFailure, driverAccepts, hw]
        · have hnil : src.drop 256 = [] := List.drop_of_length_le (by omega)
          simp only [hlen, if_false, hnil]
          rw [Nat.mod_eq_of_lt (by omega), ih _ _ _ (by simp) (by
            simp only [List.length_nil, Nat.add_zero]
            omega)]
          simp [uptoFirstFailure, driverAccepts, hw, writePlan_nil]
      · simp [uptoFirstFailure, driverAccepts, hw]
    · have hnil : src = [] := List.length_eq_zero.mp (by omega)
      subst hnil
      simp [writePlan_nil, uptoFirstFailure]

theorem writePlan_payload (base : Nat) :
    ∀ (k rel : Nat) (data : List Byte), data.length ≤ k →
      ((writePlan base rel 256 data).map Txn.payload).flatten = data := by
  intro k
  induction k with
  | zero =>
    intro rel data h
    have hnil : data = [] := List.length_eq_zero.mp (by omega)
    subst hnil
    simp [writePlan_nil]
  | succ k ih =>
    intro rel data h
    by_cases hpos : data.length > 0
    · rw [writePlan_cons base rel data hpos, List.map_cons, List.flatten_cons,
        ih _ _ (by rw [List.length_drop]; omega)]
      exact List.take_append_drop 256 data
    · have hnil : data = [] := List.length_eq_zero.mp (by omega)
      subst hnil
      simp [writePlan_nil]

theorem writePlan_nodup (base rel : Nat) (data : List Byte) :
    (writePlan base rel 256 data).Nodup := by
  apply List.Nodup.map _ (List.nodup_range _)
  intro a b h
  simp only [Txn.write.injEq] at h
  omega

/-- C18.  For an in-bounds `writeRaw(rel_addr, data, len)` the write
transactions issued are the consecutive chunks of `data` of 256 bytes each (the
last one possibly shorter) at store offsets `base_offset_ + rel_addr + 256*k`,
in ascending order, cut right after the first chunk the driver fails; no
transaction occurs twice; `writeRaw` returns true exactly when the driver
accepts every chunk, and then all chunks were written and their payloads
concatenate to `data`. -/
theorem writeRaw_writes_chunks_in_order (r : Reader) (p : Partition) (rel_addr : Nat)
    (data : List Byte) (hp : r.partition_ = some p) (hsz : p.size < U32)
    (hin : r.base_offset_ + rel_addr + data.length ≤ p.size) :
    writeRaw r rel_addr data =
      some ⟨(writePlan r.base_offset_ rel_addr 256 data).all (driverAccepts p),
        uptoFirstFailure (driverAccepts p) (writePlan r.base_offset_ rel_addr 256 data)⟩ ∧
    uptoFirstFailure (driverAccepts p) (writePlan r.base_offset_ rel_addr 256 data) <+:
      writePlan r.base_offset_ rel_addr 256 data ∧
    (uptoFirstFailure (driverAccepts p) (writePlan r.base_offset_ rel_addr 256 data)).Nodup ∧
    ((writePlan r.base_offset_ rel_addr 256 data).all (driverAccepts p) = true →
      uptoFirstFailure (driverAccepts p) (writePlan r.base_offset_ rel_addr 256 data) =
        writePlan r.base_offset_ rel_addr 256 data) ∧
    ((writePlan r.base_offset_ rel_addr 256 data).map Txn.payload).flatten = data ∧
    (∀ k, 256 * (k + 1) ≤ data.length →
      (writePlan r.base_offset_ rel_addr 256 data)[k]? =
        some (Txn.write (r.base_offset_ + rel_addr + 256 * k) ((data.drop (256 * k)).take 256)) ∧
      ((data.drop (256 * k)).take 256).length = 256) := by
  have hpre := uptoFirstFailure_initial (driverAccepts p)
    (writePlan r.base_offset_ rel_addr 256 data)
  refine ⟨?_, hpre, List.Nodup.sublist hpre.sublist (writePlan_nodup _ _ _),
    uptoFirstFailure_all _ _, writePlan_payload _ _ _ _ (le_refl _), ?_⟩
  · have hc : ¬ ((r.base_offset_ + rel_addr + data.length) % U32 > p.size) := by
      rw [Nat.mod_eq_of_lt (by omega)]
      omega
    simp only [writeRaw, hp, hc, if_false, READ_CHUNK]
    rw [writeLoop_plan p r.base_offset_ _ _ _ _ (le_refl _) (by omega)]
    simp
  · intro k hk
    constructor
    · simp only [writePlan]
      rw [List.getElem?_map, List.getElem?_range (by omega)]
      rfl
    · rw [List.length_take, List.length_drop]
      omega

/-- Witness for C18: 600 bytes written through a medium that refuses the write
at offset 256: the first two chunks are issued, the third is not, and `writeRaw`
returns false. -/
theorem writeRaw_writes_chunks_in_order_witness :
    writeRaw faultyReader 0 (List.replicate 600 7) =
      some ⟨false,
        [Txn.write 0 (List.replicate 256 7), Txn.write 256 (List.replicate 256 7)]⟩ := by
  rw [(writeRaw_writes_chunks_in_order faultyReader faultyPartition 0 (List.replicate 600 7) rfl
    (by decide) (by rw [List.length_replicate]; decide)).1]
  set_option maxRecDepth 20000 in decide

/-! ## The decoder does not depend on what its buffers held -/

theorem decodeLoop_simulates (r : Reader) (c n : Nat) :
    ∀ (fuel : Nat) (s : DecodeState) (carry : List Byte) (px : List Nat),
      s.carry_len = carry.length → carry.length ≤ 2 →
      s.rle_chunk.take carry.length = carry → s.rle_chunk.length = c + 3 →
      s.out_frame = frameOf n px → s.pixel_index = min n px.length →
      (decodeLoop r c n fuel s = none ∧
        streamLoop (read r) c n fuel s.rle_addr s.remaining carry px s.txns = none) ∨
      ∃ b s' px', decodeLoop r c n fuel s = some (b, s') ∧
        streamLoop (read r) c n fuel s.rle_addr s.remaining carry px s.txns =
          some (b, px', s'.txns) ∧
        s'.out_frame = frameOf n px' ∧ s'.pixel_index = min n px'.length ∧
        s'.rle_chunk.length = c + 3 := by
  intro fuel
  induction fuel with
  | zero =>
    intro s carry px hcarry hcl htake hlen hout hpi
    rw [decodeLoop, streamLoop]
    by_cases hcond : s.remaining > 0 ∧ s.pixel_index < n
    · have hcond' : s.remaining > 0 ∧ px.length < n := ⟨hcond.1, by omega⟩
      rw [if_pos hcond, if_pos hcond']
      exact Or.inl ⟨rfl, rfl⟩
    · have hcond' : ¬ (s.remaining > 0 ∧ px.length < n) := fun h => hcond ⟨h.1, by omega⟩
      rw [if_neg hcond, if_neg hcond']
      exact Or.inr ⟨true, s, px, rfl, rfl, hout, hpi, hlen⟩
  | succ fuel ih =>
    intro s carry px hcarry hcl htake hlen hout hpi
    rw [decodeLoop, streamLoop]
    by_cases hcond : s.remaining > 0 ∧ s.pixel_index < n
    · have hcond' : s.remaining > 0 ∧ px.length < n := ⟨hcond.1, by omega⟩
      rw [if_pos hcond, if_pos hcond']
      obtain ⟨to_read, hto⟩ : ∃ t, t = (if s.remaining > c then c else s.remaining) :=
        ⟨_, rfl⟩
      have hto_c : to_read ≤ c := by rw [hto]; split_ifs <;> omega
      simp only [← hto]
      cases hd : (read r s.rle_addr to_read).data with
      | none =>
        simp only
        exact Or.inr ⟨false, _, px, rfl, rfl, hout, hpi, hlen⟩
      | some bytes =>
        simp only
        have hblen : bytes.length = to_read := read_some_length hd
        obtain ⟨buf, hbuf⟩ : ∃ b, b = carry ++ bytes := ⟨_, rfl⟩
        have hbuflen : buf.length = s.carry_len + to_read := by
          rw [hbuf, List.length_append, hblen, hcarry]
        have hchunk1 : writeAt s.rle_chunk s.carry_len bytes =
            buf ++ s.rle_chunk.drop buf.length := by
          rw [hcarry, writeAt_eq htake, hbuf]
        obtain ⟨pl, hpl⟩ : ∃ q, q = (s.carry_len + to_read) - (s.carry_len + to_read) % 3 :=
          ⟨_, rfl⟩
        have hpl3 : 3 * (pl / 3) = pl := by omega
        have hpl_le : pl ≤ buf.length := by omega
        have hc1len : (buf ++ s.rle_chunk.drop buf.length).length = c + 3 := by
          rw [List.length_append, List.length_drop, hlen]; omega
        have hparse := parseLoop_frameOf n (buf ++ s.rle_chunk.drop buf.length) (pl / 3) 0 px
          (by rw [hc1len, hpl3]; omega)
        rw [List.drop_zero, hpl3, List.take_append_of_le_length hpl_le] at hparse
        have hcarry2 := carryLoop_eq pl ((s.carry_len + to_read) - pl) 0
          (buf ++ s.rle_chunk.drop buf.length) (by rw [hc1len]; omega)
        have hstep := ih
          { rle_addr := (s.rle_addr + to_read) % U32
            remaining := s.remaining - to_read
            pixel_index := min n (px ++ expand (buf.take pl)).length
            carry_len := (s.carry_len + to_read) - pl
            rle_chunk := carryLoop pl ((s.carry_len + to_read) - pl) 0
              (buf ++ s.rle_chunk.drop buf.length)
            out_frame := frameOf n (px ++ expand (buf.take pl))
            txns := s.txns ++ (read r s.rle_addr to_read).txns }
          (buf.drop pl) (px ++ expand (buf.take pl))
          (by simp only [List.length_drop]; omega)
          (by rw [List.length_drop]; omega)
          (by
            show (carryLoop pl _ 0 _).take _ = _
            rw [hcarry2, List.take_zero, List.nil_append, Nat.add_zero, List.length_drop,
              List.take_append_of_le_length (by rw [List.length_take, List.length_drop,
                List.length_append, List.length_drop]; omega),
              List.take_take, List.drop_append_of_le_length hpl_le,
              List.take_append_of_le_length (by rw [List.length_drop]; omega)]
            rw [List.take_of_length_le (by rw [List.length_drop]; omega)])
          (by
            show (carryLoop pl _ 0 _).length = _
            rw [hcarry2]
            simp only [List.take_zero, List.nil_append, Nat.add_zero, Nat.zero_add,
              List.length_append, List.length_take, List.length_drop, hc1len]
            omega)
          rfl rfl
        have hpl' : pl = buf.length - buf.length % 3 := by rw [hpl, hbuflen]
        simp only [hchunk1, ← hpl, hout, hpi, hparse, ← hbuf, ← hpl']
        exact hstep
    · have hcond' : ¬ (s.remaining > 0 ∧ px.length < n) := fun h => hcond ⟨h.1, by omega⟩
      rw [if_neg hcond, if_neg hcond']
      exact Or.inr ⟨true, s, px, rfl, rfl, hout, hpi, hlen⟩

theorem decodeFrame_buffers_irrelevant (c n : Nat) (r r' : Reader) (anim : AnimationEntry)
    (frame_idx : Int) (out out' : List Nat) (hp : r'.partition_ = r.partition_)
    (hb : r'.base_offset_ = r.base_offset_) (hl : r.rle_chunk_.length = c + 3)
    (hl' : r'.rle_chunk_.length = c + 3) :
    (decodeFrame c n r anim frame_idx out = none ∧
      decodeFrame c n r' anim frame_idx out' = none) ∨
    ∃ res res', decodeFrame c n r anim frame_idx out = some res ∧
      decodeFrame c n r' anim frame_idx out' = some res' ∧
      res.ok = res'.ok ∧ res.txns = res'.txns ∧
      (res.ok = true → res.out_frame = res'.out_frame) ∧
      res.rle_chunk.length = c + 3 ∧ res'.rle_chunk.length = c + 3 := by
  have hrd : read r' = read r := by
    funext rel len
    exact read_congr hp hb rel len
  simp only [decodeFrame, hrd]
  cases hh : (read r anim.offset 18).data with
  | none => exact Or.inr ⟨_, _, rfl, rfl, rfl, rfl, by simp, hl, hl'⟩
  | some hdr =>
    simp only
    by_cases hm : hdr.take 4 = MAGIC_ANIM
    · simp only [hm, ne_eq, not_true_eq_false, if_false]
      by_cases hc : le16 hdr 4 = 0 ∨ frame_idx < 0 ∨ frame_idx ≥ (le16 hdr 4 : Int)
      · simp only [hc, if_true]
        exact Or.inr ⟨_, _, rfl, rfl, rfl, rfl, by simp, hl, hl'⟩
      · simp only [hc, if_false]
        cases ht : (read r ((anim.offset + le32 hdr 6 + frame_idx.toNat * 8) % U32) 8).data with
        | none =>
          simp only
          exact Or.inr ⟨_, _, rfl, rfl, rfl, rfl, by simp, hl, hl'⟩
        | some te =>
          simp only
          have sim := decodeLoop_simulates r c n (le32 te 4)
            { rle_addr := ((anim.offset + le32 hdr 6 + le16 hdr 4 * 8) % U32 + le32 te 0) % U32
              remaining := le32 te 4
              pixel_index := 0
              carry_len := 0
              rle_chunk := r.rle_chunk_
              out_frame := List.replicate n 0
              txns := (read r anim.offset 18).txns ++
                (read r ((anim.offset + le32 hdr 6 + frame_idx.toNat * 8) % U32) 8).txns }
            [] [] rfl (by simp) rfl hl (by simp [frameOf]) (by simp)
          have sim' := decodeLoop_simulates r' c n (le32 te 4)
            { rle_addr := ((anim.offset + le32 hdr 6 + le16 hdr 4 * 8) % U32 + le32 te 0) % U32
              remaining := le32 te 4
              pixel_index := 0
              carry_len := 0
              rle_chunk := r'.rle_chunk_
              out_frame := List.replicate n 0
              txns := (read r anim.offset 18).txns ++
                (read r ((anim.offset + le32 hdr 6 + frame_idx.toNat * 8) % U32) 8).txns }
            [] [] rfl (by simp) rfl hl' (by simp [frameOf]) (by simp)
          rw [hrd] at sim'
          have hfill : ∀ (s : DecodeState) (px : List Nat), s.out_frame = frameOf n px →
              s.pixel_index = min n px.length →
              (if s.pixel_index < n then fillFrom s.out_frame s.pixel_index else s.out_frame) =
                frameOf n px := by
            intro s px h2 h3
            split_ifs
            · rw [h2, h3, fillFrom_frameOf]
            · exact h2
          rcases sim with ⟨d1, a1⟩ | ⟨b, s1, px1, d1, a1, o1, i1, l1⟩ <;>
            rcases sim' with ⟨d2, a2⟩ | ⟨b', s2, px2, d2, a2, o2, i2, l2⟩
          · left
            simp only [Nat.mod_add_mod] at d1 d2 ⊢
            rw [d1, d2]
            exact ⟨rfl, rfl⟩
          · rw [a1] at a2
            simp at a2
          · rw [a2] at a1
            simp at a1
          · rw [a1] at a2
            simp only [Option.some.injEq, Prod.mk.injEq] at a2
            obtain ⟨hbb, hpx, htx⟩ := a2
            subst hbb hpx
            right
            simp only [Nat.mod_add_mod] at d1 d2 ⊢
            rw [d1, d2]
            cases b with
            | false => exact ⟨_, _, rfl, rfl, rfl, htx, by simp, l1, l2⟩
            | true =>
              refine ⟨_, _, rfl, rfl, rfl, htx, ?_, l1, l2⟩
              intro _
              simp only [hfill s1 px1 o1 i1, hfill s2 px1 o2 i2]
    · simp only [hm, ne_eq, not_false_eq_true, if_true]
      exact Or.inr ⟨_, _, rfl, rfl, rfl, rfl, by simp, hl, hl'⟩

/-! ## Playback -/

theorem playLoop_all_frames (r0 : Reader) (anim : AnimationEntry)
    (hl0 : r0.rle_chunk_.length = READ_CHUNK + 3) :
    ∀ (m f : Nat) (r : Reader) (del : List (List Nat)) (log : List Txn),
      r.partition_ = r0.partition_ → r.base_offset_ = r0.base_offset_ →
      r.rle_chunk_.length = READ_CHUNK + 3 →
      (∀ j, j < m →
        ∃ res, decodeRLEFrameStreamed r0 anim ((f + j : Nat) : Int) [] = some res ∧
        res.ok = true) →
      ∃ pr, playLoop anim m f r del log = some pr ∧ pr.ok = true ∧
        pr.delivered = del ++ (List.range m).map (fun j => decodedFrame r0 anim (f + j)) ∧
        pr.txns = log ++ ((List.range m).map (fun j => decodeLog r0 anim (f + j))).flatten := by
  intro m
  induction m with
  | zero =>
    intro f r del log _ _ _ _
    exact ⟨_, rfl, rfl, by simp, by simp⟩
  | succ m ih =>
    intro f r del log hp hb hl hall
    obtain ⟨res0, hd0, hok0⟩ := hall 0 (by omega)
    rw [Nat.add_zero] at hd0
    rcases decodeFrame_buffers_irrelevant READ_CHUNK MAX_FRAME_PIXELS r0 r anim (f : Int) []
      r.frame_buffer_ hp hb hl0 hl with ⟨hn, _⟩ | ⟨a, res, ha, hres, e1, e2, e3, _, l2⟩
    · rw [decodeRLEFrameStreamed] at hd0
      rw [hn] at hd0
      cases hd0
    · rw [decodeRLEFrameStreamed] at hd0
      rw [ha] at hd0
      cases hd0
      have hresok : res.ok = true := by rw [← e1]; exact hok0
      have hfr : decodedFrame r0 anim f = res.out_frame := by
        simp only [decodedFrame, decodeRLEFrameStreamed, ha]
        exact e3 hok0
      have htx : decodeLog r0 anim f = res.txns := by
        simp only [decodeLog, decodeRLEFrameStreamed, ha]
        exact e2
      obtain ⟨pr, h1, h2, h3, h4⟩ := ih (f + 1)
        { r with frame_buffer_ := res.out_frame, rle_chunk_ := res.rle_chunk }
        (del ++ [res.out_frame]) (log ++ res.txns) hp hb l2
        (by
          intro j hj
          have := hall (j + 1) (by omega)
          rwa [show f + (j + 1) = f + 1 + j by omega] at this)
      refine ⟨pr, ?_, h2, ?_, ?_⟩
      · rw [playLoop]
        simp only [decodeRLEFrameStreamed, hres, hresok, if_true]
        exact h1
      · rw [h3, List.range_succ_eq_map, List.map_cons, List.map_map]
        simp only [Nat.add_zero, hfr, List.append_assoc, List.singleton_append,
          Function.comp_def, Nat.succ_eq_add_one, Nat.add_assoc, Nat.add_comm 1]
      · rw [h4, List.range_succ_eq_map, List.map_cons, List.map_map]
        simp only [Nat.add_zero, htx, List.flatten_cons, List.append_assoc,
          Function.comp_def, Nat.succ_eq_add_one, Nat.add_assoc, Nat.add_comm 1]

theorem playLoop_first_failure (r0 : Reader) (anim : AnimationEntry)
    (hl0 : r0.rle_chunk_.length = READ_CHUNK + 3) :
    ∀ (g m f : Nat) (r : Reader) (del : List (List Nat)) (log : List Txn),
      r.partition_ = r0.partition_ → r.base_offset_ = r0.base_offset_ →
      r.rle_chunk_.length = READ_CHUNK + 3 → g < m →
      (∀ j, j < g →
        ∃ res, decodeRLEFrameStreamed r0 anim ((f + j : Nat) : Int) [] = some res ∧
        res.ok = true) →
      (∃ res, decodeRLEFrameStreamed r0 anim ((f + g : Nat) : Int) [] = some res ∧
        res.ok = false) →
      ∃ pr, playLoop anim m f r del log = some pr ∧ pr.ok = false ∧
        pr.delivered = del ++ (List.range g).map (fun j => decodedFrame r0 anim (f + j)) ∧
        pr.txns =
          log ++ ((List.range (g + 1)).map (fun j => decodeLog r0 anim (f + j))).flatten := by
  intro g
  induction g with
  | zero =>
    intro m f r del log hp hb hl hgm _ hfail
    obtain ⟨res0, hd0, hok0⟩ := hfail
    rw [Nat.add_zero] at hd0
    obtain ⟨m', rfl⟩ : ∃ m', m = m' + 1 := ⟨m - 1, by omega⟩
    rcases decodeFrame_buffers_irrelevant READ_CHUNK MAX_FRAME_PIXELS r0 r anim (f : Int) []
      r.frame_buffer_ hp hb hl0 hl with ⟨hn, _⟩ | ⟨a, res, ha, hres, e1, e2, e3, _, l2⟩
    · rw [decodeRLEFrameStreamed] at hd0
      rw [hn] at hd0
      cases hd0
    · rw [decodeRLEFrameStreamed] at hd0
      rw [ha] at hd0
      cases hd0
      have hresok : res.ok = false := by rw [← e1]; exact hok0
      have htx : decodeLog r0 anim f = res.txns := by
        simp only [decodeLog, decodeRLEFrameStreamed, ha]
        exact e2
      refine ⟨⟨false, { r with frame_buffer_ := res.out_frame, rle_chunk_ := res.rle_chunk },
        del, log ++ res.txns⟩, ?_, rfl, ?_, ?_⟩
      · rw [playLoop]
        simp only [decodeRLEFrameStreamed, hres, hresok]
        rfl
      · simp
      · show log ++ res.txns = _
        rw [← htx]
        simp [List.range_succ]
  | succ g ih =>
    intro m f r del log hp hb hl hgm hall hfail
    obtain ⟨res0, hd0, hok0⟩ := hall 0 (by omega)
    rw [Nat.add_zero] at hd0
    obtain ⟨m', rfl⟩ : ∃ m', m = m' + 1 := ⟨m - 1, by omega⟩
    rcases decodeFrame_buffers_irrelevant READ_CHUNK MAX_FRAME_PIXELS r0 r anim (f : Int) []
      r.frame_buffer_ hp hb hl0 hl with ⟨hn, _⟩ | ⟨a, res, ha, hres, e1, e2, e3, _, l2⟩
    · rw [decodeRLEFrameStreamed] at hd0
      rw [hn] at hd0
      cases hd0
    · rw [decodeRLEFrameStreamed] at hd0
      rw [ha] at hd0
      cases hd0
      have hresok : res.ok = true := by rw [← e1]; exact hok0
      have hfr : decodedFrame r0 anim f = res.out_frame := by
        simp only [decodedFrame, decodeRLEFrameStreamed, ha]
        exact e3 hok0
      have htx : decodeLog r0 anim f = res.txns := by
        simp only [decodeLog, decodeRLEFrameStreamed, ha]
        exact e2
      obtain ⟨pr, h1, h2, h3, h4⟩ := ih m' (f + 1)
        { r with frame_buffer_ := res.out_frame, rle_chunk_ := res.rle_chunk }
        (del ++ [res.out_frame]) (log ++ res.txns) hp hb l2 (by omega)
        (by
          intro j hj
          have := hall (j + 1) (by omega)
          rwa [show f + (j + 1) = f + 1 + j by omega] at this)
        (by rwa [show f + (g + 1) = f + 1 + g by omega] at hfail)
      refine ⟨pr, ?_, h2, ?_, ?_⟩
      · rw [playLoop]
        simp only [decodeRLEFrameStreamed, hres, hresok, if_true]
        exact h1
      · rw [h3, List.range_succ_eq_map, List.map_cons, List.map_map]
        simp only [Nat.add_zero, hfr, List.append_assoc, List.singleton_append,
          Function.comp_def, Nat.succ_eq_add_one, Nat.add_assoc, Nat.add_comm 1]
      · rw [h4, List.range_succ_eq_map (g + 1), List.map_cons, List.map_map]
        simp only [Nat.add_zero, htx, List.flatten_cons, List.append_assoc,
          Function.comp_def, Nat.succ_eq_add_one, Nat.add_assoc, Nat.add_comm 1]

/-- C19.  For an animation found in the catalog whose header is readable with
magic "ANIM" and `1 <= frame_count <= 10000`, and whose frames all decode
successfully, `play` returns true and hands exactly `frame_count` bitmaps to the
display; the `k`-th of them (counting from 0) is the frame
`decodeRLEFrameStreamed` produces for frame index `k`. -/
theorem play_delivers_every_frame (r : Reader) (name : List Byte) (anim : AnimationEntry)
    (hdr : List Byte) (hl : r.rle_chunk_.length = READ_CHUNK + 3)
    (hfind : findAnimation r (some name) = some anim)
    (hhdr : (read r anim.offset 18).data = some hdr) (hmagic : hdr.take 4 = MAGIC_ANIM)
    (h1 : 1 ≤ le16 hdr 4) (h2 : le16 hdr 4 ≤ 10000)
    (hall : ∀ k, k < le16 hdr 4 →
      ∃ res, decodeRLEFrameStreamed r anim ((k : Nat) : Int) [] = some res ∧ res.ok = true) :
    ∃ pr, play r (some name) true = some pr ∧ pr.ok = true ∧
      pr.delivered.length = le16 hdr 4 ∧
      ∀ k, k < le16 hdr 4 →
        ∃ res, decodeRLEFrameStreamed r anim ((k : Nat) : Int) [] = some res ∧
          pr.delivered[k]? = some res.out_frame := by
  have hcnt : ¬ (le16 hdr 4 = 0 ∨ le16 hdr 4 > 10000) := by omega
  obtain ⟨pr, e1, e2, e3, _⟩ := playLoop_all_frames r anim hl (le16 hdr 4) 0
    { r with frame_buffer_ := resize r.frame_buffer_ MAX_FRAME_PIXELS } []
    (read r anim.offset 18).txns rfl rfl hl
    (by intro j hj; rw [Nat.zero_add]; exact hall j hj)
  refine ⟨pr, ?_, e2, ?_, ?_⟩
  · simp only [play, Bool.true_eq_false, if_false, hfind, hhdr, hmagic, ne_eq,
      not_true_eq_false, hcnt]
    exact e1
  · rw [e3]
    simp
  · intro k hk
    obtain ⟨res, hres, _⟩ := hall k hk
    refine ⟨res, hres, ?_⟩
    rw [e3, List.nil_append, List.getElem?_map, List.getElem?_range hk]
    simp only [Option.map_some', Nat.zero_add, decodedFrame, hres]

/-- Witness for C19: the catalog holds `toyAnim` under the name "a"; one frame
is delivered. -/
theorem play_delivers_every_frame_witness :
    ∃ pr, play (imageReader toyAnim 32 0 [toyEntry]) (some [0x61]) true = some pr ∧
      pr.ok = true ∧ pr.delivered.length = 1 := by
  have hdec := decodeFrame_in_bounds READ_CHUNK MAX_FRAME_PIXELS (by decide)
    (imageReader toyAnim 32 0 [toyEntry]) (imagePartition toyAnim 32) toyEntry 0 []
    ((imagePartition toyAnim 32).bytes 0 18) ((imagePartition toyAnim 32).bytes 18 8)
    rfl (imagePartition_healthy _ _ (by decide)) (List.length_replicate _ _) rfl (by decide)
    (by decide) (by decide) rfl (by decide) (by decide)
  obtain ⟨res, hres, hpair⟩ := Option.map_eq_some'.mp hdec
  simp only [Prod.mk.injEq] at hpair
  obtain ⟨pr, e1, e2, e3, _⟩ := play_delivers_every_frame (imageReader toyAnim 32 0 [toyEntry])
    [0x61] toyEntry ((imagePartition toyAnim 32).bytes 0 18) (List.length_replicate _ _)
    (by decide) (by decide) (by decide) (by decide) (by decide)
    (by
      intro k hk
      have hk0 : k = 0 := by
        have e : le16 ((imagePartition toyAnim 32).bytes 0 18) 4 = 1 := by decide
        omega
      subst hk0
      exact ⟨res, hres, hpair.1⟩)
  exact ⟨pr, e1, e2, e3.trans (by decide)⟩

/-- C20.  If in `play` the decode of frame `f` is the first to fail, `play`
returns false, exactly the `f` frames `0 .. f-1` have been handed to the display
(the `k`-th being the decoded frame `k`), and the driver log is the header read
followed by the calls of the decodes of frames `0 .. f`: nothing is decoded or
delivered after the failure. -/
theorem play_stops_at_first_failure (r : Reader) (name : List Byte) (anim : AnimationEntry)
    (hdr : List Byte) (f : Nat) (hl : r.rle_chunk_.length = READ_CHUNK + 3)
    (hfind : findAnimation r (some name) = some anim)
    (hhdr : (read r anim.offset 18).data = some hdr) (hmagic : hdr.take 4 = MAGIC_ANIM)
    (h2 : le16 hdr 4 ≤ 10000) (hf : f < le16 hdr 4)
    (hbefore : ∀ k, k < f →
      ∃ res, decodeRLEFrameStreamed r anim ((k : Nat) : Int) [] = some res ∧ res.ok = true)
    (hfail : ∃ res, decodeRLEFrameStreamed r anim ((f : Nat) : Int) [] = some res ∧
      res.ok = false) :
    ∃ pr, play r (some name) true = some pr ∧ pr.ok = false ∧
      pr.delivered.length = f ∧
      (∀ k, k < f →
        ∃ res, decodeRLEFrameStreamed r anim ((k : Nat) : Int) [] = some res ∧
          pr.delivered[k]? = some res.out_frame) ∧
      pr.txns = (read r anim.offset 18).txns ++
        ((List.range (f + 1)).map (fun k => decodeLog r anim k)).flatten := by
  have hcnt : ¬ (le16 hdr 4 = 0 ∨ le16 hdr 4 > 10000) := by omega
  obtain ⟨pr, e1, e2, e3, e4⟩ := playLoop_first_failure r anim hl f (le16 hdr 4) 0
    { r with frame_buffer_ := resize r.frame_buffer_ MAX_FRAME_PIXELS } []
    (read r anim.offset 18).txns rfl rfl hl hf
    (by intro j hj; rw [Nat.zero_add]; exact hbefore j hj)
    (by rw [Nat.zero_add]; exact hfail)
  refine ⟨pr, ?_, e2, ?_, ?_, ?_⟩
  · simp only [play, Bool.true_eq_false, if_false, hfind, hhdr, hmagic, ne_eq,
      not_true_eq_false, hcnt]
    exact e1
  · rw [e3]
    simp
  · intro k hk
    obtain ⟨res, hres, _⟩ := hbefore k hk
    refine ⟨res, hres, ?_⟩
    rw [e3, List.nil_append, List.getElem?_map, List.getElem?_range hk]
    simp only [Option.map_some', Nat.zero_add, decodedFrame, hres]
  · rw [e4]
    simp only [Nat.zero_add]

/-- Witness for C20: `twoFrameAnim` in a 26-byte store; frame 0 is delivered,
the decode of frame 1 fails. -/
theorem play_stops_at_first_failure_witness :
    ∃ pr,
      play (imageReader twoFrameAnim 26 0 [⟨nameA, 0, 26⟩]) (some [0x61]) true = some pr ∧
      pr.ok = false ∧ pr.delivered.length = 1 := by
  have d0 : (decodeRLEFrameStreamed (imageReader twoFrameAnim 26 0 [⟨nameA, 0, 26⟩])
      ⟨nameA, 0, 26⟩ ((0 : Nat) : Int) []).map (fun res => res.ok) = some true := by decide
  have d1 : (decodeRLEFrameStreamed (imageReader twoFrameAnim 26 0 [⟨nameA, 0, 26⟩])
      ⟨nameA, 0, 26⟩ ((1 : Nat) : Int) []).map (fun res => res.ok) = some false := by decide
  obtain ⟨res0, hres0, hok0⟩ := Option.map_eq_some'.mp d0
  obtain ⟨res1, hres1, hok1⟩ := Option.map_eq_some'.mp d1
  obtain ⟨pr, e1, e2, e3, _⟩ := play_stops_at_first_failure
    (imageReader twoFrameAnim 26 0 [⟨nameA, 0, 26⟩]) [0x61] ⟨nameA, 0, 26⟩
    ((imagePartition twoFrameAnim 26).bytes 0 18) 1 (List.length_replicate _ _)
    (by decide) (by decide) (by decide) (by decide) (by decide)
    (by
      intro k hk
      have hk0 : k = 0 := by omega
      subst hk0
      exact ⟨res0, hres0, hok0⟩)
    ⟨res1, hres1, hok1⟩
  exact ⟨pr, e1, e2, e3⟩

/-! ## The display component: load and play -/

/-- C21.  For a non-empty name and a catalog that `begin()` has just loaded:
when no entry matches, `loadAnimation` returns false and leaves
`animation_loaded_ = false`; when an entry matches, it returns true, sets
`animation_loaded_ = true` and stores the name as `current_anim_name_`. -/
theorem loadAnimation_after_begin (found : Option Partition) (d : Display) (nm : List Byte)
    (hne : byteAt nm 0 ≠ 0) (hbegin : (begin found d.anim_reader_).ok = true) :
    (findAnimation (begin found d.anim_reader_).reader (some nm) = none →
      (loadAnimation found d (some nm)).ok = false ∧
      (loadAnimation found d (some nm)).display.animation_loaded_ = false) ∧
    (∀ e, findAnimation (begin found d.anim_reader_).reader (some nm) = some e →
      (loadAnimation found d (some nm)).ok = true ∧
      (loadAnimation found d (some nm)).display.animation_loaded_ = true ∧
      (loadAnimation found d (some nm)).display.current_anim_name_ =
        nm.takeWhile (fun b => b ≠ 0)) := by
  constructor
  · intro hf
    simp only [loadAnimation, hne, if_false, hbegin, Bool.true_eq_false, hf, and_self]
  · intro e hf
    simp only [loadAnimation, hne, if_false, hbegin, Bool.true_eq_false, hf, and_self]

/-- Witness for C21: over the container `twinPack`, the name "a" is found and
the name "b" is not. -/
theorem loadAnimation_after_begin_witness :
    ((loadAnimation none ⟨imageReader twinPack 4096 0 [], [], true⟩ (some [0x62])).ok = false ∧
      (loadAnimation none ⟨imageReader twinPack 4096 0 [], [], true⟩
        (some [0x62])).display.animation_loaded_ = false) ∧
    ((loadAnimation none ⟨imageReader twinPack 4096 0 [], [], false⟩ (some [0x61])).ok = true ∧
      (loadAnimation none ⟨imageReader twinPack 4096 0 [], [], false⟩
        (some [0x61])).display.animation_loaded_ = true ∧
      (loadAnimation none ⟨imageReader twinPack 4096 0 [], [], false⟩
        (some [0x61])).display.current_anim_name_ = [0x61]) :=
  ⟨(loadAnimation_after_begin none ⟨imageReader twinPack 4096 0 [], [], true⟩ [0x62]
      (by decide) (by decide)).1 (by decide),
    (loadAnimation_after_begin none ⟨imageReader twinPack 4096 0 [], [], false⟩ [0x61]
      (by decide) (by decide)).2 ⟨nameA, 0x60, 0x10⟩ (by decide)⟩

/-- C22.  With `animation_loaded_ = false`, `playAnimation` returns at once for
`loop = false` and for `loop = true`: no bitmap is delivered, no driver call is
made and the display state is unchanged. -/
theorem playAnimation_not_loaded (fuel : Nat) (d : Display) (loop : Bool)
    (h : d.animation_loaded_ = false) :
    playAnimation fuel d loop = some ⟨d, [], []⟩ := by
  simp only [playAnimation, h, if_true]

/-- Witness for C22: a display that has loaded nothing, asked to loop. -/
theorem playAnimation_not_loaded_witness :
    playAnimation 0 ⟨imageReader toyAnim 32 0 [toyEntry], [0x61], false⟩ true =
      some ⟨⟨imageReader toyAnim 32 0 [toyEntry], [0x61], false⟩, [], []⟩ :=
  playAnimation_not_loaded 0 ⟨imageReader toyAnim 32 0 [toyEntry], [0x61], false⟩ true rfl

theorem playPasses_loop_never_ends :
    ∀ (fuel : Nat) (d : Display) (del : List (List Nat)) (log : List Txn),
      playPasses true fuel d del log = none := by
  intro fuel
  induction fuel with
  | zero => intro d del log; rfl
  | succ fuel ih =>
    intro d del log
    rw [playPasses]
    cases play d.anim_reader_ (some d.current_anim_name_) true with
    | none => rfl
    | some pr => simp only [if_true, ih]

/-- C24 (counterexample).  A display that has loaded the animation "a": however
many passes it is given, `playAnimation(true)` has not returned; nothing in it
looks at a cancellation signal. -/
theorem playAnimation_loop_concrete :
    (⟨imageReader toyAnim 32 0 [toyEntry], [0x61], true⟩ : Display).animation_loaded_ = true ∧
    ∀ fuel, playAnimation fuel ⟨imageReader toyAnim 32 0 [toyEntry], [0x61], true⟩ true = none :=
  ⟨rfl, fun fuel => by
    simp only [playAnimation, Bool.true_eq_false, if_false]
    exact playPasses_loop_never_ends fuel _ _ _⟩

/-- C24 (amended).  There is no cancellation signal: for a loaded animation
`playAnimation(true)` goes on to the next pass after every pass, whatever `play`
returned, so it has not returned after any number of passes; `playAnimation(false)`
runs one pass and returns what that pass delivered. -/
theorem playAnimation_loop_never_returns (d : Display) (h : d.animation_loaded_ = true) :
    (∀ fuel, playAnimation fuel d true = none) ∧
    (∀ fuel, playAnimation (fuel + 1) d false =
      (play d.anim_reader_ (some d.current_anim_name_) true).map
        (fun pr => ⟨{ d with anim_reader_ := pr.reader }, pr.delivered, pr.txns⟩)) := by
  constructor
  · intro fuel
    simp only [playAnimation, h, Bool.true_eq_false, if_false]
    exact playPasses_loop_never_ends fuel _ _ _
  · intro fuel
    simp only [playAnimation, h, Bool.true_eq_false, if_false, playPasses]
    cases play d.anim_reader_ (some d.current_anim_name_) true with
    | none => rfl
    | some pr => simp

/-- Witness for C24 (amended): the loaded display of the counterexample, given
1000 passes. -/
theorem playAnimation_loop_never_returns_witness :
    playAnimation 1000 ⟨imageReader toyAnim 32 0 [toyEntry], [0x61], true⟩ true = none :=
  (playAnimation_loop_never_returns ⟨imageReader toyAnim 32 0 [toyEntry], [0x61], true⟩ rfl).1
    1000

theorem loadAnimationTable_reader (r : Reader) :
    (loadAnimationTable r).reader =
      { r with animations_ := (loadAnimationTable r).reader.animations_ } := by
  simp only [loadAnimationTable]
  cases (read { r with animations_ := [] } 0 4).data with
  | none => simp
  | some magic =>
    by_cases hm : magic = MAGIC_PACK
    · simp only [hm, ne_eq, not_true_eq_false, if_false]
      cases (read { r with animations_ := [] } 4 2).data with
      | none => simp
      | some cb =>
        by_cases hc : le16 cb 0 > MAX_ANIMATIONS
        · simp [hc]
        · simp [hc]
    · simp [hm]

theorem loadAnimation_empty_name (found : Option Partition) (d : Display) (nm : List Byte)
    (h : byteAt nm 0 = 0) : loadAnimation found d (some nm) = ⟨false, d, []⟩ := by
  simp only [loadAnimation, h, if_true]

theorem loadAnimation_found (found : Option Partition) (d : Display) (nm : List Byte)
    (e : AnimationEntry) (hne : byteAt nm 0 ≠ 0) (hbegin : (begin found d.anim_reader_).ok = true)
    (hf : findAnimation (begin found d.anim_reader_).reader (some nm) = some e) :
    loadAnimation found d (some nm) =
      ⟨true, ⟨(begin found d.anim_reader_).reader, nm.takeWhile (fun b => b ≠ 0), true⟩,
        (begin found d.anim_reader_).txns⟩ := by
  simp only [loadAnimation, hne, if_false, hbegin, Bool.true_eq_false, hf]

theorem play_all_frames (r : Reader) (name : List Byte) (anim : AnimationEntry)
    (hdr : List Byte) (hl : r.rle_chunk_.length = READ_CHUNK + 3)
    (hfind : findAnimation r (some name) = some anim)
    (hhdr : (read r anim.offset 18).data = some hdr) (hmagic : hdr.take 4 = MAGIC_ANIM)
    (h1 : 1 ≤ le16 hdr 4) (h2 : le16 hdr 4 ≤ 10000)
    (hall : ∀ k, k < le16 hdr 4 →
      ∃ res, decodeRLEFrameStreamed r anim ((k : Nat) : Int) [] = some res ∧ res.ok = true) :
    ∃ pr, play r (some name) true = some pr ∧ pr.ok = true ∧
      pr.delivered = (List.range (le16 hdr 4)).map (fun j => decodedFrame r anim j) := by
  have hcnt : ¬ (le16 hdr 4 = 0 ∨ le16 hdr 4 > 10000) := by omega
  obtain ⟨pr, e1, e2, e3, _⟩ := playLoop_all_frames r anim hl (le16 hdr 4) 0
    { r with frame_buffer_ := resize r.frame_buffer_ MAX_FRAME_PIXELS } []
    (read r anim.offset 18).txns rfl rfl hl
    (by intro j hj; rw [Nat.zero_add]; exact hall j hj)
  refine ⟨pr, ?_, e2, ?_⟩
  · simp only [play, Bool.true_eq_false, if_false, hfind, hhdr, hmagic, ne_eq,
      not_true_eq_false, hcnt]
    exact e1
  · rw [e3]
    simp

theorem packedToy_loaded :
    loadAnimation none packedToyDisplay (some [0x61]) =
      ⟨true, ⟨imageReader packedToy 78 0 [packedEntry], [0x61], true⟩,
        (begin none packedToyDisplay.anim_reader_).txns⟩ := by
  have hr : (begin none packedToyDisplay.anim_reader_).reader =
      imageReader packedToy 78 0 [packedEntry] := by
    have h := loadAnimationTable_reader (imageReader packedToy 78 0 [])
    have hcat : (loadAnimationTable (imageReader packedToy 78 0 [])).reader.animations_ =
        [packedEntry] := by decide
    rw [hcat] at h
    exact h
  rw [loadAnimation_found none packedToyDisplay [0x61] packedEntry (by decide) (by decide)
    (by decide), hr]
  rfl

theorem packedToy_play :
    ∃ pr, play (imageReader packedToy 78 0 [packedEntry]) (some [0x61]) true = some pr ∧
      pr.delivered = [frameOf MAX_FRAME_PIXELS [0x07E0, 0x07E0, 0, 0]] := by
  have hdec := decodeFrame_in_bounds READ_CHUNK MAX_FRAME_PIXELS (by decide)
    (imageReader packedToy 78 0 [packedEntry]) (imagePartition packedToy 78) packedEntry 0 []
    ((imagePartition packedToy 78).bytes 46 18) ((imagePartition packedToy 78).bytes 64 8)
    rfl (imagePartition_healthy _ _ (by decide)) (List.length_replicate _ _) rfl (by decide)
    (by decide) (by decide) rfl (by decide) (by decide)
  obtain ⟨res, hres, hpair⟩ := Option.map_eq_some'.mp hdec
  simp only [Prod.mk.injEq] at hpair
  have hfc : le16 ((imagePartition packedToy 78).bytes 46 18) 4 = 1 := by decide
  obtain ⟨pr, e1, _, e3⟩ := play_all_frames (imageReader packedToy 78 0 [packedEntry])
    [0x61] packedEntry ((imagePartition packedToy 78).bytes 46 18) (List.length_replicate _ _)
    (by decide) (by decide) (by decide) (by decide) (by decide)
    (by
      intro k hk
      have hk0 : k = 0 := by omega
      subst hk0
      exact ⟨res, hres, hpair.1⟩)
  refine ⟨pr, e1, ?_⟩
  rw [e3]
  have hstream : expand ((imagePartition packedToy 78).bytes
      ((imageReader packedToy 78 0 [packedEntry]).base_offset_ + packedEntry.offset +
        le32 ((imagePartition packedToy 78).bytes 46 18) 6 +
        8 * le16 ((imagePartition packedToy 78).bytes 46 18) 4 +
        le32 ((imagePartition packedToy 78).bytes 64 8) 0)
      (le32 ((imagePartition packedToy 78).bytes 64 8) 4)) = [0x07E0, 0x07E0, 0, 0] := by decide
  have hframe : decodedFrame (imageReader packedToy 78 0 [packedEntry]) packedEntry 0 =
      frameOf MAX_FRAME_PIXELS [0x07E0, 0x07E0, 0, 0] := by
    have hres0 : decodeRLEFrameStreamed (imageReader packedToy 78 0 [packedEntry]) packedEntry
        ((0 : Nat) : Int) [] = some res := hres
    unfold decodedFrame
    rw [hres0]
    show res.out_frame = _
    rw [hpair.2, hstream]
  rw [hfc]
  show [decodedFrame _ _ 0] = _
  rw [hframe]

/-- C30 (failing input).  Over the store `packedToy`: `loadAnimation("a")`
succeeds; a following `loadAnimation("")`, and likewise `loadAnimation(nullptr)`,
returns false and yet leaves `animation_loaded_ = true` with "a" as the current
name, and the `playAnimation(false)` that follows hands the frame of "a" (two
green pixels, the rest black) to the panel.  Likewise a `loadAnimation("a")`
whose `begin()` fails (the store `toyAnim` has no "PACK" magic) returns false
and leaves `animation_loaded_ = true`. -/
theorem failed_load_leaves_animation_playable :
    ((loadAnimation none ⟨imageReader toyAnim 32 0 [toyEntry], [0x61], true⟩
        (some [0x61])).ok = false ∧
      (loadAnimation none ⟨imageReader toyAnim 32 0 [toyEntry], [0x61], true⟩
        (some [0x61])).display.animation_loaded_ = true) ∧
    (loadAnimation none packedToyDisplay (some [0x61])).ok = true ∧
    (loadAnimation none (loadAnimation none packedToyDisplay (some [0x61])).display
      (some [])).ok = false ∧
    (loadAnimation none (loadAnimation none packedToyDisplay (some [0x61])).display
      none).ok = false ∧
    (loadAnimation none (loadAnimation none packedToyDisplay (some [0x61])).display
      none).display.animation_loaded_ = true ∧
    (loadAnimation none (loadAnimation none packedToyDisplay (some [0x61])).display
      (some [])).display.animation_loaded_ = true ∧
    ∃ pa, playAnimation 1 (loadAnimation none
        (loadAnimation none packedToyDisplay (some [0x61])).display (some [])).display false =
        some pa ∧
      pa.delivered = [frameOf MAX_FRAME_PIXELS [0x07E0, 0x07E0, 0, 0]] := by
  rw [packedToy_loaded, loadAnimation_empty_name none _ [] (by decide)]
  refine ⟨⟨by decide, by decide⟩, rfl, rfl, rfl, rfl, rfl, ?_⟩
  obtain ⟨pr, hp, hd⟩ := packedToy_play
  refine ⟨⟨⟨pr.reader, [0x61], true⟩, pr.delivered, pr.txns⟩, ?_, hd⟩
  simp only [playAnimation, Bool.true_eq_false, if_false, playPasses, hp, List.nil_append,
    Bool.false_eq_true]

/-! ## The frame count limit of playback -/

theorem bytes_take (p : Partition) (a len l : Nat) (h : l ≤ len) :
    (p.bytes a len).take l = p.bytes a l := by
  have := bytes_drop_take p a len 0 l (by omega)
  simpa using this

theorem byteAt_take (buf : List Byte) (k i : Nat) (h : i < k) :
    byteAt (buf.take k) i = byteAt buf i := by
  simp only [byteAt, List.getD_eq_getElem?_getD, List.getElem?_take, h, if_true]

/-- C26.  For an entry `play` finds, whose 18-byte header (and the 6-byte probe of
`getFrameCount`) can be read and starts with "ANIM": if the frame count field
`c` is 0 or above 10000, `play` returns false, hands no bitmap to the display and
makes no driver call but the header read, so no frame is decoded; `getFrameCount`
on the same entry returns `c`, which is at most 65535. -/
theorem play_rejects_frame_count (r : Reader) (name : List Byte) (anim : AnimationEntry)
    (hdr head : List Byte)
    (hfind : findAnimation r (some name) = some anim)
    (hhdr : (read r anim.offset 18).data = some hdr)
    (hhead : (read r anim.offset 6).data = some head)
    (hmagic : hdr.take 4 = MAGIC_ANIM)
    (hc : le16 hdr 4 = 0 ∨ 10000 < le16 hdr 4) :
    play r (some name) true =
      some ⟨false, r, [], [Txn.read ((r.base_offset_ + anim.offset) % U32) 18]⟩ ∧
    getFrameCount r anim = le16 hdr 4 ∧ le16 hdr 4 ≤ 65535 := by
  obtain ⟨p, hp, e1, _, t1⟩ := read_some hhdr
  obtain ⟨p', hp', e2, _, _⟩ := read_some hhead
  rw [hp] at hp'
  cases hp'
  have hhd : head = hdr.take 6 := by
    rw [e1, e2, bytes_take p _ 18 6 (by omega)]
  have hm6 : head.take 4 = MAGIC_ANIM := by
    rw [hhd, List.take_take]
    exact hmagic
  have hc6 : le16 head 4 = le16 hdr 4 := by
    rw [hhd]
    simp only [le16, byteAt_take hdr 6 4 (by omega), byteAt_take hdr 6 5 (by omega)]
  have hcnt : le16 hdr 4 = 0 ∨ le16 hdr 4 > 10000 := hc
  refine ⟨?_, ?_, ?_⟩
  · simp only [play, Bool.true_eq_false, if_false, hfind, hhdr, hmagic, ne_eq,
      not_true_eq_false, hcnt, if_true, t1]
  · simp only [getFrameCount, hhead, hm6, ne_eq, not_true_eq_false, if_false, hc6]
  · have : le16 hdr 4 < 65536 := Nat.mod_lt _ (by decide)
    omega

/-- Witness for C26: `toyAnim` with frame count 10001, and with frame count 0. -/
theorem play_rejects_frame_count_witness :
    (play (imageReader overCountAnim 32 0 [toyEntry]) (some [0x61]) true =
        some ⟨false, imageReader overCountAnim 32 0 [toyEntry], [], [Txn.read 0 18]⟩ ∧
      getFrameCount (imageReader overCountAnim 32 0 [toyEntry]) toyEntry = 10001) ∧
    play (imageReader zeroCountAnim 32 0 [toyEntry]) (some [0x61]) true =
      some ⟨false, imageReader zeroCountAnim 32 0 [toyEntry], [], [Txn.read 0 18]⟩ :=
  have h := play_rejects_frame_count (imageReader overCountAnim 32 0 [toyEntry]) [0x61]
    toyEntry ((imagePartition overCountAnim 32).bytes 0 18)
    ((imagePartition overCountAnim 32).bytes 0 6) (by decide) (by decide) (by decide)
    (by decide) (by decide)
  have h0 := play_rejects_frame_count (imageReader zeroCountAnim 32 0 [toyEntry]) [0x61]
    toyEntry ((imagePartition zeroCountAnim 32).bytes 0 18)
    ((imagePartition zeroCountAnim 32).bytes 0 6) (by decide) (by decide) (by decide)
    (by decide) (by decide)
  ⟨⟨h.1, h.2.1.trans (by decide)⟩, h0.1⟩

/-! ## Termination of the decode loop -/

theorem decodeLoop_eq_stepLoop (r : Reader) (c n : Nat) :
    ∀ (fuel : Nat) (s : DecodeState), decodeLoop r c n fuel s = stepLoop r c n fuel s := by
  intro fuel
  induction fuel with
  | zero => intro s; rw [decodeLoop, stepLoop]
  | succ fuel ih =>
    intro s
    rw [decodeLoop, stepLoop]
    by_cases hcond : s.remaining > 0 ∧ s.pixel_index < n
    · rw [if_pos hcond, if_pos hcond]
      simp only [decodeStep, toRead, bufLen, parseLen]
      cases (read r s.rle_addr (if s.remaining > c then c else s.remaining)).data with
      | none => rfl
      | some bytes => exact ih _
    · rw [if_neg hcond, if_neg hcond]

theorem decodeStep_remaining {r : Reader} {c n : Nat} {s s' : DecodeState}
    (h : decodeStep r c n s = some s') : s'.remaining = s.remaining - toRead c s := by
  simp only [decodeStep] at h
  cases hd : (read r s.rle_addr (toRead c s)).data with
  | none => simp [hd] at h
  | some bytes =>
    simp only [hd, Option.some.injEq] at h
    rw [← h]

theorem stepLoop_total (r : Reader) (c n : Nat) :
    ∀ (fuel : Nat) (s : DecodeState), s.remaining ≤ c * fuel →
      ∃ res, stepLoop r c n fuel s = some res := by
  intro fuel
  induction fuel with
  | zero =>
    intro s h
    rw [stepLoop]
    have h0 : ¬ (s.remaining > 0 ∧ s.pixel_index < n) := by
      simp only [Nat.mul_zero] at h
      omega
    rw [if_neg h0]
    exact ⟨_, rfl⟩
  | succ fuel ih =>
    intro s h
    rw [stepLoop]
    by_cases hcond : s.remaining > 0 ∧ s.pixel_index < n
    · rw [if_pos hcond]
      cases hs : decodeStep r c n s with
      | none => exact ⟨_, rfl⟩
      | some s' =>
        have hr := decodeStep_remaining hs
        have hm : c * (fuel + 1) = c * fuel + c := Nat.mul_succ c fuel
        exact ih s' (by
          rw [hr]
          simp only [toRead]
          split_ifs <;> omega)
    · rw [if_neg hcond]
      exact ⟨_, rfl⟩

theorem stepLoop_fuel_succ (r : Reader) (c n : Nat) :
    ∀ (fuel : Nat) (s : DecodeState) (res : Bool × DecodeState),
      stepLoop r c n fuel s = some res → stepLoop r c n (fuel + 1) s = some res := by
  intro fuel
  induction fuel with
  | zero =>
    intro s res h
    rw [stepLoop] at h
    rw [stepLoop]
    by_cases hcond : s.remaining > 0 ∧ s.pixel_index < n
    · rw [if_pos hcond] at h
      cases h
    · rw [if_neg hcond] at h
      rw [if_neg hcond]
      exact h
  | succ fuel ih =>
    intro s res h
    rw [stepLoop] at h
    rw [stepLoop]
    by_cases hcond : s.remaining > 0 ∧ s.pixel_index < n
    · rw [if_pos hcond] at h
      rw [if_pos hcond]
      cases hs : decodeStep r c n s with
      | none =>
        rw [hs] at h
        exact h
      | some s' =>
        rw [hs] at h
        exact ih s' res h
    · rw [if_neg hcond] at h
      rw [if_neg hcond]
      exact h

theorem stepLoop_fuel_le (r : Reader) (c n : Nat) (s : DecodeState)
    (res : Bool × DecodeState) (fuel : Nat) (h : stepLoop r c n fuel s = some res) :
    ∀ k, stepLoop r c n (fuel + k) s = some res := by
  intro k
  induction k with
  | zero => exact h
  | succ k ih => exact stepLoop_fuel_succ r c n (fuel + k) s res ih

theorem decodeFrame_total (c n : Nat) (hc : 0 < c) (r : Reader) (anim : AnimationEntry)
    (frame_idx : Int) (out : List Nat) : ∃ res, decodeFrame c n r anim frame_idx out = some res := by
  simp only [decodeFrame]
  cases (read r anim.offset 18).data with
  | none => exact ⟨_, rfl⟩
  | some hdr =>
    simp only
    by_cases hm : hdr.take 4 = MAGIC_ANIM
    · simp only [hm, ne_eq, not_true_eq_false, if_false]
      by_cases hcnt : le16 hdr 4 = 0 ∨ frame_idx < 0 ∨ frame_idx ≥ (le16 hdr 4 : Int)
      · simp only [hcnt, if_true]
        exact ⟨_, rfl⟩
      · simp only [hcnt, if_false]
        cases (read r ((anim.offset + le32 hdr 6 + frame_idx.toNat * 8) % U32) 8).data with
        | none => exact ⟨_, rfl⟩
        | some te =>
          simp only
          have key : ∀ s0 : DecodeState, s0.remaining = le32 te 4 →
              ∃ res, (match decodeLoop r c n (le32 te 4) s0 with
                | none => none
                | some (false, s) =>
                  some (⟨false, s.out_frame, s.rle_chunk, s.txns⟩ : DecodeResult)
                | some (true, s) =>
                  some ⟨true, if s.pixel_index < n then fillFrom s.out_frame s.pixel_index
                    else s.out_frame, s.rle_chunk, s.txns⟩) = some res := by
            intro s0 hrem
            obtain ⟨res, hres⟩ := stepLoop_total r c n (le32 te 4) s0
              (by rw [hrem]; exact Nat.le_mul_of_pos_left _ hc)
            rw [decodeLoop_eq_stepLoop, hres]
            obtain ⟨b, s'⟩ := res
            cases b
            · exact ⟨_, rfl⟩
            · exact ⟨_, rfl⟩
          exact key _ rfl
    · simp only [hm, ne_eq, not_false_eq_true, if_true]
      exact ⟨_, rfl⟩

/-- C28.  The decode loop of `decodeRLEFrameStreamed` (chunk size 256) comes to
an end from every state and on every store: with a fuel of
`ceil(remaining / 256)` passes, or any larger one, it returns, and returns the
same result.  In a pass entered with `remaining > 0` the read asks for between 1
and 256 bytes, and a pass that goes on leaves `remaining` smaller by that number,
so one pass fewer is needed afterwards.  Hence `decodeRLEFrameStreamed` returns a
result for every entry, frame index and buffer. -/
theorem decode_loop_terminates (r : Reader) (s : DecodeState) (fuel : Nat)
    (hfuel : (s.remaining + 255) / 256 ≤ fuel) :
    (∃ res, decodeLoop r READ_CHUNK MAX_FRAME_PIXELS ((s.remaining + 255) / 256) s = some res ∧
      decodeLoop r READ_CHUNK MAX_FRAME_PIXELS fuel s = some res) ∧
    (0 < s.remaining →
      1 ≤ toRead READ_CHUNK s ∧ toRead READ_CHUNK s ≤ 256 ∧
      ∀ s', decodeStep r READ_CHUNK MAX_FRAME_PIXELS s = some s' →
        s'.remaining = s.remaining - toRead READ_CHUNK s ∧ s'.remaining < s.remaining ∧
        (s'.remaining + 255) / 256 + 1 = (s.remaining + 255) / 256) ∧
    (∀ k t, decodeLoop r READ_CHUNK MAX_FRAME_PIXELS k t =
      stepLoop r READ_CHUNK MAX_FRAME_PIXELS k t) ∧
    ∀ (anim : AnimationEntry) (frame_idx : Int) (out : List Nat),
      ∃ res, decodeRLEFrameStreamed r anim frame_idx out = some res := by
  refine ⟨?_, ?_, decodeLoop_eq_stepLoop r _ _, ?_⟩
  · obtain ⟨res, hres⟩ := stepLoop_total r READ_CHUNK MAX_FRAME_PIXELS
      ((s.remaining + 255) / 256) s (by simp only [READ_CHUNK]; omega)
    refine ⟨res, by rw [decodeLoop_eq_stepLoop]; exact hres, ?_⟩
    obtain ⟨k, hk⟩ : ∃ k, fuel = (s.remaining + 255) / 256 + k := ⟨fuel - (s.remaining + 255) / 256, by omega⟩
    rw [decodeLoop_eq_stepLoop, hk]
    exact stepLoop_fuel_le r _ _ s res _ hres k
  · intro hpos
    have ht : toRead READ_CHUNK s = if s.remaining > 256 then 256 else s.remaining := rfl
    refine ⟨by rw [ht]; split_ifs <;> omega, by rw [ht]; split_ifs <;> omega, ?_⟩
    intro s' hs
    have hr := decodeStep_remaining hs
    rw [hr, ht]
    split_ifs <;> omega
  · intro anim frame_idx out
    exact decodeFrame_total READ_CHUNK MAX_FRAME_PIXELS (by decide) r anim frame_idx out

/-- Witness for C28: a stream of 600 bytes is worked off with fuel for 3 passes. -/
theorem decode_loop_terminates_witness :
    ∃ res, decodeLoop (imageReader toyAnim 32 0 []) READ_CHUNK MAX_FRAME_PIXELS 3
      ⟨0, 600, 0, 0, List.replicate 259 0, List.replicate 6144 0, []⟩ = some res :=
  (decode_loop_terminates (imageReader toyAnim 32 0 [])
    ⟨0, 600, 0, 0, List.replicate 259 0, List.replicate 6144 0, []⟩ 3 (by decide)).1.imp
    (fun _ h => h.2)

/-! ## The decoder seen from outside its buffers -/

theorem decodeFrame_streamFrame (c n : Nat) (r : Reader) (anim : AnimationEntry)
    (frame_idx : Int) (out : List Nat) (hl : r.rle_chunk_.length = c + 3) :
    (decodeFrame c n r anim frame_idx out).map (fun res => (res.ok, res.out_frame, res.txns)) =
      streamFrame (read r) c n anim frame_idx out := by
  simp only [decodeFrame, streamFrame]
  cases hh : (read r anim.offset 18).data with
  | none => rfl
  | some hdr =>
    simp only
    by_cases hm : hdr.take 4 = MAGIC_ANIM
    · simp only [hm, ne_eq, not_true_eq_false, if_false]
      by_cases hc : le16 hdr 4 = 0 ∨ frame_idx < 0 ∨ frame_idx ≥ (le16 hdr 4 : Int)
      · simp only [hc, if_true]
        rfl
      · simp only [hc, if_false]
        cases ht : (read r ((anim.offset + le32 hdr 6 + frame_idx.toNat * 8) % U32) 8).data with
        | none => rfl
        | some te =>
          simp only
          have sim := decodeLoop_simulates r c n (le32 te 4)
            { rle_addr := ((anim.offset + le32 hdr 6 + le16 hdr 4 * 8) % U32 + le32 te 0) % U32
              remaining := le32 te 4
              pixel_index := 0
              carry_len := 0
              rle_chunk := r.rle_chunk_
              out_frame := List.replicate n 0
              txns := (read r anim.offset 18).txns ++
                (read r ((anim.offset + le32 hdr 6 + frame_idx.toNat * 8) % U32) 8).txns }
            [] [] rfl (by simp) rfl hl (by simp [frameOf]) (by simp)
          have hfill : ∀ (s : DecodeState) (px : List Nat), s.out_frame = frameOf n px →
              s.pixel_index = min n px.length →
              (if s.pixel_index < n then fillFrom s.out_frame s.pixel_index else s.out_frame) =
                frameOf n px := by
            intro s px h2 h3
            split_ifs
            · rw [h2, h3, fillFrom_frameOf]
            · exact h2
          rcases sim with ⟨d1, a1⟩ | ⟨b, s1, px1, d1, a1, o1, i1, l1⟩
          · simp only [Nat.mod_add_mod] at d1 a1 ⊢
            rw [d1, a1]
            rfl
          · simp only [Nat.mod_add_mod] at d1 a1 ⊢
            rw [d1, a1]
            cases b with
            | false => simp only [Option.map_some', o1]
            | true => simp only [Option.map_some', hfill s1 px1 o1 i1]
    · simp only [hm, ne_eq, not_false_eq_true, if_true]
      rfl

theorem streamFrame_ok_length {rd : Nat → Nat → ReadResult} {c n : Nat} {anim : AnimationEntry}
    {frame_idx : Int} {out fr : List Nat} {log : List Txn}
    (h : streamFrame rd c n anim frame_idx out = some (true, fr, log)) : fr.length = n := by
  simp only [streamFrame] at h
  cases hh : (rd anim.offset 18).data with
  | none => simp [hh] at h
  | some hdr =>
    simp only [hh] at h
    by_cases hm : hdr.take 4 = MAGIC_ANIM
    · simp only [hm, ne_eq, not_true_eq_false, if_false] at h
      by_cases hc : le16 hdr 4 = 0 ∨ frame_idx < 0 ∨ frame_idx ≥ (le16 hdr 4 : Int)
      · simp [hc] at h
      · simp only [hc, if_false] at h
        cases ht : (rd ((anim.offset + le32 hdr 6 + frame_idx.toNat * 8) % U32) 8).data with
        | none => simp [ht] at h
        | some te =>
          simp only [ht] at h
          generalize streamLoop rd c n (le32 te 4) _ (le32 te 4) [] [] _ = sl at h
          cases sl with
          | none => simp at h
          | some t =>
            obtain ⟨b, px, lg⟩ := t
            simp only [Option.some.injEq, Prod.mk.injEq] at h
            rw [← h.2.1]
            exact frameOf_length n px
    · simp [hm] at h

/-- C29.  Two readers on the same partition and base offset, whatever their
catalogs, frame buffers and the contents of their 259-byte scratch buffers, and
two caller buffers of any length and contents: `decodeRLEFrameStreamed` returns
for both, with the same boolean, and when that is true with the same output
frame of 6144 elements. -/
theorem decode_shows_no_stale_data (r r' : Reader) (anim : AnimationEntry) (frame_idx : Int)
    (out out' : List Nat) (hp : r'.partition_ = r.partition_)
    (hb : r'.base_offset_ = r.base_offset_) (hl : r.rle_chunk_.length = READ_CHUNK + 3)
    (hl' : r'.rle_chunk_.length = READ_CHUNK + 3) :
    ∃ res res', decodeRLEFrameStreamed r anim frame_idx out = some res ∧
      decodeRLEFrameStreamed r' anim frame_idx out' = some res' ∧
      res.ok = res'.ok ∧
      (res.ok = true → res.out_frame = res'.out_frame ∧
        res.out_frame.length = MAX_FRAME_PIXELS) := by
  obtain ⟨res, hres⟩ := decodeFrame_total READ_CHUNK MAX_FRAME_PIXELS (by decide) r anim
    frame_idx out
  rcases decodeFrame_buffers_irrelevant READ_CHUNK MAX_FRAME_PIXELS r r' anim frame_idx out out'
    hp hb hl hl' with ⟨hn, _⟩ | ⟨a, res', ha, hres', e1, _, e3, _, _⟩
  · rw [hn] at hres
    cases hres
  · rw [hres] at ha
    cases ha
    refine ⟨res, res', hres, hres', e1, ?_⟩
    intro hok
    refine ⟨e3 hok, ?_⟩
    have hs := decodeFrame_streamFrame READ_CHUNK MAX_FRAME_PIXELS r anim frame_idx out hl
    rw [hres, Option.map_some', hok] at hs
    exact streamFrame_ok_length hs.symm

/-- Witness for C29: the frame of `toyAnim` decoded by a reader with a zeroed
scratch buffer into an empty buffer, and by a reader with a stale scratch buffer
and frame buffer into a buffer holding three stale pixels. -/
theorem decode_shows_no_stale_data_witness :
    ∃ res res', decodeRLEFrameStreamed (imageReader toyAnim 32 0 []) toyEntry 0 [] = some res ∧
      decodeRLEFrameStreamed
        ⟨some (imagePartition toyAnim 32), 0, [toyEntry], [9, 9], List.replicate 259 0xAA⟩
        toyEntry 0 [7, 7, 7] = some res' ∧
      res.ok = res'.ok ∧
      (res.ok = true → res.out_frame = res'.out_frame ∧
        res.out_frame.length = MAX_FRAME_PIXELS) :=
  decode_shows_no_stale_data (imageReader toyAnim 32 0 [])
    ⟨some (imagePartition toyAnim 32), 0, [toyEntry], [9, 9], List.replicate 259 0xAA⟩
    toyEntry 0 [] [7, 7, 7] rfl rfl (List.length_replicate _ _) (List.length_replicate _ _)

/-! ## The caller's buffer after a failed decode -/

theorem streamFrame_stream (rd : Nat → Nat → ReadResult) (c n : Nat) (anim : AnimationEntry)
    (frame_idx : Int) (out : List Nat) (hdr te : List Byte) (b : Bool) (px : List Nat)
    (log : List Txn)
    (hh : (rd anim.offset 18).data = some hdr) (hm : hdr.take 4 = MAGIC_ANIM)
    (hc : ¬ (le16 hdr 4 = 0 ∨ frame_idx < 0 ∨ frame_idx ≥ (le16 hdr 4 : Int)))
    (ht : (rd ((anim.offset + le32 hdr 6 + frame_idx.toNat * 8) % U32) 8).data = some te)
    (hs : streamLoop rd c n (le32 te 4)
      (((anim.offset + le32 hdr 6 + le16 hdr 4 * 8) % U32 + le32 te 0) % U32) (le32 te 4) [] []
      ((rd anim.offset 18).txns ++
        (rd ((anim.offset + le32 hdr 6 + frame_idx.toNat * 8) % U32) 8).txns) =
      some (b, px, log)) :
    streamFrame rd c n anim frame_idx out = some (b, frameOf n px, log) := by
  simp only [streamFrame, hh, hm, ne_eq, not_true_eq_false, if_false, hc, ht, hs]

theorem cutStream_stream :
    streamFrame (read (imageReader cutStreamAnim 282 0 [])) READ_CHUNK MAX_FRAME_PIXELS
      toyEntry 0 [7] =
      some (false, frameOf MAX_FRAME_PIXELS [0x07E0, 0x07E0],
        [Txn.read 0 18, Txn.read 18 8, Txn.read 26 256]) :=
  streamFrame_stream (read (imageReader cutStreamAnim 282 0 [])) READ_CHUNK MAX_FRAME_PIXELS
    toyEntry 0 [7] ((imagePartition cutStreamAnim 282).bytes 0 18)
    ((imagePartition cutStreamAnim 282).bytes 18 8) false [0x07E0, 0x07E0]
    [Txn.read 0 18, Txn.read 18 8, Txn.read 26 256]
    (by decide) (by decide) (by decide) (by decide)
    (by set_option maxRecDepth 100000 in decide)

theorem frameOf_head (n a : Nat) (px : List Nat) (h : 0 < n) :
    (frameOf n (a :: px))[0]? = some a := by
  obtain ⟨m, rfl⟩ : ∃ m, n = m + 1 := ⟨n - 1, by omega⟩
  simp [frameOf]

theorem frameOf_nil_head (n : Nat) (h : 0 < n) : (frameOf n [])[0]? = some 0 := by
  obtain ⟨m, rfl⟩ : ∃ m, n = m + 1 := ⟨n - 1, by omega⟩
  simp [frameOf, List.replicate_succ]

/-- C23 (counterexample).  Frame index 1 of the one-frame `toyAnim`, decoded
into a buffer holding the single pixel 7: the call returns false and the buffer
still holds 7.  The frame of `cutStreamAnim`, whose second chunk cannot be read:
the call returns false and the buffer holds the two green pixels of the first
chunk. -/
theorem failed_decode_buffer_not_zeroed :
    (decodeRLEFrameStreamed (imageReader toyAnim 32 0 []) toyEntry 1 [7]).map
      (fun res => (res.ok, res.out_frame)) = some (false, [7]) ∧
    (decodeRLEFrameStreamed (imageReader cutStreamAnim 282 0 []) toyEntry 0 [7]).map
      (fun res => (res.ok, res.out_frame)) =
        some (false, frameOf MAX_FRAME_PIXELS [0x07E0, 0x07E0]) ∧
    (frameOf MAX_FRAME_PIXELS [0x07E0, 0x07E0])[0]? = some 0x07E0 := by
  refine ⟨by decide, ?_, frameOf_head MAX_FRAME_PIXELS _ _ (by decide)⟩
  have hs := decodeFrame_streamFrame READ_CHUNK MAX_FRAME_PIXELS
    (imageReader cutStreamAnim 282 0 []) toyEntry 0 [7] (List.length_replicate _ _)
  rw [cutStream_stream] at hs
  obtain ⟨res, hres, hv⟩ := Option.map_eq_some'.mp hs
  simp only [Prod.mk.injEq] at hv
  rw [decodeRLEFrameStreamed, hres, Option.map_some', hv.1, hv.2.1]

/-! ## Bounds kept by the decode loop -/

theorem bytes_congr (p p' : Partition) (a len : Nat)
    (h : ∀ i, i < len → p'.mem (a + i) = p.mem (a + i)) : p'.bytes a len = p.bytes a len := by
  simp only [Partition.bytes]
  apply List.map_congr_left
  intro i hi
  exact h i (List.mem_range.mp hi)

theorem read_agree_clear {r r' : Reader} {p p' : Partition} {lo hi : Nat}
    (hp : r.partition_ = some p) (hp' : r'.partition_ = some p')
    (hb : r'.base_offset_ = r.base_offset_) (hsz : p'.size = p.size)
    (hok : p'.readOk = p.readOk)
    (hmem : ∀ a, a < lo ∨ hi ≤ a → p'.mem a = p.mem a) (rel len : Nat)
    (hclear : ∀ t ∈ (read r rel len).txns, t.clearOf lo hi = true) :
    read r' rel len = read r rel len := by
  simp only [read, hp, hp', hb, hsz] at hclear ⊢
  by_cases hbound : (r.base_offset_ + rel + len) % U32 > p.size
  · rw [if_pos hbound, if_pos hbound]
  · rw [if_neg hbound] at hclear
    rw [if_neg hbound, if_neg hbound]
    have hc := hclear _ (List.mem_singleton.mpr rfl)
    simp only [Txn.clearOf, decide_eq_true_eq] at hc
    have hbytes : p'.bytes ((r.base_offset_ + rel) % U32) len =
        p.bytes ((r.base_offset_ + rel) % U32) len :=
      bytes_congr p p' _ len (fun i hi => hmem _ (by omega))
    simp only [esp_partition_read, hsz, hok, hbytes]

theorem read_header_agree {r r' : Reader} {p p' : Partition} {lo : Nat}
    (hp : r.partition_ = some p) (hp' : r'.partition_ = some p')
    (hb : r'.base_offset_ = r.base_offset_) (hsz : p'.size = p.size)
    (hok : p'.readOk = p.readOk) (rel : Nat)
    (hlo : lo = (r.base_offset_ + rel) % U32 + 10)
    (hmem : ∀ a, a < lo → p'.mem a = p.mem a) :
    (read r' rel 18).txns = (read r rel 18).txns ∧
    (read r' rel 18).data.map (fun h => h.take 10) =
      (read r rel 18).data.map (fun h => h.take 10) := by
  simp only [read, hp, hp', hb, hsz]
  by_cases hbound : (r.base_offset_ + rel + 18) % U32 > p.size
  · rw [if_pos hbound, if_pos hbound]
    exact ⟨rfl, rfl⟩
  · rw [if_neg hbound, if_neg hbound]
    refine ⟨rfl, ?_⟩
    have hbytes : (p'.bytes ((r.base_offset_ + rel) % U32) 18).take 10 =
        (p.bytes ((r.base_offset_ + rel) % U32) 18).take 10 := by
      rw [bytes_take _ _ 18 10 (by omega), bytes_take _ _ 18 10 (by omega)]
      exact bytes_congr p p' _ 10 (fun i hi => hmem _ (by omega))
    simp only [esp_partition_read, hsz, hok]
    split_ifs <;> simp [hbytes]

theorem header_fields_of_take {h h' : List Byte} (e : h'.take 10 = h.take 10) :
    h'.take 4 = h.take 4 ∧ le16 h' 4 = le16 h 4 ∧ le32 h' 6 = le32 h 6 := by
  have hb : ∀ i, i < 10 → byteAt h' i = byteAt h i := by
    intro i hi
    rw [← byteAt_take h' 10 i hi, ← byteAt_take h 10 i hi, e]
  refine ⟨?_, ?_, ?_⟩
  · have := congrArg (List.take 4) e
    simpa [List.take_take] using this
  · simp only [le16, hb 4 (by omega), hb 5 (by omega)]
  · simp only [le32, hb 6 (by omega), hb 7 (by omega), hb 8 (by omega), hb 9 (by omega)]

theorem streamLoop_extends (rd : Nat → Nat → ReadResult) (c n : Nat) :
    ∀ (fuel addr remaining : Nat) (carry : List Byte) (px : List Nat) (log : List Txn)
      (b : Bool) (px' : List Nat) (log' : List Txn),
      streamLoop rd c n fuel addr remaining carry px log = some (b, px', log') →
      ∃ suf, log' = log ++ suf := by
  intro fuel
  induction fuel with
  | zero =>
    intro addr remaining carry px log b px' log' h
    rw [streamLoop] at h
    by_cases hcond : remaining > 0 ∧ px.length < n
    · rw [if_pos hcond] at h
      cases h
    · rw [if_neg hcond] at h
      simp only [Option.some.injEq, Prod.mk.injEq] at h
      exact ⟨[], by rw [← h.2.2]; simp⟩
  | succ fuel ih =>
    intro addr remaining carry px log b px' log' h
    rw [streamLoop] at h
    by_cases hcond : remaining > 0 ∧ px.length < n
    · rw [if_pos hcond] at h
      cases hd : (rd addr (if remaining > c then c else remaining)).data with
      | none =>
        simp only [hd, Option.some.injEq, Prod.mk.injEq] at h
        exact ⟨_, h.2.2.symm⟩
      | some bytes =>
        simp only [hd] at h
        obtain ⟨suf, hs⟩ := ih _ _ _ _ _ _ _ _ h
        exact ⟨_, by rw [hs, List.append_assoc]⟩
    · rw [if_neg hcond] at h
      simp only [Option.some.injEq, Prod.mk.injEq] at h
      exact ⟨[], by rw [← h.2.2]; simp⟩

theorem streamLoop_congr_clear (rd rd' : Nat → Nat → ReadResult) (c n : Nat)
    (Q : Txn → Prop)
    (H : ∀ a l, (∀ t ∈ (rd a l).txns, Q t) → rd' a l = rd a l) :
    ∀ (fuel addr remaining : Nat) (carry : List Byte) (px : List Nat) (log : List Txn)
      (b : Bool) (px' : List Nat) (suf : List Txn),
      streamLoop rd c n fuel addr remaining carry px log = some (b, px', log ++ suf) →
      (∀ t ∈ suf, Q t) →
      streamLoop rd' c n fuel addr remaining carry px log = some (b, px', log ++ suf) := by
  intro fuel
  induction fuel with
  | zero =>
    intro addr remaining carry px log b px' suf h _
    rw [streamLoop] at h ⊢
    exact h
  | succ fuel ih =>
    intro addr remaining carry px log b px' suf h hq
    rw [streamLoop] at h ⊢
    by_cases hcond : remaining > 0 ∧ px.length < n
    · rw [if_pos hcond] at h ⊢
      obtain ⟨to_read, hto⟩ : ∃ t, t = (if remaining > c then c else remaining) := ⟨_, rfl⟩
      simp only [← hto] at h ⊢
      cases hd : (rd addr to_read).data with
      | none =>
        simp only [hd, Option.some.injEq, Prod.mk.injEq] at h
        have hsuf : (rd addr to_read).txns = suf := List.append_cancel_left h.2.2
        have hrd := H addr to_read (by rw [hsuf]; exact hq)
        simp only [hrd, hd, h.1, h.2.1, hsuf]
      | some bytes =>
        simp only [hd] at h
        obtain ⟨suf', hs⟩ := streamLoop_extends rd c n _ _ _ _ _ _ _ _ _ h
        have hsuf : suf = (rd addr to_read).txns ++ suf' := by
          rw [List.append_assoc] at hs
          exact List.append_cancel_left hs
        have hrd := H addr to_read (by
          intro t ht
          exact hq t (by rw [hsuf]; exact List.mem_append_left _ ht))
        simp only [hrd, hd]
        rw [hsuf, ← List.append_assoc] at h ⊢
        exact ih _ _ _ _ _ _ _ _ h (by
          intro t ht
          exact hq t (by rw [hsuf]; exact List.mem_append_right _ ht))
    · rw [if_neg hcond] at h ⊢
      exact h

theorem streamFrame_congr_clear (rd rd' : Nat → Nat → ReadResult) (c n : Nat)
    (anim anim' : AnimationEntry) (frame_idx : Int) (out : List Nat) (Q : Txn → Prop)
    (hoff : anim'.offset = anim.offset)
    (Htx : (rd' anim.offset 18).txns = (rd anim.offset 18).txns)
    (Hdata : (rd' anim.offset 18).data.map (fun h => h.take 10) =
      (rd anim.offset 18).data.map (fun h => h.take 10))
    (H : ∀ a l, (∀ t ∈ (rd a l).txns, Q t) → rd' a l = rd a l)
    (b : Bool) (fr : List Nat) (suf : List Txn)
    (h : streamFrame rd c n anim frame_idx out = some (b, fr, (rd anim.offset 18).txns ++ suf))
    (hq : ∀ t ∈ suf, Q t) :
    streamFrame rd' c n anim' frame_idx out =
      some (b, fr, (rd anim.offset 18).txns ++ suf) := by
  simp only [streamFrame, hoff] at h ⊢
  cases hh : (rd anim.offset 18).data with
  | none =>
    rw [hh] at Hdata h
    have hn : (rd' anim.offset 18).data = none := by
      cases hd : (rd' anim.offset 18).data with
      | none => rfl
      | some x => rw [hd] at Hdata; simp at Hdata
    simp only [hn, Htx]
    exact h
  | some hdr =>
    rw [hh] at Hdata
    simp only [hh] at h
    obtain ⟨hdr', hd', et⟩ : ∃ hdr', (rd' anim.offset 18).data = some hdr' ∧
        hdr'.take 10 = hdr.take 10 := by
      cases hd : (rd' anim.offset 18).data with
      | none => rw [hd] at Hdata; simp at Hdata
      | some x =>
        rw [hd] at Hdata
        simp only [Option.map_some', Option.some.injEq] at Hdata
        exact ⟨x, rfl, Hdata⟩
    obtain ⟨f1, f2, f3⟩ := header_fields_of_take et
    simp only [hd', f1, f2, f3, Htx]
    by_cases hm : hdr.take 4 = MAGIC_ANIM
    · simp only [hm, ne_eq, not_true_eq_false, if_false] at h ⊢
      by_cases hc : le16 hdr 4 = 0 ∨ frame_idx < 0 ∨ frame_idx ≥ (le16 hdr 4 : Int)
      · simp only [hc, if_true] at h ⊢
        exact h
      · simp only [hc, if_false] at h ⊢
        cases ht : (rd ((anim.offset + le32 hdr 6 + frame_idx.toNat * 8) % U32) 8).data with
        | none =>
          simp only [ht, Option.some.injEq, Prod.mk.injEq] at h
          have hsuf : (rd ((anim.offset + le32 hdr 6 + frame_idx.toNat * 8) % U32) 8).txns =
              suf := List.append_cancel_left h.2.2
          have hrd := H ((anim.offset + le32 hdr 6 + frame_idx.toNat * 8) % U32) 8
            (by rw [hsuf]; exact hq)
          simp only [hrd, ht, h.1, h.2.1, hsuf]
        | some te =>
          simp only [ht] at h
          cases hsl : streamLoop rd c n (le32 te 4)
              (((anim.offset + le32 hdr 6 + le16 hdr 4 * 8) % U32 + le32 te 0) % U32)
              (le32 te 4) [] [] ((rd anim.offset 18).txns ++
                (rd ((anim.offset + le32 hdr 6 + frame_idx.toNat * 8) % U32) 8).txns) with
          | none =>
            rw [hsl] at h
            cases h
          | some t =>
            obtain ⟨b0, px0, log0⟩ := t
            simp only [hsl, Option.some.injEq, Prod.mk.injEq] at h
            obtain ⟨hb0, hfr, hlog⟩ := h
            obtain ⟨suf', hs⟩ := streamLoop_extends rd c n _ _ _ _ _ _ _ _ _ hsl
            have hsuf : suf =
                (rd ((anim.offset + le32 hdr 6 + frame_idx.toNat * 8) % U32) 8).txns ++
                  suf' := by
              rw [hlog, List.append_assoc] at hs
              exact List.append_cancel_left hs
            have hrd := H ((anim.offset + le32 hdr 6 + frame_idx.toNat * 8) % U32) 8 (by
              intro t ht'
              exact hq t (by rw [hsuf]; exact List.mem_append_left _ ht'))
            rw [hs] at hsl
            have hsl' := streamLoop_congr_clear rd rd' c n Q H _ _ _ _ _ _ _ _ _ hsl (by
              intro t ht'
              exact hq t (by rw [hsuf]; exact List.mem_append_right _ ht'))
            simp only [hrd, ht, hsl', hb0, hfr]
            rw [← hs, hlog]
    · simp only [hm, ne_eq, not_false_eq_true, if_true] at h ⊢
      exact h

theorem streamFrame_log (rd : Nat → Nat → ReadResult) (c n : Nat) (anim : AnimationEntry)
    (frame_idx : Int) (out : List Nat) (b : Bool) (fr : List Nat) (log : List Txn)
    (h : streamFrame rd c n anim frame_idx out = some (b, fr, log)) :
    ∃ suf, log = (rd anim.offset 18).txns ++ suf ∧
      ((rd anim.offset 18).data = none → suf = []) := by
  simp only [streamFrame] at h
  cases hh : (rd anim.offset 18).data with
  | none =>
    simp only [hh, Option.some.injEq, Prod.mk.injEq] at h
    exact ⟨[], by rw [← h.2.2]; simp, fun _ => rfl⟩
  | some hdr =>
    simp only [hh] at h
    by_cases hm : hdr.take 4 = MAGIC_ANIM
    · simp only [hm, ne_eq, not_true_eq_false, if_false] at h
      by_cases hc : le16 hdr 4 = 0 ∨ frame_idx < 0 ∨ frame_idx ≥ (le16 hdr 4 : Int)
      · simp only [hc, if_true, Option.some.injEq, Prod.mk.injEq] at h
        exact ⟨[], by rw [← h.2.2]; simp, by simp⟩
      · simp only [hc, if_false] at h
        cases ht : (rd ((anim.offset + le32 hdr 6 + frame_idx.toNat * 8) % U32) 8).data with
        | none =>
          simp only [ht, Option.some.injEq, Prod.mk.injEq] at h
          exact ⟨_, h.2.2.symm, by simp⟩
        | some te =>
          simp only [ht] at h
          cases hsl : streamLoop rd c n (le32 te 4)
              (((anim.offset + le32 hdr 6 + le16 hdr 4 * 8) % U32 + le32 te 0) % U32)
              (le32 te 4) [] [] ((rd anim.offset 18).txns ++
                (rd ((anim.offset + le32 hdr 6 + frame_idx.toNat * 8) % U32) 8).txns) with
          | none =>
            rw [hsl] at h
            cases h
          | some t =>
            obtain ⟨b0, px0, log0⟩ := t
            simp only [hsl, Option.some.injEq, Prod.mk.injEq] at h
            obtain ⟨suf', hs⟩ := streamLoop_extends rd c n _ _ _ _ _ _ _ _ _ hsl
            exact ⟨_, by rw [← h.2.2, hs, List.append_assoc], by simp⟩
    · simp only [hm, ne_eq, not_false_eq_true, if_true, Option.some.injEq, Prod.mk.injEq] at h
      exact ⟨[], by rw [← h.2.2]; simp, by simp⟩

/-- C25 (counterexample).  The sub-containers `aliasAnim` and `aliasAnimOther`
differ in byte 14 of the header alone (a byte of the `audio_data_size` field),
and their frame table offset 10 puts the frame table entry on header bytes
10..17: frame 0 of the first decodes to two green pixels, frame 0 of the second
to a black frame. -/
theorem informational_bytes_can_alias_table :
    (decodeRLEFrameStreamed (imageReader aliasAnim 21 0 []) toyEntry 0 []).map
      (fun res => (res.ok, res.out_frame)) =
        some (true, frameOf MAX_FRAME_PIXELS [0x07E0, 0x07E0]) ∧
    (decodeRLEFrameStreamed (imageReader aliasAnimOther 21 0 []) toyEntry 0 []).map
      (fun res => (res.ok, res.out_frame)) = some (true, frameOf MAX_FRAME_PIXELS []) ∧
    (frameOf MAX_FRAME_PIXELS [0x07E0, 0x07E0])[0]? = some 0x07E0 ∧
    (frameOf MAX_FRAME_PIXELS [])[0]? = some 0 := by
  have hA := decodeFrame_streamFrame READ_CHUNK MAX_FRAME_PIXELS
    (imageReader aliasAnim 21 0 []) toyEntry 0 [] (List.length_replicate _ _)
  rw [streamFrame_stream (read (imageReader aliasAnim 21 0 [])) READ_CHUNK MAX_FRAME_PIXELS
    toyEntry 0 [] ((imagePartition aliasAnim 21).bytes 0 18)
    ((imagePartition aliasAnim 21).bytes 10 8) true [0x07E0, 0x07E0]
    [Txn.read 0 18, Txn.read 10 8, Txn.read 18 3]
    (by decide) (by decide) (by decide) (by decide)
    (by set_option maxRecDepth 100000 in decide)] at hA
  have hB := decodeFrame_streamFrame READ_CHUNK MAX_FRAME_PIXELS
    (imageReader aliasAnimOther 21 0 []) toyEntry 0 [] (List.length_replicate _ _)
  rw [streamFrame_stream (read (imageReader aliasAnimOther 21 0 [])) READ_CHUNK
    MAX_FRAME_PIXELS toyEntry 0 [] ((imagePartition aliasAnimOther 21).bytes 0 18)
    ((imagePartition aliasAnimOther 21).bytes 10 8) true []
    [Txn.read 0 18, Txn.read 10 8]
    (by decide) (by decide) (by decide) (by decide)
    (by set_option maxRecDepth 100000 in decide)] at hB
  obtain ⟨resA, hresA, hvA⟩ := Option.map_eq_some'.mp hA
  obtain ⟨resB, hresB, hvB⟩ := Option.map_eq_some'.mp hB
  simp only [Prod.mk.injEq] at hvA hvB
  refine ⟨?_, ?_, frameOf_head MAX_FRAME_PIXELS _ _ (by decide),
    frameOf_nil_head MAX_FRAME_PIXELS (by decide)⟩
  · rw [decodeRLEFrameStreamed, hresA, Option.map_some', hvA.1, hvA.2.1]
  · rw [decodeRLEFrameStreamed, hresB, Option.map_some', hvB.1, hvB.2.1]

/-- C25 (amended).  Two stores of the same size and fault behaviour that agree
on every byte outside bytes 10..17 of the sub-container header, read at the same
base offset, and two entries with the same offset (their names and `length`
fields may differ): if none of the reads `decodeRLEFrameStreamed` makes after
the header read (frame table entry, stream chunks) touches those 8 bytes, the
call on the second store returns the same boolean, leaves the same output buffer
and makes the same reads, for every frame index and every buffer passed in. -/
theorem informational_fields_ignored (r r' : Reader) (p p' : Partition)
    (anim anim' : AnimationEntry) (frame_idx : Int) (out : List Nat) (res : DecodeResult)
    (hp : r.partition_ = some p) (hp' : r'.partition_ = some p')
    (hb : r'.base_offset_ = r.base_offset_) (hsz : p'.size = p.size)
    (hok : p'.readOk = p.readOk) (hoff : anim'.offset = anim.offset)
    (hmem : ∀ a, a < (r.base_offset_ + anim.offset) % U32 + 10 ∨
      (r.base_offset_ + anim.offset) % U32 + 18 ≤ a → p'.mem a = p.mem a)
    (hl : r.rle_chunk_.length = READ_CHUNK + 3) (hl' : r'.rle_chunk_.length = READ_CHUNK + 3)
    (h : decodeRLEFrameStreamed r anim frame_idx out = some res)
    (hclear : ∀ t ∈ res.txns.drop 1,
      t.clearOf ((r.base_offset_ + anim.offset) % U32 + 10)
        ((r.base_offset_ + anim.offset) % U32 + 18) = true) :
    ∃ res', decodeRLEFrameStreamed r' anim' frame_idx out = some res' ∧
      res'.ok = res.ok ∧ res'.out_frame = res.out_frame ∧ res'.txns = res.txns := by
  have hs := decodeFrame_streamFrame READ_CHUNK MAX_FRAME_PIXELS r anim frame_idx out hl
  rw [decodeRLEFrameStreamed] at h
  rw [h, Option.map_some'] at hs
  obtain ⟨suf, hlog, hnone⟩ := streamFrame_log _ _ _ _ _ _ _ _ _ hs.symm
  have hq : ∀ t ∈ suf, t.clearOf ((r.base_offset_ + anim.offset) % U32 + 10)
      ((r.base_offset_ + anim.offset) % U32 + 18) = true := by
    cases hd : (read r anim.offset 18).data with
    | none =>
      rw [hnone hd]
      intro t ht
      cases ht
    | some hdr =>
      obtain ⟨_, _, _, _, htx⟩ := read_some hd
      rw [hlog, htx] at hclear
      exact hclear
  obtain ⟨h1, h2⟩ := @read_header_agree r r' p p'
    ((r.base_offset_ + anim.offset) % U32 + 10) hp hp' hb hsz hok anim.offset rfl
    (fun a ha => hmem a (Or.inl ha))
  rw [hlog] at hs
  have hs' := streamFrame_congr_clear (read r) (read r') READ_CHUNK MAX_FRAME_PIXELS anim anim'
    frame_idx out
    (fun t => t.clearOf ((r.base_offset_ + anim.offset) % U32 + 10)
      ((r.base_offset_ + anim.offset) % U32 + 18) = true)
    hoff h1 h2
    (fun a l hc => read_agree_clear hp hp' hb hsz hok hmem a l hc)
    res.ok res.out_frame suf hs.symm hq
  have hd' := decodeFrame_streamFrame READ_CHUNK MAX_FRAME_PIXELS r' anim' frame_idx out hl'
  rw [hs'] at hd'
  obtain ⟨res', hres', hv⟩ := Option.map_eq_some'.mp hd'
  simp only [Prod.mk.injEq] at hv
  exact ⟨res', hres', hv.1, hv.2.1, by rw [hv.2.2, hlog]⟩

/-- Witness for C25 (amended): `toyAnim` and `toyAnimOtherSizes`, under entries
with different `length` fields, decode to the same frame. -/
theorem informational_fields_ignored_witness :
    ∃ res res', decodeRLEFrameStreamed (imageReader toyAnim 32 0 []) toyEntry 0 [] = some res ∧
      decodeRLEFrameStreamed (imageReader toyAnimOtherSizes 32 0 []) ⟨nameA, 0, 999⟩ 0 [] =
        some res' ∧
      res'.ok = res.ok ∧ res'.out_frame = res.out_frame ∧ res'.txns = res.txns := by
  have hA := decodeFrame_streamFrame READ_CHUNK MAX_FRAME_PIXELS
    (imageReader toyAnim 32 0 []) toyEntry 0 [] (List.length_replicate _ _)
  rw [streamFrame_stream (read (imageReader toyAnim 32 0 [])) READ_CHUNK MAX_FRAME_PIXELS
    toyEntry 0 [] ((imagePartition toyAnim 32).bytes 0 18)
    ((imagePartition toyAnim 32).bytes 18 8) true [0x07E0, 0x07E0, 0, 0]
    [Txn.read 0 18, Txn.read 18 8, Txn.read 26 6]
    (by decide) (by decide) (by decide) (by decide)
    (by set_option maxRecDepth 100000 in decide)] at hA
  obtain ⟨res, hres, hv⟩ := Option.map_eq_some'.mp hA
  simp only [Prod.mk.injEq] at hv
  have hmem : ∀ a, a < ((imageReader toyAnim 32 0 []).base_offset_ + toyEntry.offset) % U32 + 10 ∨
      ((imageReader toyAnim 32 0 []).base_offset_ + toyEntry.offset) % U32 + 18 ≤ a →
      (imagePartition toyAnimOtherSizes 32).mem a = (imagePartition toyAnim 32).mem a := by
    intro a ha
    have e0 : ((imageReader toyAnim 32 0 []).base_offset_ + toyEntry.offset) % U32 = 0 := by
      decide
    rw [e0] at ha
    by_cases h32 : a < 32
    · interval_cases a <;> first | rfl | omega
    · show toyAnimOtherSizes.getD a 0xFF = toyAnim.getD a 0xFF
      rw [List.getD_eq_default _ _ (by show 32 ≤ a; omega),
        List.getD_eq_default _ _ (by show 32 ≤ a; omega)]
  obtain ⟨res', h1, h2, h3, h4⟩ := informational_fields_ignored (imageReader toyAnim 32 0 [])
    (imageReader toyAnimOtherSizes 32 0 []) (imagePartition toyAnim 32)
    (imagePartition toyAnimOtherSizes 32) toyEntry ⟨nameA, 0, 999⟩ 0 [] res rfl rfl rfl rfl rfl
    rfl hmem (List.length_replicate _ _) (List.length_replicate _ _) hres
    (by
      rw [hv.2.2]
      decide)
  exact ⟨res, res', hres, h1, h2, h3, h4⟩

/-! ## The reads of the stream, one by one -/

theorem chunkLens_succ_of_gt {c size : Nat} (h : size > c) (k : Nat) :
    chunkLens c size (k + 1) = c :: chunkLens c (size - c) k := by
  simp only [chunkLens, List.range_succ_eq_map, List.map_cons, List.map_map, Nat.mul_zero,
    Nat.sub_zero]
  rw [Nat.min_eq_left (Nat.le_of_lt h)]
  congr 1
  apply List.map_congr_left
  intro j _
  simp only [Function.comp, Nat.succ_eq_add_one, Nat.mul_succ]
  congr 1
  omega

theorem chunkLens_one_of_le {c size : Nat} (h : size ≤ c) : chunkLens c size 1 = [size] := by
  simp only [chunkLens, List.range_succ_eq_map, List.range_zero, List.map_nil, List.map_cons,
    Nat.mul_zero, Nat.sub_zero, Nat.min_eq_right h]

theorem chunkLens_sum (c size : Nat) : ∀ k, (chunkLens c size k).sum = min (c * k) size := by
  intro k
  induction k with
  | zero => simp [chunkLens]
  | succ k ih =>
    have e : chunkLens c size (k + 1) = chunkLens c size k ++ [min c (size - c * k)] := by
      simp [chunkLens, List.range_succ]
    rw [e, List.sum_append, ih, Nat.mul_succ]
    simp only [List.sum_cons, List.sum_nil, Nat.add_zero]
    omega

theorem chunkLens_mem {c size k l : Nat} (h : l ∈ chunkLens c size k) : l ≤ c := by
  simp only [chunkLens, List.mem_map, List.mem_range] at h
  obtain ⟨j, _, rfl⟩ := h
  exact Nat.min_le_left _ _

theorem read_txns_of_some {r : Reader} {p : Partition} (hp : r.partition_ = some p)
    {rel len : Nat} {data : List Byte} (h : (read r rel len).data = some data) :
    data = p.bytes ((r.base_offset_ + rel) % U32) len ∧
    (read r rel len).txns = [Txn.read ((r.base_offset_ + rel) % U32) len] := by
  obtain ⟨p1, hp1, e1, _, e2⟩ := read_some h
  rw [hp] at hp1
  cases hp1
  exact ⟨e1, e2⟩

theorem streamLoop_account (r : Reader) (p : Partition) (hp : r.partition_ = some p)
    (c n : Nat) :
    ∀ (fuel addr rem : Nat) (carry : List Byte) (px : List Nat) (log : List Txn) (b : Bool)
      (px' : List Nat) (log' : List Txn),
      streamLoop (read r) c n fuel addr rem carry px log = some (b, px', log') →
      carry.length ≤ 2 →
      ∃ k,
        px' = px ++ expand (carry ++ streamData p r.base_offset_ addr (chunkLens c rem k)) ∧
        (∀ j, j < k → c * j < rem ∧
          (px ++ expand (carry ++
            streamData p r.base_offset_ addr (chunkLens c rem j))).length < n ∧
          (read r ((addr + c * j) % U32) (min c (rem - c * j))).data =
            some (p.bytes ((r.base_offset_ + (addr + c * j) % U32) % U32)
              (min c (rem - c * j)))) ∧
        (b = true →
          log' = log ++ readsFrom r.base_offset_ addr (chunkLens c rem k) ∧
          (rem ≤ c * k ∨ n ≤ px'.length)) ∧
        (b = false →
          c * k < rem ∧ px'.length < n ∧
          (read r ((addr + c * k) % U32) (min c (rem - c * k))).data = none ∧
          log' = log ++ readsFrom r.base_offset_ addr (chunkLens c rem k) ++
            (read r ((addr + c * k) % U32) (min c (rem - c * k))).txns) := by
  have hU : U32 = 4294967296 := by decide
  have hread_mod : ∀ a l, read r (a % U32) l = read r a l := by
    intro a l
    have e : (r.base_offset_ + a % U32 + l) % U32 = (r.base_offset_ + a + l) % U32 := by
      rw [hU]
      omega
    simp only [read, Nat.add_mod_mod, e]
  have hstop : ∀ (carry : List Byte) (px : List Nat) (addr rem : Nat), carry.length ≤ 2 →
      px ++ expand (carry ++ streamData p r.base_offset_ addr (chunkLens c rem 0)) = px := by
    intro carry px addr rem hc
    simp [chunkLens, streamData, expand_short hc]
  intro fuel
  induction fuel with
  | zero =>
    intro addr rem carry px log b px' log' h hcl
    rw [streamLoop] at h
    by_cases hcond : rem > 0 ∧ px.length < n
    · rw [if_pos hcond] at h
      cases h
    · rw [if_neg hcond] at h
      simp only [Option.some.injEq, Prod.mk.injEq] at h
      obtain ⟨hb, hpx, hlog⟩ := h
      subst hb hpx hlog
      refine ⟨0, (hstop carry px addr rem hcl).symm, fun j hj => absurd hj (Nat.not_lt_zero _),
        fun _ => ⟨by simp [chunkLens, readsFrom], by omega⟩, fun hf => by cases hf⟩
  | succ fuel ih =>
    intro addr rem carry px log b px' log' h hcl
    rw [streamLoop] at h
    by_cases hcond : rem > 0 ∧ px.length < n
    · rw [if_pos hcond] at h
      obtain ⟨to_read, hto⟩ : ∃ t, t = (if rem > c then c else rem) := ⟨_, rfl⟩
      have hmin : to_read = min c (rem - c * 0) := by
        rw [hto, Nat.mul_zero, Nat.sub_zero]
        split_ifs <;> omega
      simp only [← hto] at h
      cases hd : (read r addr to_read).data with
      | none =>
        simp only [hd, Option.some.injEq, Prod.mk.injEq] at h
        obtain ⟨hb, hpx, hlog⟩ := h
        subst hb hpx hlog
        have ha : read r ((addr + c * 0) % U32) (min c (rem - c * 0)) = read r addr to_read := by
          rw [← hmin, Nat.mul_zero, Nat.add_zero, hread_mod]
        refine ⟨0, (hstop carry px addr rem hcl).symm,
          fun j hj => absurd hj (Nat.not_lt_zero _), (fun hf => by cases hf), fun _ => ?_⟩
        rw [ha]
        exact ⟨by omega, hcond.2, hd, by simp [chunkLens, readsFrom]⟩
      | some bytes =>
        simp only [hd] at h
        obtain ⟨hbytes, htx⟩ := read_txns_of_some hp hd
        have hblen : bytes.length = to_read := read_some_length hd
        obtain ⟨buf, hbuf⟩ : ∃ q, q = carry ++ bytes := ⟨_, rfl⟩
        obtain ⟨pl, hpl⟩ : ∃ q, q = buf.length - buf.length % 3 := ⟨_, rfl⟩
        simp only [← hbuf, ← hpl] at h
        have hpl3 : (buf.take pl).length = 3 * (pl / 3) := by
          rw [List.length_take]
          omega
        have hdl : (buf.drop pl).length ≤ 2 := by
          rw [List.length_drop]
          omega
        obtain ⟨k', e1, e2, e3, e4⟩ := ih _ _ _ _ _ _ _ _ h hdl
        -- one more read in front of the `k'` reads of the rest of the loop
        have hlens : ∀ j, (rem > c ∨ j = 0) →
            chunkLens c rem (j + 1) = to_read :: chunkLens c (rem - to_read) j := by
          intro j hj
          by_cases hrc : rem > c
          · have : to_read = c := by rw [hto, if_pos hrc]
            rw [this]
            exact chunkLens_succ_of_gt hrc j
          · have : to_read = rem := by rw [hto, if_neg hrc]
            rcases hj with hj | hj
            · exact absurd hj hrc
            · subst hj
              rw [this, chunkLens_one_of_le (by omega)]
              simp [chunkLens]
        have hkey : ∀ j, (rem > c ∨ j = 0) →
            px ++ expand (carry ++ streamData p r.base_offset_ addr (chunkLens c rem (j + 1))) =
              (px ++ expand (buf.take pl)) ++ expand (buf.drop pl ++
                streamData p r.base_offset_ ((addr + to_read) % U32)
                  (chunkLens c (rem - to_read) j)) := by
          intro j hj
          rw [hlens j hj, streamData, ← hbytes, ← List.append_assoc carry, ← hbuf,
            List.append_assoc px, ← expand_append (pl / 3) _ _ hpl3, ← List.append_assoc,
            List.take_append_drop]
        have hk' : rem > c ∨ k' = 0 := by
          by_cases hrc : rem > c
          · exact Or.inl hrc
          · right
            have : to_read = rem := by rw [hto, if_neg hrc]
            by_contra hne
            have := (e2 0 (by omega)).1
            omega
        have htr : rem > c → to_read = c := fun hrc => by rw [hto, if_pos hrc]
        have hle : to_read ≤ rem := by rw [hto]; split_ifs <;> omega
        refine ⟨k' + 1, ?_, ?_, ?_, ?_⟩
        · rw [e1, hkey k' hk']
        · intro j hj
          cases j with
          | zero =>
            rw [hstop carry px addr rem hcl]
            refine ⟨by omega, hcond.2, ?_⟩
            have ha : read r ((addr + c * 0) % U32) (min c (rem - c * 0)) =
                read r addr to_read := by
              rw [← hmin, Nat.mul_zero, Nat.add_zero, hread_mod]
            rw [ha, hd, hbytes, ← hmin, Nat.mul_zero, Nat.add_zero, Nat.add_mod_mod]
          | succ j =>
            have hj' : j < k' := by omega
            have hrc : rem > c := by
              rcases hk' with h1 | h1
              · exact h1
              · omega
            obtain ⟨f1, f2, f3⟩ := e2 j hj'
            rw [hkey j (Or.inl hrc)]
            have htc := htr hrc
            have haddr : ((addr + to_read) % U32 + c * j) % U32 = (addr + c * (j + 1)) % U32 := by
              rw [htc, Nat.mul_succ, hU]
              omega
            have hlen : min c (rem - to_read - c * j) = min c (rem - c * (j + 1)) := by
              rw [htc, Nat.mul_succ]
              congr 1
              omega
            rw [haddr, hlen] at f3
            refine ⟨?_, f2, f3⟩
            rw [htc] at f1
            rw [Nat.mul_succ]
            omega
        · intro hb
          obtain ⟨g1, g2⟩ := e3 hb
          refine ⟨?_, ?_⟩
          · rw [g1, hlens k' hk', readsFrom, htx, List.append_assoc]
            rfl
          · rcases g2 with g2 | g2
            · left
              rw [Nat.mul_succ]
              rcases hk' with h1 | h1
              · rw [htr h1] at g2
                omega
              · subst h1
                by_cases hrc : rem > c
                · rw [htr hrc] at g2
                  omega
                · omega
            · exact Or.inr g2
        · intro hb
          obtain ⟨g1, g2, g3, g4⟩ := e4 hb
          have hrc : rem > c := by
            by_contra hrc
            have : to_read = rem := by rw [hto, if_neg hrc]
            omega
          have htc := htr hrc
          have haddr : ((addr + to_read) % U32 + c * k') % U32 = (addr + c * (k' + 1)) % U32 := by
            rw [htc, Nat.mul_succ, hU]
            omega
          have hlen : min c (rem - to_read - c * k') = min c (rem - c * (k' + 1)) := by
            rw [htc, Nat.mul_succ]
            congr 1
            omega
          rw [haddr, hlen] at g3 g4
          refine ⟨?_, g2, g3, ?_⟩
          · rw [htc] at g1
            rw [Nat.mul_succ]
            omega
          · rw [g4, hlens k' hk', readsFrom, htx]
            simp only [List.append_assoc, List.singleton_append, List.cons_append, List.nil_append]
    · rw [if_neg hcond] at h
      simp only [Option.some.injEq, Prod.mk.injEq] at h
      obtain ⟨hb, hpx, hlog⟩ := h
      subst hb hpx hlog
      refine ⟨0, (hstop carry px addr rem hcl).symm, fun j hj => absurd hj (Nat.not_lt_zero _),
        fun _ => ⟨by simp [chunkLens, readsFrom], by omega⟩, fun hf => by cases hf⟩


theorem streamFrame_cases {rd : Nat → Nat → ReadResult} {c n : Nat} {anim : AnimationEntry}
    {frame_idx : Int} {out fr : List Nat} {b : Bool} {log : List Txn}
    (h : streamFrame rd c n anim frame_idx out = some (b, fr, log)) :
    (b = false ∧ fr = out ∧
      ∀ hdr, (rd anim.offset 18).data = some hdr →
        hdr.take 4 ≠ MAGIC_ANIM ∨
        (le16 hdr 4 = 0 ∨ frame_idx < 0 ∨ frame_idx ≥ (le16 hdr 4 : Int)) ∨
        (rd ((anim.offset + le32 hdr 6 + frame_idx.toNat * 8) % U32) 8).data = none) ∨
    ∃ hdr te px, (rd anim.offset 18).data = some hdr ∧ hdr.take 4 = MAGIC_ANIM ∧
      ¬ (le16 hdr 4 = 0 ∨ frame_idx < 0 ∨ frame_idx ≥ (le16 hdr 4 : Int)) ∧
      (rd ((anim.offset + le32 hdr 6 + frame_idx.toNat * 8) % U32) 8).data = some te ∧
      streamLoop rd c n (le32 te 4)
        (((anim.offset + le32 hdr 6 + le16 hdr 4 * 8) % U32 + le32 te 0) % U32) (le32 te 4)
        [] [] ((rd anim.offset 18).txns ++
          (rd ((anim.offset + le32 hdr 6 + frame_idx.toNat * 8) % U32) 8).txns) =
        some (b, px, log) ∧
      fr = frameOf n px := by
  simp only [streamFrame] at h
  cases hh : (rd anim.offset 18).data with
  | none =>
    simp only [hh, Option.some.injEq, Prod.mk.injEq] at h
    exact Or.inl ⟨h.1.symm, h.2.1.symm, fun hdr hd => by cases hd⟩
  | some hdr =>
    simp only [hh] at h
    by_cases hm : hdr.take 4 = MAGIC_ANIM
    · simp only [hm, ne_eq, not_true_eq_false, if_false] at h
      by_cases hc : le16 hdr 4 = 0 ∨ frame_idx < 0 ∨ frame_idx ≥ (le16 hdr 4 : Int)
      · simp only [hc, if_true, Option.some.injEq, Prod.mk.injEq] at h
        refine Or.inl ⟨h.1.symm, h.2.1.symm, fun hdr' hd => ?_⟩
        cases hd
        exact Or.inr (Or.inl hc)
      · simp only [hc, if_false] at h
        cases ht : (rd ((anim.offset + le32 hdr 6 + frame_idx.toNat * 8) % U32) 8).data with
        | none =>
          simp only [ht, Option.some.injEq, Prod.mk.injEq] at h
          refine Or.inl ⟨h.1.symm, h.2.1.symm, fun hdr' hd => ?_⟩
          cases hd
          exact Or.inr (Or.inr ht)
        | some te =>
          simp only [ht] at h
          right
          refine ⟨hdr, te, ?_⟩
          generalize streamLoop rd c n (le32 te 4) _ (le32 te 4) [] [] _ = sl at h ⊢
          cases sl with
          | none => cases h
          | some t =>
            obtain ⟨b0, px, lg⟩ := t
            simp only [Option.some.injEq, Prod.mk.injEq] at h
            obtain ⟨hb, hfr, hlg⟩ := h
            subst hb hlg
            exact ⟨px, rfl, hm, hc, ht, rfl, hfr.symm⟩
    · simp only [hm, ne_eq, not_false_eq_true, if_true, Option.some.injEq, Prod.mk.injEq] at h
      refine Or.inl ⟨h.1.symm, h.2.1.symm, fun hdr' hd => ?_⟩
      cases hd
      exact Or.inl hm

/-- C14.  A successful decode of frame `i` has made exactly these driver calls,
in this order: the 18-byte header read at `entry.offset`; the 8-byte frame table
entry read at `entry.offset + frame_table_offset + 8*i`; then `k` reads of
consecutive ranges of the stream starting at `frame_data_base +
frame_table_entry.offset` with `frame_data_base = entry.offset +
frame_table_offset + 8*frame_count`, read `j` asking for `min(256, size - 256*j)`
bytes (at least 1).  The number `k` is the first at which the stream is used up
(`size <= 256*k`) or the bytes read so far decode to 6144 pixels or more: before
every read `j < k` there were bytes left and fewer than 6144 pixels, and the read
was served with the store bytes of its range.  So no byte
beyond `size` bytes is read, and the frame returned is the decoding of the bytes
read.  All fields are little-endian, the sums are those of `uint32_t`, and every
address is relative to the reader's base offset. -/
theorem decode_reads_at_table_addresses (r : Reader) (anim : AnimationEntry) (frame_idx : Int)
    (out : List Nat) (res : DecodeResult) (hl : r.rle_chunk_.length = READ_CHUNK + 3)
    (h : decodeRLEFrameStreamed r anim frame_idx out = some res) (hok : res.ok = true) :
    ∃ (p : Partition) (hdr te : List Byte) (k : Nat),
      r.partition_ = some p ∧
      hdr = p.bytes ((r.base_offset_ + anim.offset) % U32) 18 ∧
      0 ≤ frame_idx ∧ frame_idx < (le16 hdr 4 : Int) ∧
      te = p.bytes ((r.base_offset_ +
        (anim.offset + le32 hdr 6 + frame_idx.toNat * 8) % U32) % U32) 8 ∧
      res.txns =
        Txn.read ((r.base_offset_ + anim.offset) % U32) 18 ::
        Txn.read ((r.base_offset_ +
          (anim.offset + le32 hdr 6 + frame_idx.toNat * 8) % U32) % U32) 8 ::
        readsFrom r.base_offset_
          (((anim.offset + le32 hdr 6 + le16 hdr 4 * 8) % U32 + le32 te 0) % U32)
          (chunkLens 256 (le32 te 4) k) ∧
      (∀ j, j < k → 256 * j < le32 te 4 ∧
        (expand (streamData p r.base_offset_
          (((anim.offset + le32 hdr 6 + le16 hdr 4 * 8) % U32 + le32 te 0) % U32)
          (chunkLens 256 (le32 te 4) j))).length < 6144 ∧
        (read r
          ((((anim.offset + le32 hdr 6 + le16 hdr 4 * 8) % U32 + le32 te 0) % U32 + 256 * j)
            % U32)
          (min 256 (le32 te 4 - 256 * j))).data =
          some (p.bytes ((r.base_offset_ +
            (((anim.offset + le32 hdr 6 + le16 hdr 4 * 8) % U32 + le32 te 0) % U32 + 256 * j)
              % U32) % U32) (min 256 (le32 te 4 - 256 * j)))) ∧
      (le32 te 4 ≤ 256 * k ∨
        6144 ≤ (expand (streamData p r.base_offset_
          (((anim.offset + le32 hdr 6 + le16 hdr 4 * 8) % U32 + le32 te 0) % U32)
          (chunkLens 256 (le32 te 4) k))).length) ∧
      (chunkLens 256 (le32 te 4) k).sum ≤ le32 te 4 ∧
      (∀ l ∈ chunkLens 256 (le32 te 4) k, 1 ≤ l ∧ l ≤ 256) ∧
      res.out_frame = frameOf 6144 (expand (streamData p r.base_offset_
        (((anim.offset + le32 hdr 6 + le16 hdr 4 * 8) % U32 + le32 te 0) % U32)
        (chunkLens 256 (le32 te 4) k))) := by
  have hs := decodeFrame_streamFrame READ_CHUNK MAX_FRAME_PIXELS r anim frame_idx out hl
  rw [decodeRLEFrameStreamed] at h
  rw [h, Option.map_some', hok] at hs
  rcases streamFrame_cases hs.symm with ⟨hb, _⟩ | ⟨hdr, te, px, hh, _, hc, ht, hsl, hfr⟩
  · cases hb
  · obtain ⟨p, hp, ehdr, _, htx⟩ := read_some hh
    obtain ⟨ete, htx2⟩ := read_txns_of_some hp ht
    obtain ⟨k, e1, e2, e3, _⟩ := streamLoop_account r p hp READ_CHUNK MAX_FRAME_PIXELS
      _ _ _ _ _ _ _ _ _ hsl (by simp)
    obtain ⟨g1, g2⟩ := e3 rfl
    simp only [List.nil_append] at e1 e2
    have hc256 : READ_CHUNK = 256 := rfl
    have hn : MAX_FRAME_PIXELS = 6144 := rfl
    rw [hc256] at e1 e2 g1 g2
    rw [hn] at e2 g2 hfr
    refine ⟨p, hdr, te, k, hp, ehdr, by omega, by omega, ete, ?_, e2, ?_, ?_, ?_, ?_⟩
    · rw [g1, htx, htx2]
      rfl
    · rw [e1] at g2
      exact g2
    · rw [chunkLens_sum]
      exact Nat.min_le_right _ _
    · intro l hlm
      refine ⟨?_, chunkLens_mem hlm⟩
      simp only [chunkLens, List.mem_map, List.mem_range] at hlm
      obtain ⟨j, hj, rfl⟩ := hlm
      have := (e2 j hj).1
      omega
    · rw [hfr, e1]

/-- Witness for C14: the one frame of `toyAnim` in a 32-byte store at base 0:
header read at 0, table entry read at 18, and one stream read, of 6 bytes at 26. -/
theorem decode_reads_at_table_addresses_witness :
    ∃ res, decodeRLEFrameStreamed (imageReader toyAnim 32 0 []) toyEntry 0 [] = some res ∧
      res.txns = [Txn.read 0 18, Txn.read 18 8, Txn.read 26 6] := by
  have hdec := decodeFrame_in_bounds READ_CHUNK MAX_FRAME_PIXELS (by decide)
    (imageReader toyAnim 32 0 []) (imagePartition toyAnim 32) toyEntry 0 []
    ((imagePartition toyAnim 32).bytes 0 18) ((imagePartition toyAnim 32).bytes 18 8)
    rfl (imagePartition_healthy _ _ (by decide)) (List.length_replicate _ _) rfl (by decide)
    (by decide) (by decide) rfl (by decide) (by decide)
  obtain ⟨res, hres, hpair⟩ := Option.map_eq_some'.mp hdec
  simp only [Prod.mk.injEq] at hpair
  obtain ⟨p, hdr, te, k, hp, ehdr, _, _, ete, htx, hcont, hstop, _, _, _⟩ :=
    decode_reads_at_table_addresses (imageReader toyAnim 32 0 []) toyEntry 0 [] res
      (List.length_replicate _ _) hres hpair.1
  cases hp
  have e0 : ((imageReader toyAnim 32 0 []).base_offset_ + toyEntry.offset) % U32 = 0 := by
    decide
  rw [e0] at ehdr htx
  subst ehdr
  have e1 : ((imageReader toyAnim 32 0 []).base_offset_ +
      (toyEntry.offset + le32 ((imagePartition toyAnim 32).bytes 0 18) 6 +
        (0 : Int).toNat * 8) % U32) % U32 = 18 := by decide
  rw [e1] at ete htx
  subst ete
  have e2 : ((toyEntry.offset + le32 ((imagePartition toyAnim 32).bytes 0 18) 6 +
      le16 ((imagePartition toyAnim 32).bytes 0 18) 4 * 8) % U32 +
        le32 ((imagePartition toyAnim 32).bytes 18 8) 0) % U32 = 26 := by decide
  have e3 : le32 ((imagePartition toyAnim 32).bytes 18 8) 4 = 6 := by decide
  rw [e2, e3] at htx hstop
  rw [e3] at hcont
  have hk : k = 1 := by
    have h2 : k < 2 := by
      by_contra hge
      have := (hcont 1 (by omega)).1
      omega
    have h1 : k ≠ 0 := by
      intro h0
      subst h0
      rcases hstop with h | h
      · omega
      · simp [chunkLens, streamData, expand] at h
    omega
  subst hk
  refine ⟨res, hres, ?_⟩
  rw [htx]
  decide


/-- C23 (amended).  When `decodeRLEFrameStreamed` returns false, the caller's
buffer is not zeroed; what it holds goes with the kind of failure.  If the header
cannot be read, or does not start with "ANIM", or the index is out of range, or
the frame table entry cannot be read, the buffer is exactly as it was passed in.
Otherwise the reads of the chunks `0 .. k-1` of the stream were served and the
read of chunk `k` failed (the log holds the header read, the table entry read,
those `k` reads and the failed call): then the buffer holds 6144 elements, the
pixels decoded from the bytes of those `k` chunks (fewer than 6144) followed by
zeros. -/
theorem failed_decode_buffer (r : Reader) (anim : AnimationEntry) (frame_idx : Int)
    (out : List Nat) (res : DecodeResult) (hl : r.rle_chunk_.length = READ_CHUNK + 3)
    (h : decodeRLEFrameStreamed r anim frame_idx out = some res) (hf : res.ok = false) :
    ((∀ hdr, (read r anim.offset 18).data = some hdr →
        hdr.take 4 ≠ MAGIC_ANIM ∨
        (le16 hdr 4 = 0 ∨ frame_idx < 0 ∨ frame_idx ≥ (le16 hdr 4 : Int)) ∨
        (read r ((anim.offset + le32 hdr 6 + frame_idx.toNat * 8) % U32) 8).data = none) →
      res.out_frame = out) ∧
    (∀ hdr te, (read r anim.offset 18).data = some hdr → hdr.take 4 = MAGIC_ANIM →
      ¬ (le16 hdr 4 = 0 ∨ frame_idx < 0 ∨ frame_idx ≥ (le16 hdr 4 : Int)) →
      (read r ((anim.offset + le32 hdr 6 + frame_idx.toNat * 8) % U32) 8).data = some te →
      ∃ (p : Partition) (k : Nat), r.partition_ = some p ∧
        256 * k < le32 te 4 ∧
        (∀ j, j < k →
          (read r
            ((((anim.offset + le32 hdr 6 + le16 hdr 4 * 8) % U32 + le32 te 0) % U32 + 256 * j)
              % U32)
            (min 256 (le32 te 4 - 256 * j))).data =
            some (p.bytes ((r.base_offset_ +
              (((anim.offset + le32 hdr 6 + le16 hdr 4 * 8) % U32 + le32 te 0) % U32 + 256 * j)
                % U32) % U32) (min 256 (le32 te 4 - 256 * j)))) ∧
        (read r
          ((((anim.offset + le32 hdr 6 + le16 hdr 4 * 8) % U32 + le32 te 0) % U32 + 256 * k)
            % U32)
          (min 256 (le32 te 4 - 256 * k))).data = none ∧
        res.txns =
          Txn.read ((r.base_offset_ + anim.offset) % U32) 18 ::
          Txn.read ((r.base_offset_ +
            (anim.offset + le32 hdr 6 + frame_idx.toNat * 8) % U32) % U32) 8 ::
          (readsFrom r.base_offset_
            (((anim.offset + le32 hdr 6 + le16 hdr 4 * 8) % U32 + le32 te 0) % U32)
            (chunkLens 256 (le32 te 4) k) ++
          (read r
            ((((anim.offset + le32 hdr 6 + le16 hdr 4 * 8) % U32 + le32 te 0) % U32 + 256 * k)
              % U32)
            (min 256 (le32 te 4 - 256 * k))).txns) ∧
        (expand (streamData p r.base_offset_
          (((anim.offset + le32 hdr 6 + le16 hdr 4 * 8) % U32 + le32 te 0) % U32)
          (chunkLens 256 (le32 te 4) k))).length < 6144 ∧
        res.out_frame = frameOf 6144 (expand (streamData p r.base_offset_
          (((anim.offset + le32 hdr 6 + le16 hdr 4 * 8) % U32 + le32 te 0) % U32)
          (chunkLens 256 (le32 te 4) k))) ∧
        res.out_frame.length = 6144) := by
  have hs := decodeFrame_streamFrame READ_CHUNK MAX_FRAME_PIXELS r anim frame_idx out hl
  rw [decodeRLEFrameStreamed] at h
  rw [h, Option.map_some', hf] at hs
  rcases streamFrame_cases hs.symm with ⟨_, hout, hkind⟩ | ⟨hdr, te, px, hh, hm, hc, ht, hsl, hfr⟩
  · refine ⟨fun _ => hout, ?_⟩
    intro hdr te hh hm hc ht
    rcases hkind hdr hh with h1 | h1 | h1
    · exact absurd hm h1
    · exact absurd h1 hc
    · rw [ht] at h1
      cases h1
  · constructor
    · intro hkind
      rcases hkind hdr hh with h1 | h1 | h1
      · exact absurd hm h1
      · exact absurd h1 hc
      · rw [ht] at h1
        cases h1
    · intro hdr' te' hh' _ _ ht'
      rw [hh] at hh'
      cases hh'
      rw [ht] at ht'
      cases ht'
      obtain ⟨p, hp, _, _, htx⟩ := read_some hh
      obtain ⟨_, htx2⟩ := read_txns_of_some hp ht
      obtain ⟨k, e1, e2, _, e4⟩ := streamLoop_account r p hp READ_CHUNK MAX_FRAME_PIXELS
        _ _ _ _ _ _ _ _ _ hsl (by simp)
      obtain ⟨g1, g2, g3, g4⟩ := e4 rfl
      simp only [List.nil_append] at e1
      have hc256 : READ_CHUNK = 256 := rfl
      have hn : MAX_FRAME_PIXELS = 6144 := rfl
      rw [hc256] at e1 e2 g1 g3 g4
      rw [hn] at g2 hfr
      rw [e1] at g2
      refine ⟨p, k, hp, g1, fun j hj => (e2 j hj).2.2, g3, ?_, g2, by rw [hfr, e1],
        by rw [hfr]; exact frameOf_length _ _⟩
      rw [g4, htx, htx2]
      simp only [List.append_assoc, List.singleton_append, List.cons_append, List.nil_append]

/-- Witness for C23 (amended): in the failed decode of `cutStreamAnim` the read
of chunk 1 fails, and the buffer holds the two green pixels of chunk 0. -/
theorem failed_decode_buffer_witness :
    ∃ res, decodeRLEFrameStreamed (imageReader cutStreamAnim 282 0 []) toyEntry 0 [7] =
        some res ∧ res.ok = false ∧
      res.out_frame = frameOf 6144 [0x07E0, 0x07E0] := by
  have hs := decodeFrame_streamFrame READ_CHUNK MAX_FRAME_PIXELS
    (imageReader cutStreamAnim 282 0 []) toyEntry 0 [7] (List.length_replicate _ _)
  rw [cutStream_stream] at hs
  obtain ⟨res, hres, hv⟩ := Option.map_eq_some'.mp hs
  simp only [Prod.mk.injEq] at hv
  obtain ⟨p, k, hp, hk, _, hfail, _, _, hout, _⟩ :=
    (failed_decode_buffer (imageReader cutStreamAnim 282 0 []) toyEntry 0 [7] res
      (List.length_replicate _ _) hres hv.1).2
      ((imagePartition cutStreamAnim 282).bytes 0 18)
      ((imagePartition cutStreamAnim 282).bytes 18 8)
      (by decide) (by decide) (by decide) (by decide)
  cases hp
  have e2 : ((toyEntry.offset + le32 ((imagePartition cutStreamAnim 282).bytes 0 18) 6 +
      le16 ((imagePartition cutStreamAnim 282).bytes 0 18) 4 * 8) % U32 +
        le32 ((imagePartition cutStreamAnim 282).bytes 18 8) 0) % U32 = 26 := by decide
  have e3 : le32 ((imagePartition cutStreamAnim 282).bytes 18 8) 4 = 300 := by decide
  rw [e2, e3] at hfail hout
  rw [e3] at hk
  have hk1 : k = 1 := by
    have h2 : k < 2 := by omega
    have h1 : k ≠ 0 := by
      intro h0
      subst h0
      have hsome : (read (imageReader cutStreamAnim 282 0 []) ((26 + 256 * 0) % U32)
          (min 256 (300 - 256 * 0))).data ≠ none := by decide
      exact hsome hfail
    omega
  subst hk1
  refine ⟨res, hres, hv.1, ?_⟩
  rw [hout]
  have hpx : expand (streamData (imagePartition cutStreamAnim 282)
      (imageReader cutStreamAnim 282 0 []).base_offset_ 26 (chunkLens 256 300 1)) =
      [0x07E0, 0x07E0] := by
    set_option maxRecDepth 100000 in decide
  rw [hpx]


/-! ## Entry offsets are relative to the base offset -/

theorem read_txns {r : Reader} {p : Partition} (hp : r.partition_ = some p) (rel len : Nat) :
    ((r.base_offset_ + rel + len) % U32 > p.size →
      (read r rel len).data = none ∧ (read r rel len).txns = []) ∧
    ((r.base_offset_ + rel + len) % U32 ≤ p.size →
      (read r rel len).txns = [Txn.read ((r.base_offset_ + rel) % U32) len]) := by
  simp only [read, hp]
  constructor
  · intro h
    rw [if_pos h]
    exact ⟨rfl, rfl⟩
  · intro h
    rw [if_neg (by omega)]

theorem basedPack_loaded :
    (begin none (imageReader basedPack 94 16 [])).ok = true ∧
    (begin none (imageReader basedPack 94 16 [])).reader =
      imageReader basedPack 94 16 [packedEntry] := by
  refine ⟨by decide, ?_⟩
  have h := loadAnimationTable_reader (imageReader basedPack 94 16 [])
  have hcat : (loadAnimationTable (imageReader basedPack 94 16 [])).reader.animations_ =
      [packedEntry] := by decide
  rw [hcat] at h
  exact h

/-- C15 (counterexample).  The container of the store `basedPack` starts at
offset 16, and the reader is given base offset 16: `begin()` loads the entry "a"
with offset field 46.  For that entry `getFrameCount` answers 1 after one read
at store offset 62, and the decode of frame 0 succeeds with its header read at
store offset 62 (table entry at 80, stream at 88): nothing is read at store
offset 46, where the store holds no "ANIM" header. -/
theorem header_not_read_at_entry_offset :
    (begin none (imageReader basedPack 94 16 [])).ok = true ∧
    (begin none (imageReader basedPack 94 16 [])).reader =
      imageReader basedPack 94 16 [packedEntry] ∧
    findAnimation (imageReader basedPack 94 16 [packedEntry]) (some [0x61]) =
      some packedEntry ∧
    packedEntry.offset = 46 ∧
    getFrameCount (imageReader basedPack 94 16 [packedEntry]) packedEntry = 1 ∧
    getFrameCountLog (imageReader basedPack 94 16 [packedEntry]) packedEntry =
      [Txn.read 62 6] ∧
    (decodeRLEFrameStreamed (imageReader basedPack 94 16 [packedEntry]) packedEntry 0 []).map
      (fun res => (res.ok, res.txns)) =
        some (true, [Txn.read 62 18, Txn.read 80 8, Txn.read 88 6]) ∧
    (imagePartition basedPack 94).bytes 46 4 ≠ MAGIC_ANIM := by
  refine ⟨basedPack_loaded.1, basedPack_loaded.2, by decide, rfl, by decide, by decide, ?_,
    by decide⟩
  have hs := decodeFrame_streamFrame READ_CHUNK MAX_FRAME_PIXELS
    (imageReader basedPack 94 16 [packedEntry]) packedEntry 0 [] (List.length_replicate _ _)
  rw [streamFrame_stream (read (imageReader basedPack 94 16 [packedEntry])) READ_CHUNK
    MAX_FRAME_PIXELS packedEntry 0 [] ((imagePartition basedPack 94).bytes 62 18)
    ((imagePartition basedPack 94).bytes 80 8) true [0x07E0, 0x07E0, 0, 0]
    [Txn.read 62 18, Txn.read 80 8, Txn.read 88 6]
    (by decide) (by decide) (by decide) (by decide)
    (by set_option maxRecDepth 100000 in decide)] at hs
  obtain ⟨res, hres, hv⟩ := Option.map_eq_some'.mp hs
  simp only [Prod.mk.injEq] at hv
  rw [decodeRLEFrameStreamed, hres, Option.map_some', hv.1, hv.2.2]

/-- C15 (amended).  A table entry's offset is relative to the reader's base
offset.  `getFrameCount` makes one driver read, of 6 bytes at store offset
`(base_offset_ + entry.offset) mod 2^32`, unless the bounds test of `read`
refuses the range (then it makes none and answers 0), and computes its result
from the bytes read there.  `decodeRLEFrameStreamed` returns for every index and
buffer; unless the bounds test refuses the 18-byte range (then it returns false
without any driver call), its first driver call is the 18-byte read at that same
store offset.  That store offset is `entry.offset` exactly when the base offset
is 0. -/
theorem header_read_at_base_plus_offset (r : Reader) (p : Partition) (anim : AnimationEntry)
    (hp : r.partition_ = some p) (hb : r.base_offset_ < U32) (ho : anim.offset < U32) :
    (((r.base_offset_ + anim.offset + 6) % U32 > p.size →
        getFrameCountLog r anim = [] ∧ getFrameCount r anim = 0) ∧
      ((r.base_offset_ + anim.offset + 6) % U32 ≤ p.size →
        getFrameCountLog r anim = [Txn.read ((r.base_offset_ + anim.offset) % U32) 6])) ∧
    (∀ h, (read r anim.offset 6).data = some h →
      h = p.bytes ((r.base_offset_ + anim.offset) % U32) 6 ∧
      getFrameCount r anim = if h.take 4 = MAGIC_ANIM then le16 h 4 else 0) ∧
    (∀ frame_idx out, ∃ res, decodeRLEFrameStreamed r anim frame_idx out = some res ∧
      ((r.base_offset_ + anim.offset + 18) % U32 > p.size →
        res.ok = false ∧ res.txns = []) ∧
      ((r.base_offset_ + anim.offset + 18) % U32 ≤ p.size →
        ∃ rest, res.txns = Txn.read ((r.base_offset_ + anim.offset) % U32) 18 :: rest) ∧
      (res.ok = true →
        (read r anim.offset 18).data =
          some (p.bytes ((r.base_offset_ + anim.offset) % U32) 18))) ∧
    ((r.base_offset_ + anim.offset) % U32 = anim.offset ↔ r.base_offset_ = 0) := by
  obtain ⟨t6a, t6b⟩ := read_txns hp anim.offset 6
  obtain ⟨t18a, t18b⟩ := read_txns hp anim.offset 18
  refine ⟨⟨?_, t6b⟩, ?_, ?_, ?_⟩
  · intro hgt
    obtain ⟨d, t⟩ := t6a hgt
    exact ⟨t, by simp only [getFrameCount, d]⟩
  · intro h hs
    obtain ⟨e1, _⟩ := read_txns_of_some hp hs
    refine ⟨e1, ?_⟩
    simp only [getFrameCount, hs]
    by_cases hm : h.take 4 = MAGIC_ANIM <;> simp [hm]
  · intro frame_idx out
    obtain ⟨res, hres⟩ := decodeFrame_total READ_CHUNK MAX_FRAME_PIXELS (by decide) r anim
      frame_idx out
    refine ⟨res, hres, ?_, ?_, ?_⟩
    · intro hgt
      obtain ⟨d, t⟩ := t18a hgt
      rcases decodeFrame_header_txn _ _ r anim frame_idx out res hres with
        ⟨_, h2, h3⟩ | ⟨hdr, _, h1, _⟩
      · exact ⟨h2, by rw [h3, t]⟩
      · rw [d] at h1
        cases h1
    · intro hle
      rcases decodeFrame_header_txn _ _ r anim frame_idx out res hres with
        ⟨_, _, h3⟩ | ⟨_, rest, _, h2⟩
      · exact ⟨[], by rw [h3, t18b hle]⟩
      · exact ⟨rest, h2⟩
    · intro hok
      rcases decodeFrame_header_txn _ _ r anim frame_idx out res hres with
        ⟨_, h2, _⟩ | ⟨hdr, _, h1, _⟩
      · rw [hok] at h2
        cases h2
      · obtain ⟨e1, _⟩ := read_txns_of_some hp h1
        rw [h1, e1]
  · have hU : U32 = 4294967296 := by decide
    rw [hU] at hb ho ⊢
    omega

/-- Witness for C15 (amended): the loaded entry of `basedPack` at base offset 16:
the probe reads at store offset 62, the decode of frame 0 starts with the header
read at 62, and 62 is not the entry's offset 46. -/
theorem header_read_at_base_plus_offset_witness :
    getFrameCountLog (imageReader basedPack 94 16 [packedEntry]) packedEntry =
      [Txn.read 62 6] ∧
    (∃ res rest, decodeRLEFrameStreamed (imageReader basedPack 94 16 [packedEntry])
        packedEntry 0 [] = some res ∧ res.txns = Txn.read 62 18 :: rest) ∧
    ¬ ((16 + 46) % U32 = 46) := by
  have h := header_read_at_base_plus_offset (imageReader basedPack 94 16 [packedEntry])
    (imagePartition basedPack 94) packedEntry rfl (by decide) (by decide)
  obtain ⟨res, hres, _, h2, _⟩ := h.2.2.1 0 []
  obtain ⟨rest, hrest⟩ := h2 (by decide)
  exact ⟨h.1.2 (by decide), ⟨res, rest, hres, hrest⟩,
    fun e => absurd (h.2.2.2.mp e) (by decide)⟩

end AnimationFlashReader
